import Mathlib

/-!
# Placeholder resolution of `api/resolution_properties.go`

A shallow embedding of `PropertiesResolver` (the tree walker
`resolvePlaceholders`, the string resolver `resolveString` and its helpers)
followed by theorems about it.

Conventions of the embedding

* Go strings are lists of characters (`Str`); the texts handled are assumed to
  be valid UTF-8, so that byte offsets 2 and `len-1` of a match of the
  placeholder pattern are character offsets.
* A Go `map[string]interface{}` is an association list with distinct keys.
  The order of the list is the order in which `range` produces the keys, so a
  statement quantified over all lists with a given content is a statement
  about every visit order.  The value of a key is read when the key is
  produced.  An entry created in the map while it is ranged over is produced
  at a later turn or not at all, as Go leaves open; the choice is a parameter
  (`Env.produce`), and a statement for every `Env` holds for every choice.
* The receiver `pr` and the cycle guard `stack` are mutable in Go; here they
  are passed in and returned.  `currentMap` is a reference into the tree; here
  it is the path of keys leading from `pr.data` to that map.  Distinct maps of
  the tree are assumed not to alias.
* A `Fault` is a Go panic (a failed type assertion, a slice or index out of
  range, a write to a nil map) or the exhaustion of a recursion budget of the
  embedding.  `resolveString` takes a budget for the depth of its recursion,
  `resolvePlaceholders` one for the nesting of mappings; the budgets
  `resolvePlaceholdersFromTop` runs with are proved sufficient, and a
  sufficient budget can be replaced by any larger one.
* The template engine (`text/template` with the sprig functions) and
  `fmt.Sprintf("%v", _)` are parameters (`Env`).  The engine is the
  package-level `Template`, which keeps what it parsed: its outcome on a text
  is a function of the text and of the texts handed to it before, which the
  resolver carries along in the field `parsed`.
-/

namespace Glint

/-! ## Texts -/

/-- Go `string`. -/
abbrev Str := List Char

/-- The character `{`. -/
def lbrace : Char := Char.ofNat 123

/-- The character `}`. -/
def rbrace : Char := Char.ofNat 125

/-- The character `$`. -/
def dollar : Char := Char.ofNat 36

/-- The character `:`. -/
def colon : Char := Char.ofNat 58

/-- The two characters that open a placeholder. -/
def openMark : Str := [dollar, lbrace]

/-- The opening template marker, two `{`. -/
def tmplOpen : Str := [lbrace, lbrace]

/-- The closing template marker, two `}`. -/
def tmplClose : Str := [rbrace, rbrace]

/-- Whether `pat` occurs at the start of the text. -/
def startsWith : Str → Str → Bool
  | [], _ => true
  | _ :: _, [] => false
  | p :: ps, c :: cs => decide (p = c) && startsWith ps cs

/-- Go `strings.Contains(s, pat)`. -/
def hasSub (pat : Str) : Str → Bool
  | [] => startsWith pat []
  | c :: cs => startsWith pat (c :: cs) || hasSub pat cs

/-- Go `unicode.IsSpace`. -/
def isSpace (c : Char) : Bool :=
  let n := c.toNat
  (9 ≤ n && n ≤ 13) || n = 32 || n = 133 || n = 160 || n = 5760 ||
  (8192 ≤ n && n ≤ 8202) || n = 8232 || n = 8233 || n = 8239 || n = 8287 || n = 12288

/-- Go `strings.TrimSpace`. -/
def TrimSpace (s : Str) : Str :=
  ((s.dropWhile isSpace).reverse.dropWhile isSpace).reverse

/-- Go `strings.Split(s, ":")`. -/
def splitColon : Str → List Str
  | [] => [[]]
  | c :: cs =>
    if c = colon then [] :: splitColon cs
    else match splitColon cs with
      | [] => [[c]]
      | h :: t => (c :: h) :: t

/-! ## The placeholder pattern -/

/-- Splits a text at the first occurrence of the two characters `$`, `{`:
the text before them and the text after them. -/
def findOpen : Str → Option (Str × Str)
  | [] => none
  | [_] => none
  | c :: d :: rest =>
    if c = dollar ∧ d = lbrace then some ([], rest)
    else match findOpen (d :: rest) with
      | none => none
      | some (a, b) => some (c :: a, b)

/-- Splits a text at the first `}`: the text before it and the text after it. -/
def findClose : Str → Option (Str × Str)
  | [] => none
  | c :: rest =>
    if c = rbrace then some ([], rest)
    else match findClose rest with
      | none => none
      | some (a, b) => some (c :: a, b)

/-- The leftmost match of `placeholderRegex` (a `$`, a `{`, any characters
other than `}`, a `}`): the text before the match, the text between the
braces, and the text after the match. -/
def nextMatch (s : Str) : Option (Str × Str × Str) :=
  match findOpen s with
  | none => none
  | some (before, r) =>
    match findClose r with
    | none => none
    | some (inner, after) => some (before, inner, after)

/-- The text of a match whose braces enclose `inner`. -/
def matchText (inner : Str) : Str := openMark ++ inner ++ [rbrace]

/-! ## Data model -/

/-- What goes wrong without the resolver noticing: a Go panic, or the end of
the recursion budget of the embedding. -/
inductive Fault
  | outOfFuel
  | typeAssertion
  | sliceBounds
  | indexOutOfRange
  | nilMapWrite
deriving DecidableEq

/-- A leaf that is neither a string, a sequence nor a mapping. -/
inductive Scalar
  | null
  | bool (b : Bool)
  | int (n : Int)
  | float (mantissa exponent : Int)
deriving DecidableEq

/-- A value held in a `map[string]interface{}`: a `string`, a
`[]interface{}`, a `[]string` (what the walker stores for a resolved
sequence), a nested `map[string]interface{}`, or another scalar. -/
inductive Value
  | str (s : Str)
  | seq (xs : List Value)
  | strs (xs : List Str)
  | map (m : List (Str × Value))
  | other (o : Scalar)

instance : Inhabited Value := ⟨.other .null⟩

/-- Modelled from the spec: `ResolvedConfigValues` is declared outside the
files at hand; the resolver indexes it by property name and ranges over it as a
`map[string]interface{}` ("a mapping from dotted property names to values"). -/
abbrev Tree := List (Str × Value)

/-- Go `m[k]` with the comma-ok form. -/
def Tree.get : Tree → Str → Option Value
  | [], _ => none
  | (k, v) :: rest, key => if k = key then some v else Tree.get rest key

/-- Go `m[k] = v`. -/
def Tree.set : Tree → Str → Value → Tree
  | [], key, v => [(key, v)]
  | (k, x) :: rest, key, v => if k = key then (k, v) :: rest else (k, x) :: Tree.set rest key v

/-- The keys of a map, in visit order. -/
def Tree.keys (m : Tree) : List Str := m.map Prod.fst

/-- A reference to a map of the tree: the keys leading to it from the top. -/
abbrev Path := List Str

/-- The map a path refers to. -/
def Tree.at : Tree → Path → Option Tree
  | t, [] => some t
  | t, k :: ks =>
    match Tree.get t k with
    | some (.map m) => Tree.at m ks
    | _ => none

/-- Applies `f` to the map a path refers to. -/
def Tree.modifyAt (f : Tree → Tree) : Path → Tree → Tree
  | [], t => f t
  | k :: ks, t =>
    match Tree.get t k with
    | some (.map m) => Tree.set t k (.map (Tree.modifyAt f ks m))
    | _ => t

mutual
/-- Nesting depth of the mappings inside a value. -/
def Value.depth : Value → Nat
  | .map m => depthEntries m + 1
  | _ => 0
/-- Nesting depth of the mappings inside the entries of a map. -/
def depthEntries : List (Str × Value) → Nat
  | [] => 0
  | (_, v) :: rest => max (Value.depth v) (depthEntries rest)
end

/-- The cycle guard: Go `map[string]interface{}` used as a set, `none` being
the nil map. -/
abbrev Stack := Option (List Str)

/-- Go `newStack()`. -/
def newStack : Stack := some []

/-- Go `stack != nil && stack[name] != nil`. -/
def Stack.has : Stack → Str → Bool
  | none, _ => false
  | some s, name => decide (name ∈ s)

/-- The outcome of the template engine on a text: `Template.Parse` fails, or
`Execute` on the fixed data fails, or the rendered text. -/
inductive TemplateResult
  | parseError (e : Str)
  | execError (err : Str)
  | rendered (out : Str)

/-- What the source leaves to the library and to the runtime. -/
structure Env where
  /-- Parse and execute of the package-level `Template` on a text, with the
  fixed data.  `Template` keeps state from one `Parse` to the next, and the
  functions it offers may read the clock; the first argument is the list of the
  texts handed to it before, which is different at every call, so that any
  sequence of outcomes is the behaviour of some `template`. -/
  template : List Str → Str → TemplateResult
  /-- Go `fmt.Sprintf("%v", v)`. -/
  sprint : Value → Str
  /-- The choice `range` makes for an entry created in the map at `currentMap`
  while that map is ranged over: for the new key and the keys still to come,
  `none` when the entry is not produced, `some i` when it is produced before
  the key of index `i` of those still to come (after all of them when there is
  no such index).  A map is ranged over once in a run and a key is created in
  it once, so that any sequence of choices is the behaviour of some
  `produce`. -/
  produce : Path → Str → List Str → Option Nat

/-- Go `PropertiesResolver`; `error` holds the text of the error, `none` being
nil.  `parsed` is not a field of the Go structure: it is the state of the
package-level `Template`, given by the texts handed to it so far, which is
threaded with the resolver. -/
structure PropertiesResolver where
  data : Tree
  error : Option Str
  messages : List Str
  parsed : List Str := []

/-- Go `UnresolvedPropertyResult`. -/
def UnresolvedPropertyResult : Str := []

/-- Go `pr.resolvePropertyName`. -/
def PropertiesResolver.resolvePropertyName (pr : PropertiesResolver) (name : Str) :
    Option Value :=
  Tree.get pr.data name

/-- Go `pr.addMessage`, the format already applied. -/
def PropertiesResolver.addMessage (pr : PropertiesResolver) (msg : Str) : PropertiesResolver :=
  { pr with messages := pr.messages ++ [msg] }

/-- Go `currentMap[key] = v`, `currentMap` being the map at `path`. -/
def PropertiesResolver.assign (pr : PropertiesResolver) (path : Path) (key : Str) (v : Value) :
    PropertiesResolver :=
  { pr with data := Tree.modifyAt (fun m => Tree.set m key v) path pr.data }

/-- The text `Missing placeholder [m] for property [n]`. -/
def missingPlaceholderMsg (foundMatch propertyName : Str) : Str :=
  "Missing placeholder [".toList ++ foundMatch ++ "] for property [".toList ++ propertyName ++
    "]".toList

/-- The text `Missing value for property [p]`. -/
def missingValueMsg (name : Str) : Str :=
  "Missing value for property [".toList ++ name ++ "]".toList

/-- The text `stack overflow found when resolving ` followed by the
placeholder of `name`. -/
def stackOverflowMsg (name : Str) : Str :=
  "stack overflow found when resolving ".toList ++ matchText name

/-! ## The resolver -/

/-- Go `pr.getPropertyClauseFromMatch`: the text between offsets 2 and
`len-1`, trimmed and split on every colon. -/
def getPropertyClauseFromMatch (m : Str) : Except Fault (List Str) :=
  if m.length < 3 then .error .sliceBounds
  else .ok (splitColon (TrimSpace ((m.take (m.length - 1)).drop 2)))

/-- The state the replacement function works on. -/
abbrev Machine := Stack × PropertiesResolver

/-- Go `regexp.ReplaceAllStringFunc` for `placeholderRegex`, with a
replacement function that works on a state; `n` bounds the number of
matches. -/
def replaceAllAux (repl : Str → Machine → Except Fault (Str × Machine)) :
    Nat → Str → Machine → Except Fault (Str × Machine)
  | 0, s, st => .ok (s, st)
  | n + 1, s, st =>
    match nextMatch s with
    | none => .ok (s, st)
    | some (before, inner, after) =>
      match repl (matchText inner) st with
      | .error e => .error e
      | .ok (r, st1) =>
        match replaceAllAux repl n after st1 with
        | .error e => .error e
        | .ok (rest, st2) => .ok (before ++ r ++ rest, st2)

/-- Go `placeholderRegex.ReplaceAllStringFunc(s, repl)`. -/
def ReplaceAllStringFunc (repl : Str → Machine → Except Fault (Str × Machine)) (s : Str)
    (st : Machine) : Except Fault (Str × Machine) :=
  replaceAllAux repl s.length s st

/-- Lines 118 to 132 of `resolveString`: the re-check after the first lookup,
then the default. -/
def recheck (name : Str) (more : List Str) (st : Machine) : Except Fault (Str × Machine) :=
  match st.2.resolvePropertyName name with
  | some (.str updated) => .ok (updated, st)
  | some _ => .error .typeAssertion
  | none =>
    match more with
    | [] => .ok (UnresolvedPropertyResult, st.1, st.2.addMessage (missingValueMsg name))
    | dflt :: _ => .ok (dflt, st)

/-- The function literal passed to `ReplaceAllStringFunc` in `resolveString`
(lines 84 to 133); `self` is the recursive call
`pr.resolveString(currentMap, _, _, _)`. -/
def onMatch (env : Env) (self : Str → Str → Machine → Except Fault (Str × Machine))
    (currentMap : Path) (propertyName : Str) (foundMatch : Str) (st : Machine) :
    Except Fault (Str × Machine) :=
  match getPropertyClauseFromMatch foundMatch with
  | .error e => .error e
  | .ok [] => .error .indexOutOfRange
  | .ok (name :: more) =>
    if name = [] then
      .ok (UnresolvedPropertyResult, st.1,
        st.2.addMessage (missingPlaceholderMsg foundMatch propertyName))
    else
      match st.2.resolvePropertyName name with
      | some (.str currValStr) =>
        if hasSub openMark currValStr then
          if st.1.has name then
            .ok ([], st.1, { st.2 with error := some (stackOverflowMsg name) })
          else
            match st.1 with
            | none => .error .nilMapWrite
            | some s =>
              match self name currValStr (some (name :: s), st.2) with
              | .error e => .error e
              | .ok (r, stack1, pr1) => recheck name more (stack1, pr1.assign currentMap name (.str r))
        else .ok (currValStr, st)
      | some v => .ok (env.sprint v, st)
      | none => recheck name more st

/-- The test of line 57: the value contains both template markers. -/
def usesTemplate (value : Str) : Bool := hasSub tmplOpen value && hasSub tmplClose value

/-- Lines 54 to 78 of `resolveString`: the template pass.  `none` is the early
`return ""`. -/
def templatePass (env : Env) (value : Str) (pr : PropertiesResolver) :
    Option Str × PropertiesResolver :=
  if usesTemplate value then
    match env.template pr.parsed value with
    | .parseError e => (none, { pr with error := some e, parsed := pr.parsed ++ [value] })
    | .execError _ => (none, { pr with error := none, parsed := pr.parsed ++ [value] })
    | .rendered out => (some out, { pr with parsed := pr.parsed ++ [value] })
  else (some value, pr)

/-- Go `pr.resolveString(currentMap, propertyName, value, stack)`.  The first
argument bounds the depth of the recursion: a call with budget `n + 1` makes
its nested calls with budget `n`. -/
def resolveString (env : Env) :
    Nat → Path → Str → Str → Machine → Except Fault (Str × Machine)
  | 0, _, _, _, _ => .error .outOfFuel
  | fuel + 1, currentMap, propertyName, value, st =>
    match templatePass env value st.2 with
    | (none, pr1) => .ok ([], st.1, pr1)
    | (some goTemplatesResult, pr1) =>
      if pr1.error ≠ none then .ok ([], st.1, pr1)
      else
        ReplaceAllStringFunc
          (onMatch env (resolveString env fuel currentMap) currentMap propertyName)
          goTemplatesResult (st.1, pr1)

/-- The loop over the elements of a `[]interface{}` (lines 38 to 40). -/
def resolveElements (env : Env) (sfuel : Nat) (currentMap : Path) (propertyName : Str) :
    List Value → List Str → Machine → Except Fault (List Str × Machine)
  | [], resolved, st => .ok (resolved, st)
  | .str eachUnresolved :: rest, resolved, st =>
    match resolveString env sfuel currentMap propertyName eachUnresolved st with
    | .error e => .error e
    | .ok (r, st1) => resolveElements env sfuel currentMap propertyName rest (resolved ++ [r]) st1
  | _ :: _, _, _ => .error .typeAssertion

/-- The body of the loop of `resolvePlaceholders` for one key (lines 32 to
44); `walk` is the recursive call `pr.resolvePlaceholders`. -/
def visit (env : Env) (sfuel : Nat) (walk : Path → PropertiesResolver → Except Fault PropertiesResolver)
    (currentMap : Path) (propertyName : Str) (pr : PropertiesResolver) :
    Except Fault PropertiesResolver :=
  match (Tree.at pr.data currentMap).bind (fun m => Tree.get m propertyName) with
  | some (.map _) => walk (currentMap ++ [propertyName]) pr
  | some (.seq typedVal) =>
    match resolveElements env sfuel currentMap propertyName typedVal [] (newStack, pr) with
    | .error e => .error e
    | .ok (resolved, _, pr1) => .ok (pr1.assign currentMap propertyName (.strs resolved))
  | some (.str typedVal) =>
    match resolveString env sfuel currentMap propertyName typedVal (newStack, pr) with
    | .error e => .error e
    | .ok (r, _, pr1) => .ok (pr1.assign currentMap propertyName (.str r))
  | _ => .ok pr

/-- The `range` loop over a map in which no entry is created meanwhile: the
keys in order, each on the state left by the one before.  This is the loop of
line 31 for the top-level map, whose set of keys does not change
(`resolvePlaceholders_top`). -/
def visitAll (step : Str → PropertiesResolver → Except Fault PropertiesResolver) :
    List Str → PropertiesResolver → Except Fault PropertiesResolver
  | [], pr => .ok pr
  | k :: ks, pr =>
    match step k pr with
    | .error e => .error e
    | .ok pr1 => visitAll step ks pr1

/-- The keys of the map at a path; none when the path leads to no map. -/
def keysAt (data : Tree) (currentMap : Path) : List Str :=
  match Tree.at data currentMap with
  | some m => m.keys
  | none => []

/-- The keys of a list that are not in `old`, each once. -/
def newKeys (old : List Str) : List Str → List Str
  | [] => []
  | k :: ks => if k ∈ old then newKeys old ks else k :: newKeys (k :: old) ks

/-- The keys of the entries that one turn of the loop created in the map at
`currentMap` (line 107 assigns to `currentMap[propName]`, and `propName` need
not be a key of `currentMap`). -/
def createdKeys (before after : Tree) (currentMap : Path) : List Str :=
  newKeys (keysAt before currentMap) (keysAt after currentMap)

/-- The list with `k` put before the element of index `i`, at the end when
there is no such element. -/
def insertAt : Nat → Str → List Str → List Str
  | 0, k, l => k :: l
  | _ + 1, k, [] => [k]
  | i + 1, k, x :: l => x :: insertAt i k l

/-- The keys still to come after a turn of the loop that created entries: for
each entry created, `range` either never produces it or produces it at some
later turn, as `env.produce` chooses. -/
def enqueue (env : Env) (currentMap : Path) : List Str → List Str → List Str
  | [], remaining => remaining
  | k :: created, remaining =>
    enqueue env currentMap created
      (match env.produce currentMap k remaining with
        | none => remaining
        | some i => insertAt i k remaining)

/-- The `range` loop of line 31 over the map at `currentMap`: the keys still
to come in order, each on the state left by the one before; the value of a key
is read when the key is produced, and the entries a turn creates in the map
join the keys still to come or are skipped.  The first argument bounds the
number of turns. -/
def rangeLoop (env : Env) (step : Str → PropertiesResolver → Except Fault PropertiesResolver)
    (currentMap : Path) : Nat → List Str → PropertiesResolver → Except Fault PropertiesResolver
  | _, [], pr => .ok pr
  | 0, _ :: _, _ => .error .outOfFuel
  | n + 1, k :: rest, pr =>
    match step k pr with
    | .error e => .error e
    | .ok pr1 =>
      rangeLoop env step currentMap n
        (enqueue env currentMap (createdKeys pr.data pr1.data currentMap) rest) pr1

/-- Go `pr.resolvePlaceholders(currentMap)`.  `sfuel` is the budget given to
every call of `resolveString`, the second argument bounds the nesting of
mappings.  The loop gets one turn for every key of the map and one for every
top-level key: an entry created in the map has the name of a top-level
property. -/
def resolvePlaceholders (env : Env) (sfuel : Nat) :
    Nat → Path → PropertiesResolver → Except Fault PropertiesResolver
  | 0, _, _ => .error .outOfFuel
  | d + 1, currentMap, pr =>
    match Tree.at pr.data currentMap with
    | none => .ok pr
    | some m =>
      rangeLoop env (visit env sfuel (resolvePlaceholders env sfuel d) currentMap) currentMap
        (m.keys.length + pr.data.keys.length) m.keys pr

/-- Go `pr.resolvePlaceholdersFromTop()`; the returned resolver holds the two
results, `data` and `error`.  The budgets are the number of top-level keys plus
one and the nesting depth plus one. -/
def resolvePlaceholdersFromTop (env : Env) (pr : PropertiesResolver) :
    Except Fault PropertiesResolver :=
  resolvePlaceholders env (pr.data.length + 1) (depthEntries pr.data + 1) [] pr

/-- A resolver as the caller builds it: `PropertiesResolver{data: t}`. -/
def fresh (t : Tree) : PropertiesResolver := { data := t, error := none, messages := [] }

/-! ## Vocabulary of the statements -/

/-- A property name that a placeholder can spell: non-empty, free of `:` and
`}`, without white space at either end. -/
def wellFormedName (p : Str) : Bool :=
  decide (p ≠ []) && decide (colon ∉ p) && decide (rbrace ∉ p) &&
  (match p.head? with
    | some c => !isSpace c
    | none => true) &&
  (match p.getLast? with
    | some c => !isSpace c
    | none => true)

/-- The text does not end in white space. -/
def noTrailingSpace (d : Str) : Bool :=
  match d.getLast? with
  | some c => !isSpace c
  | none => true

/-- The closure `resolveString` hands to `ReplaceAllStringFunc` when it is
called with budget `fuel + 1`. -/
def closure (env : Env) (fuel : Nat) (currentMap : Path) (propertyName : Str) :
    Str → Machine → Except Fault (Str × Machine) :=
  onMatch env (resolveString env fuel currentMap) currentMap propertyName

/-- The entries of a reference chain: every name holds the placeholder of the
name after it, the last name holds the text `v`. -/
def chainEntries : List Str → Str → Tree
  | [], _ => []
  | p :: rest, v =>
    (p, .str (match rest.head? with
      | some q => matchText q
      | none => v)) :: chainEntries rest v

/-- The entries of a reference cycle: every name holds the placeholder of the
name after it, the last name the placeholder of the first. -/
def cycleEntries : List Str → Tree
  | [] => []
  | p :: rest => List.zipWith (fun a b => (a, Value.str (matchText b))) (p :: rest) (rest ++ [p])

/-- The number of keys that are not in the cycle guard. -/
def pending : List Str → List Str → Nat
  | [], _ => 0
  | k :: ks, S => (if k ∈ S then 0 else 1) + pending ks S

/-- The number of keys that are not in a cycle guard; the nil guard is never
written to. -/
def stackPending (ks : List Str) : Stack → Nat
  | none => 0
  | some S => pending ks S

/-- A run that did not exhaust its budget: it ended in a panic, or in a
result that satisfies `Q`. -/
def Outcome {α : Type} (Q : α → Prop) : Except Fault α → Prop
  | .error e => e ≠ Fault.outOfFuel
  | .ok a => Q a

/-- The values the resolver assigns: a `string` or a `[]string`. -/
def isText : Value → Bool
  | .str _ => true
  | .strs _ => true
  | _ => false

/-- The second tree comes from the first by assignments of strings and
sequences of strings, each to a key of the map at `P` or of a map below it,
the key being one of `ks` or a key that map holds already. -/
inductive Writes (ks : List Str) (P : Path) : Tree → Tree → Prop
  | refl (t : Tree) : Writes ks P t t
  | step (t t1 : Tree) (Q : Path) (k : Str) (x : Value) : Writes ks P t t1 → isText x = true →
      (k ∈ ks ∨ k ∈ keysAt t1 (P ++ Q)) →
      Writes ks P t (Tree.modifyAt (fun m => Tree.set m k x) (P ++ Q) t1)

/-- Every value that lookups reach, at any depth of nested mappings, satisfies
`q` when it is not itself a mapping. -/
inductive Good (q : Value → Prop) : Value → Prop
  | leaf (v : Value) : (∀ m, v ≠ .map m) → q v → Good q v
  | node (m : Tree) : (∀ k v, Tree.get m k = some v → Good q v) → Good q (.map m)

/-- The value is not a `[]interface{}`. -/
def noSeq : Value → Prop
  | .seq _ => False
  | _ => True

/-- A string value is left with nothing to resolve: it has no match of the
placeholder pattern and does not hold both template markers. -/
def plainLeaf : Value → Prop
  | .str s => nextMatch s = none ∧ usesTemplate s = false
  | _ => True

/-- The second guard holds every name of the first. -/
def StackLe : Stack → Stack → Prop
  | none, s => s = none
  | some S, s => ∃ S1, s = some S1 ∧ ∀ x ∈ S, x ∈ S1

/-- What a call of `resolveString` with `currentMap = cm` may do to the state:
the top-level keys stay, the tree changes by assignments at or below `cm` to
keys that are top-level keys or keys of the map assigned to, the guard only
grows. -/
def Grows (cm : Path) (st st1 : Machine) : Prop :=
  st1.2.data.keys = st.2.data.keys ∧ Writes st.2.data.keys cm st.2.data st1.2.data ∧
    StackLe st.1 st1.1

/-- The number of turns left to the loop over the map at `P`: the keys still
to come, and the names of `top` that are not keys of the map. -/
def turns (top : List Str) (P : Path) (ks : List Str) (data : Tree) : Nat :=
  ks.length + (top.dedup.filter (fun j => decide (j ∉ keysAt data P))).length

/-- A chain under resolution: every name holds `v` already, or still the
placeholder of the name after it. -/
def ChainState (data : Tree) (v : Str) : List Str → Prop
  | [] => True
  | p :: rest =>
    (Tree.get data p = some (.str v) ∨
      ∃ q, rest.head? = some q ∧ Tree.get data p = some (.str (matchText q))) ∧
    ChainState data v rest

/-- The text is made of pieces without the two characters `$`, `{` and of
complete spans of the placeholder pattern: the scan of a text that continues
it starts afresh at its end. -/
inductive Settled : Str → Prop
  | literal (s : Str) : hasSub openMark s = false → Settled s
  | span (w inner rest : Str) : hasSub openMark w = false → rbrace ∉ inner → Settled rest →
      Settled (w ++ matchText inner ++ rest)

/-- The placeholder of a name, from the Go literal of the name. -/
def ph (name : String) : Str := matchText name.toList

/-- A string value, from its Go literal. -/
def sv (s : String) : Value := .str s.toList

/-- A map, from Go literals for its keys. -/
def tree (l : List (String × Value)) : Tree := l.map (fun e => (e.1.toList, e.2))

/-- An engine that rejects every text, for texts `text/template` rejects. -/
def rejectingEnv : Env :=
  { template := fun _ _ => .parseError "template: parse error".toList,
    sprint := fun _ => [],
    produce := fun _ _ remaining => some remaining.length }

/-- A text that `text/template` parses and fails to execute on the data of
`resolveString`: `index .Applications 5` between the template markers, an
index past the end of a list of two. -/
def indexPastEnd : Str := tmplOpen ++ "index .Applications 5".toList ++ tmplClose

/-- An engine that parses every text and fails to execute it, for texts such
as `indexPastEnd`. -/
def failingEnv : Env :=
  { template := fun _ _ => .execError "template: error calling index".toList,
    sprint := fun _ => [],
    produce := fun _ _ remaining => some remaining.length }

/-- The engine failed at execution. -/
def isExecError : TemplateResult → Bool
  | .execError _ => true
  | _ => false

/-- Whether the engine fails at execution on one of the texts `later`, handed
to it in this order after the texts `earlier`. -/
def execFails (env : Env) : List Str → List Str → Bool
  | _, [] => false
  | earlier, x :: later =>
    isExecError (env.template earlier x) || execFails env (earlier ++ [x]) later

/-- From the first state of the resolver to the second the engine was handed
the texts `later`, and if the first state holds a terminal error and the engine
did not fail at execution on any of these texts, the second state holds a
terminal error. -/
def Sticky (env : Env) (pr pr1 : PropertiesResolver) : Prop :=
  ∃ later, pr1.parsed = pr.parsed ++ later ∧
    (pr.error ≠ none → execFails env pr.parsed later = false → pr1.error ≠ none)

/-- Every key that holds a string in the first tree holds a string in the
second. -/
def StrKeep (t t1 : Tree) : Prop :=
  ∀ k s, Tree.get t k = some (.str s) → ∃ s1, Tree.get t1 k = some (.str s1)

/-- What a step keeps for the operations that can fail: a guard that is not
nil stays so, and a top-level key that holds a string still holds a string. -/
def Keeps (st st1 : Machine) : Prop :=
  (st.1 ≠ none → st1.1 ≠ none) ∧ StrKeep st.2.data st1.2.data

/-- A run that met no panic: it ended for lack of budget, or in a result that
satisfies `Q`. -/
def NoPanic {α : Type} (Q : α → Prop) : Except Fault α → Prop
  | .error e => e = Fault.outOfFuel
  | .ok a => Q a

/-- A `[]interface{}` holds only strings. -/
def seqOfStrings : Value → Prop
  | .seq xs => ∀ x ∈ xs, ∃ s, x = .str s
  | _ => True

/-- The text holds neither `$` nor `{`. -/
def plainText (s : Str) : Bool := decide (dollar ∉ s) && decide (lbrace ∉ s)

/-- The property name of a span, from the text between its braces: segment 0
of the clause. -/
def spanName (inner : Str) : Str := (splitColon (TrimSpace inner)).headD []

/-- A text in which `$` and `{` occur only as the two characters that open a
span, every span is closed, the text between the braces of a span holds no `$`
and no `{`, and every span names a property of rank below `bound`. -/
inductive CleanBelow (rank : Str → Nat) (bound : Nat) : Str → Prop
  | literal (s : Str) : plainText s = true → CleanBelow rank bound s
  | span (w inner rest : Str) : plainText w = true → plainText inner = true → rbrace ∉ inner →
      rank (spanName inner) < bound → CleanBelow rank bound rest →
      CleanBelow rank bound (w ++ matchText inner ++ rest)

/-- The test for `CleanBelow`, span by span; `n` bounds the number of spans. -/
def cleanBelow (rank : Str → Nat) (bound : Nat) : Nat → Str → Bool
  | 0, s => plainText s
  | n + 1, s =>
    match nextMatch s with
    | none => plainText s
    | some (w, inner, after) =>
      plainText w && plainText inner && decide (rank (spanName inner) < bound) &&
        cleanBelow rank bound n after

/-- A flat tree of strings in each of which `$` and `{` occur only as the two
characters that open a closed span, the text between the braces holding no `$`
and no `{`. -/
def cleanTree (t : Tree) : Bool :=
  t.all (fun e =>
    match e.2 with
    | .str s => cleanBelow (fun _ => 0) 1 s.length s
    | _ => false)

/-- Every `{` of the text follows a `$`; the flag tells whether a `$` precedes
the text. -/
def braceOk : Bool → Str → Bool
  | _, [] => true
  | prev, c :: rest => (decide (c ≠ lbrace) || prev) && braceOk (decide (c = dollar)) rest

/-- A clean text, whatever its spans name. -/
abbrev Clean : Str → Prop := CleanBelow (fun _ => 0) 1

/-- Every top-level value is a string that is clean. -/
def CleanData (data : Tree) : Prop :=
  ∀ k v, Tree.get data k = some v → ∃ s, v = .str s ∧ Clean s

/-- From the first tree to the second every top-level key keeps its value or
holds a string without `$` and `{`. -/
def StepFree (t t1 : Tree) : Prop :=
  ∀ k, Tree.get t1 k = Tree.get t k ∨ ∃ r, Tree.get t1 k = some (.str r) ∧ plainText r = true

/-- The replacement pass of `ReplaceAllStringFunc` for a replacement that is a
function of the match alone; `n` bounds the number of matches. -/
def substAux (f : Str → Str) : Nat → Str → Str
  | 0, s => s
  | n + 1, s =>
    match nextMatch s with
    | none => s
    | some (before, inner, after) => before ++ f (matchText inner) ++ substAux f n after

/-- The text with every match replaced by its image under `f`. -/
def substSpans (f : Str → Str) (s : Str) : Str := substAux f s.length s

/-- What `g` gives for the matches of a text, in order; `n` bounds the number
of matches. -/
def collectAux (g : Str → List Str) : Nat → Str → List Str
  | 0, _ => []
  | n + 1, s =>
    match nextMatch s with
    | none => []
    | some (_, inner, after) => g (matchText inner) ++ collectAux g n after

/-- What `g` gives for the matches of a text, in order. -/
def collectSpans (g : Str → List Str) (s : Str) : List Str := collectAux g s.length s

/-- What a match stands for in a tree of strings read through `look`, when
`val` gives the resolved text of a value that holds placeholders: nothing for
an empty name, the value of the name or its resolved text, else the default,
else nothing.  (A value that is not a string is not met in a tree of
strings.) -/
def spanValue (look : Str → Option Value) (val : Str → Str) (foundMatch : Str) : Str :=
  match getPropertyClauseFromMatch foundMatch with
  | .ok (name :: more) =>
    if name = [] then []
    else
      match look name with
      | some (.str cur) => if hasSub openMark cur then val cur else cur
      | some _ => []
      | none =>
        match more with
        | [] => []
        | dflt :: _ => dflt
  | _ => []

/-- The diagnostics a match of the value of `propertyName` gives rise to: one
for an empty name, one for a name that is absent and has no default. -/
def spanMsgs (look : Str → Option Value) (propertyName foundMatch : Str) : List Str :=
  match getPropertyClauseFromMatch foundMatch with
  | .ok (name :: more) =>
    if name = [] then [missingPlaceholderMsg foundMatch propertyName]
    else
      match look name with
      | none =>
        match more with
        | [] => [missingValueMsg name]
        | _ :: _ => []
      | some _ => []
  | _ => []

/-- The resolved text of a value, references followed to depth `n`. -/
def denote (look : Str → Option Value) : Nat → Str → Str
  | 0, s => s
  | n + 1, s => substSpans (spanValue look (denote look n)) s

/-- The diagnostics of the matches of the value `s` of `propertyName`. -/
def ownMsgs (look : Str → Option Value) (propertyName s : Str) : List Str :=
  collectSpans (spanMsgs look propertyName) s

/-- The diagnostics of the matches of the value of a key. -/
def ownOf (look : Str → Option Value) (k : Str) : List Str :=
  match look k with
  | some (.str s) => ownMsgs look k s
  | _ => []

/-- A flat tree of clean strings in which the spans of the value of a key name
properties of rank below the rank of the key: `rank` orders the reference
graph, which is then acyclic. -/
def acyclicTree (rank : Str → Nat) (t : Tree) : Bool :=
  t.all (fun e =>
    match e.2 with
    | .str s => cleanBelow rank (rank e.1) s.length s
    | _ => false)
/-- The tree is the original one, read through `look`, with the value of
every key of `R` replaced by its resolved text, a text without `$` and `{`. -/
def Resolved (look : Str → Option Value) (val : Str → Str) (R : List Str) (data : Tree) : Prop :=
  ∀ k, (k ∈ R → ∃ s, look k = some (.str s) ∧ Tree.get data k = some (.str (val s)) ∧
          plainText (val s) = true) ∧
    (k ∉ R → Tree.get data k = look k)

/-- What a step of the resolution of a value with rank bound `b` does to the
guard `S`, to the list `R` of the keys resolved so far and to the diagnostics:
the keys newly resolved were not in the guard and have rank below `b`, the
guard grows by resolved keys only, and the diagnostics grow by `extra` and by
the diagnostics of the keys newly resolved, in some order. -/
def Advance (look : Str → Option Value) (rank : Str → Nat) (b : Nat) (extra : List Str)
    (S R msgs S1 R1 msgs1 : List Str) : Prop :=
  ∃ newR, R1 = newR ++ R ∧ msgs1.Perm (msgs ++ extra ++ newR.flatMap (ownOf look)) ∧
    (∀ n ∈ S, n ∈ S1) ∧ (∀ n ∈ S1, n ∈ S ∨ n ∈ R1) ∧ ∀ n ∈ newR, n ∉ S ∧ rank n < b

/-- What `resolveString` and its replacement function guarantee on an acyclic
tree, for a result `r` and a final state `st1`: the result is `expected`, it
holds no `$` and no `{`, the guard is not nil, no error is set, and the state
has advanced. -/
def Settles (look : Str → Option Value) (rank : Str → Nat) (val : Str → Str) (b : Nat)
    (expected : Str) (extra : List Str) (S R : List Str) (pr : PropertiesResolver) (r : Str)
    (st1 : Machine) : Prop :=
  r = expected ∧ plainText r = true ∧
    ∃ S1 R1 pr1, st1 = (some S1, pr1) ∧ Resolved look val R1 pr1.data ∧ R1.Nodup ∧
      pr1.error = none ∧ Advance look rank b extra S R pr.messages S1 R1 pr1.messages

/-- The state of the walker on an acyclic tree after some visits: the keys of
`R` are resolved, no error is set, the diagnostics are those of the keys of
`R`, in some order. -/
def Walked (look : Str → Option Value) (val : Str → Str) (R : List Str)
    (pr : PropertiesResolver) : Prop :=
  Resolved look val R pr.data ∧ R.Nodup ∧ pr.error = none ∧
    pr.messages.Perm (R.flatMap (ownOf look))

/-- A rank given by a table of names, 0 for a name that is not in it. -/
def rankTable (l : List (String × Nat)) (k : Str) : Nat :=
  match l.find? (fun e => decide (e.1.toList = k)) with
  | some e => e.2
  | none => 0

/-- The inputs of the case `multi-level-recurse` of `Test_resolvePlaceholders`,
in the order of the source. -/
def multiLevelRecurse : Tree := tree [
  ("b.d.a", .str ("  ".toList ++ ph "c.d.a" ++ ph "")),
  ("b.a.a", .str (ph "c.d.a")),
  ("a.a.a", sv "apple"),
  ("c.d.a", .str (ph "a.d.a")),
  ("a.d.a", .str (ph "a.b.a")),
  ("a.a.b", sv "bye"),
  ("a.c.c", .str (ph "greeting:Hey" ++ " ".toList ++ ph "a.a.c" ++ "  ".toList)),
  ("a.d.b", .str (ph "a.b.d")),
  ("a.b.d", .str (ph "a.b.a")),
  ("a.e.b", .str (ph "missing" ++ "  ".toList ++ ph "a.a.b")),
  ("a.d.c", .str (ph "a.c.c")),
  ("a.a.c", sv "cat"),
  ("b.d.b", .str (ph "a.a.b")),
  ("a.b.a", .str (ph "a.a.a" ++ "  ".toList)),
  ("a.b.c", .str (ph "a.d.c")),
  ("c.e.a", .str ("  ".toList ++ ph "c.d.a" ++ "  ".toList))]

/-- The expectation of the case `multi-level-recurse`, in the order of the
inputs. -/
def multiLevelRecurseExpectation : Tree := tree [
  ("b.d.a", sv "  apple  "),
  ("b.a.a", sv "apple  "),
  ("a.a.a", sv "apple"),
  ("c.d.a", sv "apple  "),
  ("a.d.a", sv "apple  "),
  ("a.a.b", sv "bye"),
  ("a.c.c", sv "Hey cat  "),
  ("a.d.b", sv "apple  "),
  ("a.b.d", sv "apple  "),
  ("a.e.b", sv "  bye"),
  ("a.d.c", sv "Hey cat  "),
  ("a.a.c", sv "cat"),
  ("b.d.b", sv "bye"),
  ("a.b.a", sv "apple  "),
  ("a.b.c", sv "Hey cat  "),
  ("c.e.a", sv "  apple    ")]

/-- A rank for the reference graph of `multiLevelRecurse`: the length of the
longest chain of references from a key. -/
def multiLevelRecurseRank : Str → Nat :=
  rankTable [("a.b.a", 1), ("a.d.a", 2), ("c.d.a", 3), ("b.d.a", 4), ("b.a.a", 4), ("a.c.c", 1),
    ("a.d.b", 3), ("a.b.d", 2), ("a.e.b", 1), ("a.d.c", 2), ("b.d.b", 1), ("a.b.c", 3),
    ("c.e.a", 4)]

/-- The state of a run on the clean flat tree `t` that holds a cycle of the
names `ps`: the values are clean, every key holds its value of `t` or a text
without `$` and `{`, the terminal error is nil or the cycle error for a key of
`t` whose value holds the two characters that open a span, and the names of
the cycle hold their values of `t` as long as the error is nil. -/
def CycleInv (t : Tree) (ps : List Str) (pr : PropertiesResolver) : Prop :=
  CleanData pr.data ∧ StepFree t pr.data ∧
    (pr.error = none ∨ ∃ q s, pr.error = some (stackOverflowMsg q) ∧
      Tree.get t q = some (.str s) ∧ hasSub openMark s = true) ∧
    (pr.error ≠ none ∨ ∀ p ∈ ps, Tree.get pr.data p = Tree.get t p)

/-- A top-level tree in which every key of rank below `N` holds a string, clean
with spans that name properties of rank below the rank of its key: a text
whose spans name properties of rank below `N` refers, directly and through the
values it reaches, to strings only, along references that end.  Keys of rank
`N` or more may hold anything. -/
def acyclicBelow (rank : Str → Nat) (N : Nat) (t : Tree) : Bool :=
  t.all (fun e =>
    decide (N ≤ rank e.1) ||
      match e.2 with
      | .str s => cleanBelow rank (rank e.1) s.length s
      | _ => false)

/-- The character `"`. -/
def dquote : Char := Char.ofNat 34

/-- A text that defines the template `T` with body `x` and renders `y`:
`define "T"`, then `x`, then `end`, then `y`, the first and the third between
the template markers. -/
def defineT : Str :=
  tmplOpen ++ "define ".toList ++ [dquote] ++ "T".toList ++ [dquote] ++ tmplClose ++ "x".toList ++
    tmplOpen ++ "end".toList ++ tmplClose ++ "y".toList

/-- A text that renders the template `T`: `template "T"` between the template
markers. -/
def useT : Str := tmplOpen ++ "template ".toList ++ [dquote] ++ "T".toList ++ [dquote] ++ tmplClose

/-- An engine that treats `defineT` and `useT` as `text/template` does:
`defineT` renders `y`; `useT` renders `x` once `defineT` has been handed to
the package-level `Template`, and fails at execution before, `T` not being
defined; every other text is rejected. -/
def definingEnv : Env :=
  { template := fun parsed s =>
      if s = defineT then .rendered "y".toList
      else if s = useT then
        (if defineT ∈ parsed then .rendered "x".toList
          else .execError "template: no such template".toList)
      else .parseError "template: parse error".toList,
    sprint := fun _ => [],
    produce := fun _ _ remaining => some remaining.length }

/-! ## Scanning lemmas -/

theorem dollar_ne_lbrace : dollar ≠ lbrace := by decide
theorem dollar_ne_rbrace : dollar ≠ rbrace := by decide
theorem lbrace_ne_rbrace : lbrace ≠ rbrace := by decide

theorem startsWith_openMark (s : Str) :
    startsWith openMark s = true ↔ ∃ r, s = dollar :: lbrace :: r := by
  cases s with
  | nil => simp [openMark, startsWith]
  | cons c cs =>
    cases cs with
    | nil => simp [openMark, startsWith]
    | cons d r =>
      simp [openMark, startsWith]
      constructor
      · rintro ⟨h1, h2⟩; exact ⟨h1.symm, h2.symm⟩
      · rintro ⟨h1, h2⟩; exact ⟨h1.symm, h2.symm⟩

theorem hasSub_openMark_cons2 (c d : Char) (r : Str) :
    hasSub openMark (c :: d :: r) = ((decide (c = dollar ∧ d = lbrace)) || hasSub openMark (d :: r)) := by
  simp only [hasSub, openMark, startsWith]
  by_cases h1 : c = dollar <;> by_cases h2 : d = lbrace <;> simp [h1, h2, eq_comm]

theorem findOpen_eq_none_iff (s : Str) : findOpen s = none ↔ hasSub openMark s = false := by
  induction s with
  | nil => simp [findOpen, hasSub, openMark, startsWith]
  | cons c cs ih =>
    cases cs with
    | nil => simp [findOpen, hasSub, openMark, startsWith]
    | cons d r =>
      rw [hasSub_openMark_cons2]
      by_cases h : c = dollar ∧ d = lbrace
      · simp [findOpen, h]
      · simp only [findOpen, h, if_false, decide_False, Bool.false_or]
        rw [← ih]
        cases findOpen (d :: r) <;> simp

theorem findOpen_append (w r : Str) (hw : hasSub openMark w = false) :
    findOpen (w ++ dollar :: lbrace :: r) = some (w, r) := by
  induction w with
  | nil => simp [findOpen]
  | cons c cs ih =>
    cases cs with
    | nil =>
      simp [findOpen, dollar_ne_lbrace]
    | cons d t =>
      rw [hasSub_openMark_cons2] at hw
      simp only [Bool.or_eq_false_iff, decide_eq_false_iff_not] at hw
      have := ih hw.2
      simp only [List.cons_append] at this ⊢
      simp [findOpen, hw.1, this]

theorem findClose_append (inner r : Str) (hi : rbrace ∉ inner) :
    findClose (inner ++ rbrace :: r) = some (inner, r) := by
  induction inner with
  | nil => simp [findClose]
  | cons c cs ih =>
    simp only [List.mem_cons, not_or] at hi
    have hc : c ≠ rbrace := fun h => hi.1 h.symm
    simp [findClose, hc, ih hi.2]

theorem findClose_eq_none_iff (s : Str) : findClose s = none ↔ rbrace ∉ s := by
  induction s with
  | nil => simp [findClose]
  | cons c cs ih =>
    by_cases hc : c = rbrace
    · simp [findClose, hc]
    · simp only [findClose, hc, if_false, List.mem_cons, not_or]
      have : ¬ rbrace = c := fun h => hc h.symm
      simp only [this, not_false_eq_true, true_and, ← ih]
      cases findClose cs <;> simp

theorem findOpen_sound (s a b : Str) (h : findOpen s = some (a, b)) :
    s = a ++ dollar :: lbrace :: b ∧ hasSub openMark a = false := by
  induction s generalizing a with
  | nil => simp [findOpen] at h
  | cons c cs ih =>
    cases cs with
    | nil => simp [findOpen] at h
    | cons d r =>
      by_cases hcd : c = dollar ∧ d = lbrace
      · simp [findOpen, hcd] at h
        obtain ⟨rfl, rfl⟩ := h
        simp [hcd.1, hcd.2, hasSub, openMark, startsWith]
      · simp only [findOpen, hcd, if_false] at h
        cases hf : findOpen (d :: r) with
        | none => simp [hf] at h
        | some p =>
          obtain ⟨a1, b1⟩ := p
          simp [hf] at h
          obtain ⟨rfl, rfl⟩ := h
          obtain ⟨h1, h2⟩ := ih a1 hf
          refine ⟨by rw [List.cons_append, ← h1], ?_⟩
          cases a1 with
          | nil => simp [hasSub, openMark, startsWith]
          | cons x xs =>
            rw [hasSub_openMark_cons2, h2]
            simp only [List.cons_append, List.cons.injEq] at h1
            simp only [Bool.or_false, decide_eq_false_iff_not]
            rw [← h1.1]; exact hcd

theorem findClose_sound (s a b : Str) (h : findClose s = some (a, b)) :
    s = a ++ rbrace :: b ∧ rbrace ∉ a := by
  induction s generalizing a with
  | nil => simp [findClose] at h
  | cons c cs ih =>
    by_cases hc : c = rbrace
    · simp [findClose, hc] at h
      obtain ⟨rfl, rfl⟩ := h
      simp [hc]
    · simp only [findClose, hc, if_false] at h
      cases hf : findClose cs with
      | none => simp [hf] at h
      | some p =>
        obtain ⟨a1, b1⟩ := p
        simp [hf] at h
        obtain ⟨rfl, rfl⟩ := h
        obtain ⟨h1, h2⟩ := ih a1 hf
        refine ⟨by rw [List.cons_append, ← h1], ?_⟩
        simp only [List.mem_cons, not_or]
        exact ⟨fun h => hc h.symm, h2⟩

theorem nextMatch_sound (s a i b : Str) (h : nextMatch s = some (a, i, b)) :
    s = a ++ matchText i ++ b ∧ hasSub openMark a = false ∧ rbrace ∉ i := by
  unfold nextMatch at h
  cases hf : findOpen s with
  | none => simp [hf] at h
  | some p =>
    obtain ⟨a1, r⟩ := p
    simp only [hf] at h
    cases hc : findClose r with
    | none => simp [hc] at h
    | some q =>
      obtain ⟨i1, b1⟩ := q
      simp [hc] at h
      obtain ⟨rfl, rfl, rfl⟩ := h
      obtain ⟨h1, h2⟩ := findOpen_sound _ _ _ hf
      obtain ⟨h3, h4⟩ := findClose_sound _ _ _ hc
      refine ⟨?_, h2, h4⟩
      rw [h1, h3]; simp [matchText, openMark]

theorem nextMatch_append (w inner r : Str) (hw : hasSub openMark w = false)
    (hi : rbrace ∉ inner) : nextMatch (w ++ matchText inner ++ r) = some (w, inner, r) := by
  have : w ++ matchText inner ++ r = w ++ dollar :: lbrace :: (inner ++ rbrace :: r) := by
    simp [matchText, openMark]
  rw [this]
  simp [nextMatch, findOpen_append w _ hw, findClose_append inner r hi]

theorem nextMatch_none_of_noOpen (s : Str) (h : hasSub openMark s = false) :
    nextMatch s = none := by
  simp [nextMatch, (findOpen_eq_none_iff s).2 h]

theorem nextMatch_length (s a i b : Str) (h : nextMatch s = some (a, i, b)) :
    b.length < s.length := by
  obtain ⟨h1, _, _⟩ := nextMatch_sound s a i b h
  rw [h1]; simp [matchText, openMark]; omega

/-! ## The replacement loop -/

theorem replaceAllAux_fuel (repl : Str → Machine → Except Fault (Str × Machine)) :
    ∀ (n m : Nat) (s : Str) (st : Machine), s.length ≤ n → s.length ≤ m →
      replaceAllAux repl n s st = replaceAllAux repl m s st := by
  intro n
  induction n with
  | zero =>
    intro m s st hn _
    have : s = [] := List.length_eq_zero.mp (Nat.le_zero.mp hn)
    subst this
    cases m <;> simp [replaceAllAux, nextMatch, findOpen]
  | succ n ih =>
    intro m s st hn hm
    cases m with
    | zero =>
      have : s = [] := List.length_eq_zero.mp (Nat.le_zero.mp hm)
      subst this
      simp [replaceAllAux, nextMatch, findOpen]
    | succ m =>
      simp only [replaceAllAux]
      cases hnm : nextMatch s with
      | none => rfl
      | some p =>
        obtain ⟨a, i, b⟩ := p
        have hlen := nextMatch_length s a i b hnm
        simp only
        cases repl (matchText i) st with
        | error e => rfl
        | ok q =>
          obtain ⟨r, st1⟩ := q
          simp only
          rw [ih m b st1 (by omega) (by omega)]

/-- One step of the replacement loop. -/
theorem ReplaceAllStringFunc_eq (repl : Str → Machine → Except Fault (Str × Machine)) (s : Str)
    (st : Machine) :
    ReplaceAllStringFunc repl s st =
      match nextMatch s with
      | none => .ok (s, st)
      | some (before, inner, after) =>
        match repl (matchText inner) st with
        | .error e => .error e
        | .ok (r, st1) =>
          match ReplaceAllStringFunc repl after st1 with
          | .error e => .error e
          | .ok (rest, st2) => .ok (before ++ r ++ rest, st2) := by
  unfold ReplaceAllStringFunc
  cases hs : s.length with
  | zero =>
    have : s = [] := List.length_eq_zero.mp hs
    subst this
    simp [replaceAllAux, nextMatch, findOpen]
  | succ n =>
    simp only [replaceAllAux]
    cases hnm : nextMatch s with
    | none => rfl
    | some p =>
      obtain ⟨a, i, b⟩ := p
      have hlen := nextMatch_length s a i b hnm
      simp only
      cases repl (matchText i) st with
      | error e => rfl
      | ok q =>
        obtain ⟨r, st1⟩ := q
        simp only
        rw [replaceAllAux_fuel repl n b.length b st1 (by omega) (le_refl _)]

theorem ReplaceAllStringFunc_literal (repl : Str → Machine → Except Fault (Str × Machine))
    (s : Str) (st : Machine) (h : nextMatch s = none) :
    ReplaceAllStringFunc repl s st = .ok (s, st) := by
  rw [ReplaceAllStringFunc_eq, h]

theorem ReplaceAllStringFunc_append (repl : Str → Machine → Except Fault (Str × Machine))
    (w inner after : Str) (st : Machine) (hw : hasSub openMark w = false) (hi : rbrace ∉ inner) :
    ReplaceAllStringFunc repl (w ++ matchText inner ++ after) st =
      match repl (matchText inner) st with
      | .error e => .error e
      | .ok (r, st1) =>
        match ReplaceAllStringFunc repl after st1 with
        | .error e => .error e
        | .ok (rest, st2) => .ok (w ++ r ++ rest, st2) := by
  rw [ReplaceAllStringFunc_eq, nextMatch_append w inner after hw hi]

/-! ## Trimming and splitting -/

theorem dropWhile_isSpace_eq (s : Str) (h : ∀ c, s.head? = some c → isSpace c = false) :
    s.dropWhile isSpace = s := by
  cases s with
  | nil => rfl
  | cons c cs => simp [List.dropWhile, h c rfl]

theorem TrimSpace_eq (s : Str) (h1 : ∀ c, s.head? = some c → isSpace c = false)
    (h2 : ∀ c, s.getLast? = some c → isSpace c = false) : TrimSpace s = s := by
  unfold TrimSpace
  rw [dropWhile_isSpace_eq s h1, dropWhile_isSpace_eq s.reverse (by simpa using h2)]
  simp

theorem splitColon_ne_nil (s : Str) : splitColon s ≠ [] := by
  cases s with
  | nil => simp [splitColon]
  | cons c cs =>
    simp only [splitColon]
    split_ifs
    · simp
    · cases splitColon cs <;> simp

theorem splitColon_noColon (s : Str) (h : colon ∉ s) : splitColon s = [s] := by
  induction s with
  | nil => rfl
  | cons c cs ih =>
    simp only [List.mem_cons, not_or] at h
    have hc : c ≠ colon := fun e => h.1 e.symm
    simp [splitColon, hc, ih h.2]

theorem splitColon_append (p d : Str) (h : colon ∉ p) :
    splitColon (p ++ colon :: d) = p :: splitColon d := by
  induction p with
  | nil => simp [splitColon]
  | cons c cs ih =>
    simp only [List.mem_cons, not_or] at h
    have hc : c ≠ colon := fun e => h.1 e.symm
    simp [splitColon, hc, ih h.2]

theorem getPropertyClauseFromMatch_matchText (inner : Str) :
    getPropertyClauseFromMatch (matchText inner) = .ok (splitColon (TrimSpace inner)) := by
  unfold getPropertyClauseFromMatch
  have hlen : (matchText inner).length = inner.length + 3 := by
    simp [matchText, openMark]
  have h : ¬ (matchText inner).length < 3 := by omega
  rw [if_neg h, hlen]
  congr 3
  simp [matchText, openMark, List.take_append_eq_append_take]

/-! ## Maps -/

theorem Tree.get_set_same (m : Tree) (k : Str) (v : Value) : Tree.get (Tree.set m k v) k = some v := by
  induction m with
  | nil => simp [Tree.set, Tree.get]
  | cons e rest ih =>
    obtain ⟨k1, x⟩ := e
    by_cases h : k1 = k
    · simp [Tree.set, Tree.get, h]
    · simp [Tree.set, Tree.get, h, ih]

theorem Tree.get_set_other (m : Tree) (k j : Str) (v : Value) (h : j ≠ k) :
    Tree.get (Tree.set m k v) j = Tree.get m j := by
  induction m with
  | nil =>
    have : ¬ k = j := fun e => h e.symm
    simp [Tree.set, Tree.get, this]
  | cons e rest ih =>
    obtain ⟨k1, x⟩ := e
    by_cases h1 : k1 = k
    · subst h1
      have : ¬ k1 = j := fun e => h e.symm
      simp [Tree.set, Tree.get, this]
    · by_cases h2 : k1 = j
      · subst h2
        simp [Tree.set, Tree.get, h1]
      · simp [Tree.set, Tree.get, h1, h2, ih]

theorem Tree.keys_set_of_get (m : Tree) (k : Str) (v x : Value) (h : Tree.get m k = some x) :
    (Tree.set m k v).keys = m.keys := by
  induction m with
  | nil => simp [Tree.get] at h
  | cons e rest ih =>
    obtain ⟨k1, y⟩ := e
    by_cases h1 : k1 = k
    · simp [Tree.set, Tree.keys, h1]
    · simp only [Tree.get, h1, if_false] at h
      have := ih h
      simp only [Tree.keys] at this
      simp [Tree.set, Tree.keys, h1, this]

theorem Tree.set_self (m : Tree) (k : Str) (v : Value) (h : Tree.get m k = some v) :
    Tree.set m k v = m := by
  induction m with
  | nil => simp [Tree.get] at h
  | cons e rest ih =>
    obtain ⟨k1, y⟩ := e
    by_cases h1 : k1 = k
    · simp only [Tree.get, h1, if_true, Option.some.injEq] at h
      simp [Tree.set, h1, h]
    · simp only [Tree.get, h1, if_false] at h
      simp [Tree.set, h1, ih h]

theorem Tree.get_eq_none_iff (m : Tree) (k : Str) : Tree.get m k = none ↔ k ∉ m.keys := by
  induction m with
  | nil => simp [Tree.get, Tree.keys]
  | cons e rest ih =>
    obtain ⟨k1, y⟩ := e
    by_cases h1 : k1 = k
    · subst h1
      simp [Tree.get, Tree.keys]
    · have : ¬ k = k1 := fun e => h1 e.symm
      simp only [Tree.get, h1, if_false, ih]
      simp only [Tree.keys, List.map_cons, List.mem_cons, this, false_or]

theorem Tree.get_of_mem (m : Tree) (k : Str) (v : Value) (hnd : m.keys.Nodup) (h : (k, v) ∈ m) :
    Tree.get m k = some v := by
  induction m with
  | nil => simp at h
  | cons e rest ih =>
    obtain ⟨k1, y⟩ := e
    simp only [Tree.keys, List.map_cons, List.nodup_cons] at hnd
    simp only [List.mem_cons, Prod.mk.injEq] at h
    rcases h with ⟨rfl, rfl⟩ | h
    · simp [Tree.get]
    · have : k1 ≠ k := by
        rintro rfl
        exact hnd.1 (List.mem_map_of_mem Prod.fst h)
      simp only [Tree.get, this, if_false]
      exact ih hnd.2 h

theorem Tree.mem_of_get (m : Tree) (k : Str) (v : Value) (h : Tree.get m k = some v) :
    (k, v) ∈ m := by
  induction m with
  | nil => simp [Tree.get] at h
  | cons e rest ih =>
    obtain ⟨k1, y⟩ := e
    by_cases h1 : k1 = k
    · simp only [Tree.get, h1, if_true, Option.some.injEq] at h
      simp [h1, h]
    · simp only [Tree.get, h1, if_false] at h
      exact List.mem_cons_of_mem _ (ih h)

/-! ## Template markers -/

theorem hasSub_tmplClose_of_count (s : Str) (h : s.count rbrace ≤ 1) :
    hasSub tmplClose s = false := by
  induction s with
  | nil => simp [hasSub, tmplClose, startsWith]
  | cons c cs ih =>
    by_cases hc : c = rbrace
    · subst hc
      simp only [List.count_cons_self] at h
      have h0 : cs.count rbrace = 0 := by omega
      have hnot : rbrace ∉ cs := List.count_eq_zero.mp h0
      have ih1 := ih (by omega)
      cases cs with
      | nil => simp [hasSub, tmplClose, startsWith]
      | cons d ds =>
        have hd : ¬ rbrace = d := fun e => hnot (by simp [e])
        simp only [hasSub, tmplClose, startsWith] at ih1 ⊢
        simp only [hd, decide_False, Bool.false_and, Bool.false_or] at ih1
        simp [hd, ih1]
    · have h1 : cs.count rbrace ≤ 1 := by
        rw [List.count_cons_of_ne (fun e => hc e.symm)] at h
        exact h
      have : ¬ rbrace = c := fun e => hc e.symm
      simp only [hasSub, tmplClose, startsWith] at ih ⊢
      simp [this, ih h1]

theorem count_rbrace_matchText (inner : Str) (h : rbrace ∉ inner) :
    (matchText inner).count rbrace = 1 := by
  have h0 : inner.count rbrace = 0 := List.count_eq_zero.mpr h
  have h1 : ¬ dollar = rbrace := dollar_ne_rbrace
  have h2 : ¬ lbrace = rbrace := lbrace_ne_rbrace
  simp [matchText, openMark, List.count_cons, h0, h1, h2]

theorem usesTemplate_matchText (inner : Str) (h : rbrace ∉ inner) :
    usesTemplate (matchText inner) = false := by
  unfold usesTemplate
  rw [hasSub_tmplClose_of_count _ (by rw [count_rbrace_matchText inner h])]
  simp

theorem hasSub_openMark_matchText (inner : Str) : hasSub openMark (matchText inner) = true := by
  cases inner <;> simp [matchText, openMark, hasSub, startsWith]

theorem hasSub_openMark_of_noDollar (s : Str) (h : dollar ∉ s) : hasSub openMark s = false := by
  induction s with
  | nil => simp [hasSub, openMark, startsWith]
  | cons c cs ih =>
    simp only [List.mem_cons, not_or] at h
    have : ¬ dollar = c := h.1
    cases cs with
    | nil => simp [hasSub, openMark, startsWith, this]
    | cons d r =>
      rw [hasSub_openMark_cons2, ih h.2]
      have : ¬ (c = dollar ∧ d = lbrace) := fun e => h.1 e.1.symm
      simp [this]

/-! ## Names -/

theorem wellFormedName_iff (p : Str) : wellFormedName p = true ↔
    p ≠ [] ∧ colon ∉ p ∧ rbrace ∉ p ∧ (∀ c, p.head? = some c → isSpace c = false) ∧
      (∀ c, p.getLast? = some c → isSpace c = false) := by
  unfold wellFormedName
  cases hh : p.head? <;> cases hl : p.getLast? <;> simp [hh, hl, and_assoc]

theorem clause_of_wellFormed (p : Str) (h : wellFormedName p = true) :
    getPropertyClauseFromMatch (matchText p) = .ok [p] := by
  obtain ⟨_, h2, _, h4, h5⟩ := (wellFormedName_iff p).1 h
  rw [getPropertyClauseFromMatch_matchText, TrimSpace_eq p h4 h5, splitColon_noColon p h2]

theorem ne_nil_of_wellFormed (p : Str) (h : wellFormedName p = true) : p ≠ [] :=
  ((wellFormedName_iff p).1 h).1

theorem rbrace_not_mem_of_wellFormed (p : Str) (h : wellFormedName p = true) : rbrace ∉ p :=
  ((wellFormedName_iff p).1 h).2.2.1

/-! ## First steps of `resolveString` -/

theorem templatePass_plain (env : Env) (value : Str) (pr : PropertiesResolver)
    (h : usesTemplate value = false) : templatePass env value pr = (some value, pr) := by
  simp [templatePass, h]

theorem resolveString_plain (env : Env) (fuel : Nat) (cm : Path) (pn value : Str) (st : Machine)
    (ht : usesTemplate value = false) (he : st.2.error = none) :
    resolveString env (fuel + 1) cm pn value st =
      ReplaceAllStringFunc (closure env fuel cm pn) value st := by
  obtain ⟨S, pr⟩ := st
  simp only at he
  simp [resolveString, templatePass_plain env value pr ht, he, closure]

theorem resolveString_shortCircuit (env : Env) (fuel : Nat) (cm : Path) (pn value : Str)
    (st : Machine) (ht : usesTemplate value = false) (he : st.2.error ≠ none) :
    resolveString env (fuel + 1) cm pn value st = .ok ([], st) := by
  obtain ⟨S, pr⟩ := st
  simp only at he
  simp [resolveString, templatePass_plain env value pr ht, he]

theorem resolveString_literal (env : Env) (fuel : Nat) (cm : Path) (pn value : Str) (st : Machine)
    (ht : usesTemplate value = false) (he : st.2.error = none) (hm : nextMatch value = none) :
    resolveString env (fuel + 1) cm pn value st = .ok (value, st) := by
  rw [resolveString_plain env fuel cm pn value st ht he, ReplaceAllStringFunc_literal _ _ _ hm]

theorem ReplaceAllStringFunc_single (repl : Str → Machine → Except Fault (Str × Machine))
    (w inner after : Str) (st : Machine) (hw : hasSub openMark w = false) (hi : rbrace ∉ inner)
    (ha : nextMatch after = none) :
    ReplaceAllStringFunc repl (w ++ matchText inner ++ after) st =
      match repl (matchText inner) st with
      | .error e => .error e
      | .ok (r, st1) => .ok (w ++ r ++ after, st1) := by
  rw [ReplaceAllStringFunc_append repl w inner after st hw hi]
  cases repl (matchText inner) st with
  | error e => rfl
  | ok q =>
    obtain ⟨r, st1⟩ := q
    simp [ReplaceAllStringFunc_literal repl after st1 ha]

theorem ReplaceAllStringFunc_only (repl : Str → Machine → Except Fault (Str × Machine))
    (inner : Str) (st : Machine) (hi : rbrace ∉ inner) :
    ReplaceAllStringFunc repl (matchText inner) st =
      match repl (matchText inner) st with
      | .error e => .error e
      | .ok (r, st1) => .ok (r, st1) := by
  have h := ReplaceAllStringFunc_single repl [] inner [] st (by simp [hasSub, openMark, startsWith])
    hi (by simp [nextMatch, findOpen])
  simp only [List.nil_append, List.append_nil] at h
  rw [h]

/-! ## The closure on one match -/

theorem onMatch_emptyName (env : Env) (self : Str → Str → Machine → Except Fault (Str × Machine))
    (cm : Path) (pn inner : Str) (more : List Str) (st : Machine)
    (hc : splitColon (TrimSpace inner) = [] :: more) :
    onMatch env self cm pn (matchText inner) st =
      .ok ([], st.1, st.2.addMessage (missingPlaceholderMsg (matchText inner) pn)) := by
  simp [onMatch, getPropertyClauseFromMatch_matchText, hc, UnresolvedPropertyResult]

theorem onMatch_absent (env : Env) (self : Str → Str → Machine → Except Fault (Str × Machine))
    (cm : Path) (pn inner name : Str) (more : List Str) (st : Machine)
    (hc : splitColon (TrimSpace inner) = name :: more) (hne : name ≠ [])
    (habs : Tree.get st.2.data name = none) :
    onMatch env self cm pn (matchText inner) st =
      match more with
      | [] => .ok ([], st.1, st.2.addMessage (missingValueMsg name))
      | dflt :: _ => .ok (dflt, st) := by
  cases more <;>
  simp [onMatch, getPropertyClauseFromMatch_matchText, hc, hne,
    PropertiesResolver.resolvePropertyName, habs, recheck, UnresolvedPropertyResult]

theorem onMatch_literal (env : Env) (self : Str → Str → Machine → Except Fault (Str × Machine))
    (cm : Path) (pn inner name x : Str) (more : List Str) (st : Machine)
    (hc : splitColon (TrimSpace inner) = name :: more) (hne : name ≠ [])
    (hget : Tree.get st.2.data name = some (.str x)) (hx : hasSub openMark x = false) :
    onMatch env self cm pn (matchText inner) st = .ok (x, st) := by
  simp [onMatch, getPropertyClauseFromMatch_matchText, hc, hne,
    PropertiesResolver.resolvePropertyName, hget, hx]

theorem split_of_wellFormed (p : Str) (h : wellFormedName p = true) :
    splitColon (TrimSpace p) = [p] := by
  obtain ⟨_, h2, _, h4, h5⟩ := (wellFormedName_iff p).1 h
  rw [TrimSpace_eq p h4 h5, splitColon_noColon p h2]

theorem split_of_default (p d : Str) (h : wellFormedName p = true) (hd2 : colon ∉ d)
    (hd3 : noTrailingSpace d = true) : splitColon (TrimSpace (p ++ colon :: d)) = [p, d] := by
  obtain ⟨h1, h2, _, h4, _⟩ := (wellFormedName_iff p).1 h
  have ht : TrimSpace (p ++ colon :: d) = p ++ colon :: d := by
    apply TrimSpace_eq
    · intro c hc
      cases p with
      | nil => exact absurd rfl h1
      | cons x xs => exact h4 c (by simpa using hc)
    · intro c hc
      rw [List.getLast?_append] at hc
      cases d with
      | nil =>
        simp at hc
        subst hc
        decide
      | cons y ys =>
        unfold noTrailingSpace at hd3
        have : (colon :: y :: ys).getLast? = (y :: ys).getLast? := by
          simp [List.getLast?_cons_cons]
        rw [this] at hc
        cases hl : (y :: ys).getLast? with
        | none => simp at hl
        | some z =>
          rw [hl] at hc hd3
          simp at hc hd3
          subst hc
          exact hd3
  rw [ht, splitColon_append p d h2, splitColon_noColon d hd2]

theorem ReplaceAllStringFunc_settled (repl : Str → Machine → Except Fault (Str × Machine))
    (before : Str) (hb : Settled before) (inner after : Str) (hi : rbrace ∉ inner) (st : Machine) :
    ReplaceAllStringFunc repl (before ++ matchText inner ++ after) st =
      match ReplaceAllStringFunc repl before st with
      | .error e => .error e
      | .ok (r1, st1) =>
        match repl (matchText inner) st1 with
        | .error e => .error e
        | .ok (r2, st2) =>
          match ReplaceAllStringFunc repl after st2 with
          | .error e => .error e
          | .ok (r3, st3) => .ok (r1 ++ r2 ++ r3, st3) := by
  induction hb generalizing st with
  | literal s hs =>
    rw [ReplaceAllStringFunc_append repl s inner after st hs hi,
      ReplaceAllStringFunc_literal repl s st (nextMatch_none_of_noOpen s hs)]
  | span w i rest hw hri _ ih =>
    have e : w ++ matchText i ++ rest ++ matchText inner ++ after =
        w ++ matchText i ++ (rest ++ matchText inner ++ after) := by simp
    rw [e, ReplaceAllStringFunc_append repl w i _ st hw hri,
      ReplaceAllStringFunc_append repl w i rest st hw hri]
    cases repl (matchText i) st with
    | error e => rfl
    | ok q =>
      obtain ⟨r, st1⟩ := q
      simp only
      rw [ih st1]
      cases ReplaceAllStringFunc repl rest st1 with
      | error e => rfl
      | ok q1 =>
        obtain ⟨r1, st2⟩ := q1
        simp only
        cases repl (matchText inner) st2 with
        | error e => rfl
        | ok q2 =>
          obtain ⟨r2, st3⟩ := q2
          simp only
          cases ReplaceAllStringFunc repl after st3 with
          | error e => rfl
          | ok q3 =>
            obtain ⟨r3, st4⟩ := q3
            simp

/-! ## Default, missing value, empty placeholder, literal text -/

/-- C4 (amended): for a well-formed property name `p` absent from the tree and
a default text `d` free of `}` and of `:` that does not end in white space,
resolving the value made of the single placeholder of `p` with default `d`,
no error pending, yields exactly `d` and leaves the resolver (diagnostics,
error, tree) and the cycle guard as they were. -/
theorem default_fallback (env : Env) (fuel : Nat) (cm : Path) (pn p d : Str) (st : Machine)
    (hp : wellFormedName p = true) (habs : Tree.get st.2.data p = none)
    (hd1 : rbrace ∉ d) (hd2 : colon ∉ d) (hd3 : noTrailingSpace d = true)
    (he : st.2.error = none) :
    resolveString env (fuel + 1) cm pn (matchText (p ++ colon :: d)) st = .ok (d, st) := by
  have hr : rbrace ∉ p ++ colon :: d := by
    have := rbrace_not_mem_of_wellFormed p hp
    have hc : ¬ rbrace = colon := by decide
    simp [this, hd1, hc]
  rw [resolveString_plain env fuel cm pn _ st (usesTemplate_matchText _ hr) he,
    ReplaceAllStringFunc_only _ _ st hr]
  unfold closure
  rw [onMatch_absent env _ cm pn _ p [d] st (split_of_default p d hp hd2 hd3)
    (ne_nil_of_wellFormed p hp) habs]

/-- C4, witness: the value of `a` in the tree that holds only `a`, with the
placeholder of `missing` and default `fallback`. -/
theorem default_fallback_witness :
    resolveString rejectingEnv 1 [] "a".toList
        (matchText ("missing".toList ++ colon :: "fallback".toList))
        (newStack, fresh (tree [("a", .str (ph "missing:fallback"))])) =
      .ok ("fallback".toList, newStack, fresh (tree [("a", .str (ph "missing:fallback"))])) :=
  default_fallback rejectingEnv 0 [] "a".toList "missing".toList "fallback".toList
    (newStack, fresh (tree [("a", .str (ph "missing:fallback"))]))
    (by decide) rfl (by decide) (by decide) (by decide) rfl

/-- C4, counterexample: a default that contains a colon is cut at the colon,
a default that ends in white space loses it, a name that contains a colon is
cut as well, and with an error pending the result is the empty text. -/
theorem default_not_verbatim :
    (resolveString rejectingEnv 1 [] "a".toList (ph "missing:a:b")
        (newStack, fresh (tree [("a", .str (ph "missing:a:b"))])) =
      .ok ("a".toList, newStack, fresh (tree [("a", .str (ph "missing:a:b"))])) ∧
      "a".toList ≠ "a:b".toList) ∧
    (resolveString rejectingEnv 1 [] "a".toList (ph "missing:ab  ")
        (newStack, fresh (tree [("a", .str (ph "missing:ab  "))])) =
      .ok ("ab".toList, newStack, fresh (tree [("a", .str (ph "missing:ab  "))])) ∧
      "ab".toList ≠ "ab  ".toList) ∧
    (resolveString rejectingEnv 1 [] "a".toList (matchText ("k:1".toList ++ colon :: "d".toList))
        (newStack, fresh (tree [("a", .str (ph "k:1:d"))])) =
      .ok ("1".toList, newStack, fresh (tree [("a", .str (ph "k:1:d"))])) ∧
      "1".toList ≠ "d".toList) ∧
    (resolveString rejectingEnv 1 [] "a".toList (ph "missing:fallback")
        (newStack, { data := tree [("a", .str (ph "missing:fallback"))],
                     error := some "earlier".toList,
                     messages := [] }) =
      .ok ([], newStack, { data := tree [("a", .str (ph "missing:fallback"))],
                           error := some "earlier".toList,
                           messages := [] }) ∧
      ([] : Str) ≠ "fallback".toList) :=
  ⟨⟨rfl, by decide⟩, ⟨rfl, by decide⟩, ⟨rfl, by decide⟩, ⟨rfl, by decide⟩⟩

/-- C5 (amended): for a well-formed property name `p` absent from the tree,
resolving, with no error pending, a value that does not hold both template
markers and whose only placeholder is the one of `p` replaces that span by
the empty text, appends the one diagnostic `Missing value for property [p]`
and changes nothing else (the error stays nil). -/
theorem missing_value_diagnostic (env : Env) (fuel : Nat) (cm : Path) (pn w p after : Str)
    (st : Machine) (hp : wellFormedName p = true) (habs : Tree.get st.2.data p = none)
    (hw : hasSub openMark w = false) (ha : nextMatch after = none)
    (ht : usesTemplate (w ++ matchText p ++ after) = false) (he : st.2.error = none) :
    resolveString env (fuel + 1) cm pn (w ++ matchText p ++ after) st =
      .ok (w ++ after, st.1,
        { st.2 with
          messages := st.2.messages ++ ["Missing value for property [".toList ++ p ++ "]".toList] }) := by
  rw [resolveString_plain env fuel cm pn _ st ht he,
    ReplaceAllStringFunc_single _ w p after st hw (rbrace_not_mem_of_wellFormed p hp) ha]
  unfold closure
  rw [onMatch_absent env _ cm pn _ p [] st (split_of_wellFormed p hp)
    (ne_nil_of_wellFormed p hp) habs]
  simp [PropertiesResolver.addMessage, missingValueMsg]

/-- C5, witness: the value of `a.e.b` of the test, the placeholder of
`missing`, two blanks and `bye`. -/
theorem missing_value_diagnostic_witness :
    resolveString rejectingEnv 1 [] "a.e.b".toList ([] ++ matchText "missing".toList ++ "  bye".toList)
        (newStack, fresh (tree [("a.e.b", sv "unused")])) =
      .ok ("  bye".toList, newStack,
        { data := tree [("a.e.b", sv "unused")],
          error := none,
          messages := ["Missing value for property [missing]".toList] }) :=
  missing_value_diagnostic rejectingEnv 0 [] "a.e.b".toList [] "missing".toList "  bye".toList
    (newStack, fresh (tree [("a.e.b", sv "unused")])) (by decide) rfl (by decide) (by decide)
    (by decide) rfl

/-- C5, counterexample: the value made of an empty template action followed
by the placeholder of the absent name `missing`; the engine rejects it, the
resolver records no diagnostic and its error is set.  And with an error
pending, the placeholder of `missing` alone is resolved to the empty text
without a diagnostic. -/
theorem missing_value_behind_template :
    resolveString rejectingEnv 1 [] "a".toList (tmplOpen ++ tmplClose ++ ph "missing")
        (newStack, fresh (tree [("a", .str (tmplOpen ++ tmplClose ++ ph "missing"))])) =
      .ok ([], newStack,
        { data := tree [("a", .str (tmplOpen ++ tmplClose ++ ph "missing"))],
          error := some "template: parse error".toList,
          messages := [],
          parsed := [tmplOpen ++ tmplClose ++ ph "missing"] }) ∧
    resolveString rejectingEnv 1 [] "a".toList (ph "missing")
        (newStack, { data := tree [("a", .str (ph "missing"))],
                     error := some "earlier".toList,
                     messages := [] }) =
      .ok ([], newStack, { data := tree [("a", .str (ph "missing"))],
                           error := some "earlier".toList,
                           messages := [] }) :=
  ⟨rfl, rfl⟩

/-- C6 (amended): let `m` be a span of the placeholder pattern with an empty
property name, in the value of property `n`.  (1) Whatever the state, the
replacement function answers `m` with the empty text and appends the one
diagnostic `Missing placeholder [m] for property [n]`; tree, error and guard
are returned as they were, and the answer does not depend on the tree (no
lookup).  (2) For a value that does not hold both template markers, resolved
with no error pending, in which the text before `m` is settled (so that the
scan reaches `m`): the text before `m` is handled, then `m` is answered as in
(1), then the text after `m` is handled.  (3) When the text around `m` holds
no placeholder, the result is that text, with exactly that one diagnostic and
nothing else changed. -/
theorem empty_placeholder (env : Env) (fuel : Nat) (cm : Path) (n inner : Str)
    (more : List Str) (hi : rbrace ∉ inner)
    (hname : splitColon (TrimSpace inner) = [] :: more) :
    (∀ st : Machine, closure env fuel cm n (matchText inner) st =
      .ok ([], st.1,
        { st.2 with
          messages := st.2.messages ++
            ["Missing placeholder [".toList ++ matchText inner ++ "] for property [".toList ++ n ++
              "]".toList] })) ∧
    (∀ (before after : Str) (st : Machine), Settled before →
      usesTemplate (before ++ matchText inner ++ after) = false → st.2.error = none →
      resolveString env (fuel + 1) cm n (before ++ matchText inner ++ after) st =
        match ReplaceAllStringFunc (closure env fuel cm n) before st with
        | .error e => .error e
        | .ok (r1, st1) =>
          match ReplaceAllStringFunc (closure env fuel cm n) after
              (st1.1,
                { st1.2 with
                  messages := st1.2.messages ++
                    ["Missing placeholder [".toList ++ matchText inner ++
                      "] for property [".toList ++ n ++ "]".toList] }) with
          | .error e => .error e
          | .ok (r3, st3) => .ok (r1 ++ r3, st3)) ∧
    (∀ (before after : Str) (st : Machine), hasSub openMark before = false →
      nextMatch after = none →
      usesTemplate (before ++ matchText inner ++ after) = false → st.2.error = none →
      resolveString env (fuel + 1) cm n (before ++ matchText inner ++ after) st =
        .ok (before ++ after, st.1,
          { st.2 with
            messages := st.2.messages ++
              ["Missing placeholder [".toList ++ matchText inner ++ "] for property [".toList ++
                n ++ "]".toList] })) := by
  have hc : ∀ st : Machine, closure env fuel cm n (matchText inner) st =
      .ok ([], st.1,
        { st.2 with
          messages := st.2.messages ++
            ["Missing placeholder [".toList ++ matchText inner ++ "] for property [".toList ++ n ++
              "]".toList] }) :=
    fun st => onMatch_emptyName env _ cm n inner more st hname
  refine ⟨hc, ?_, ?_⟩
  · intro before after st hb ht he
    rw [resolveString_plain env fuel cm n _ st ht he,
      ReplaceAllStringFunc_settled _ before hb inner after hi st]
    cases ReplaceAllStringFunc (closure env fuel cm n) before st with
    | error e => rfl
    | ok q =>
      obtain ⟨r1, st1⟩ := q
      simp only
      rw [hc]
      simp
  · intro before after st hb ha ht he
    rw [resolveString_plain env fuel cm n _ st ht he,
      ReplaceAllStringFunc_single _ before inner after st hb hi ha, hc]
    simp

/-- C6, witness: the value of `b.d.a` of the test, two blanks, the
placeholder of `c.d.a` (here a literal) and the empty placeholder. -/
theorem empty_placeholder_witness :
    resolveString rejectingEnv 1 [] "b.d.a".toList
        (("  ".toList ++ matchText "c.d.a".toList ++ []) ++ matchText [] ++ [])
        (newStack, fresh (tree [("c.d.a", sv "apple")])) =
      .ok ("  apple".toList, newStack,
        { data := tree [("c.d.a", sv "apple")],
          error := none,
          messages := ["Missing placeholder [$\x7b\x7d] for property [b.d.a]".toList] }) :=
  ((empty_placeholder rejectingEnv 0 [] "b.d.a".toList [] [] (by decide) (by decide)).2.1
    ("  ".toList ++ matchText "c.d.a".toList ++ []) []
    (newStack, fresh (tree [("c.d.a", sv "apple")]))
    (Settled.span _ _ _ (by decide) (by decide) (Settled.literal [] (by decide)))
    (by decide) rfl).trans rfl

/-- C6, counterexample: an empty template action followed by the empty
placeholder; the engine rejects the value, no diagnostic is recorded and the
error is set.  And in the value made of `$`, `{`, `a` and the empty
placeholder, the pattern matches the whole value as the placeholder of the
name `a` followed by `$`, `{`; the empty placeholder it ends in is not
reported, the diagnostic is the one of a missing value. -/
theorem empty_placeholder_behind_template :
    resolveString rejectingEnv 1 [] "a".toList (tmplOpen ++ tmplClose ++ matchText [])
        (newStack, fresh (tree [("a", .str (tmplOpen ++ tmplClose ++ matchText []))])) =
      .ok ([], newStack,
        { data := tree [("a", .str (tmplOpen ++ tmplClose ++ matchText []))],
          error := some "template: parse error".toList,
          messages := [],
          parsed := [tmplOpen ++ tmplClose ++ matchText []] }) ∧
    (resolveString rejectingEnv 1 [] "n".toList (openMark ++ "a".toList ++ matchText [])
        (newStack, fresh (tree [("n", .str (openMark ++ "a".toList ++ matchText []))])) =
      .ok ([], newStack,
        { data := tree [("n", .str (openMark ++ "a".toList ++ matchText []))],
          error := none,
          messages := ["Missing value for property [a$\x7b]".toList] }) ∧
      "Missing value for property [a$\x7b]".toList ≠
        "Missing placeholder [$\x7b\x7d] for property [n]".toList) :=
  ⟨rfl, rfl, by decide⟩

/-- C7 (amended): for texts `w`, `w2` without `$`, well-formed property names
`a`, `b` whose values are strings `p`, `q` without the two characters `$`,
`{`, and provided the whole value does not hold both template markers,
resolving `w`, the placeholder of `a`, the placeholder of `b`, `w2` with no
error pending yields exactly `w ++ p ++ q ++ w2` and changes nothing. -/
theorem literal_text_preserved (env : Env) (fuel : Nat) (cm : Path) (pn w a b w2 p q : Str)
    (st : Machine) (ha : wellFormedName a = true) (hb : wellFormedName b = true)
    (hw : dollar ∉ w) (hw2 : dollar ∉ w2)
    (hpa : Tree.get st.2.data a = some (.str p)) (hqb : Tree.get st.2.data b = some (.str q))
    (hp : hasSub openMark p = false) (hq : hasSub openMark q = false)
    (ht : usesTemplate (w ++ matchText a ++ matchText b ++ w2) = false)
    (he : st.2.error = none) :
    resolveString env (fuel + 1) cm pn (w ++ matchText a ++ matchText b ++ w2) st =
      .ok (w ++ p ++ q ++ w2, st) := by
  have e : w ++ matchText a ++ matchText b ++ w2 = w ++ matchText a ++ ([] ++ matchText b ++ w2) := by
    simp
  rw [resolveString_plain env fuel cm pn _ st ht he, e,
    ReplaceAllStringFunc_append _ w a _ st (hasSub_openMark_of_noDollar w hw)
      (rbrace_not_mem_of_wellFormed a ha)]
  have h1 : closure env fuel cm pn (matchText a) st = .ok (p, st) :=
    onMatch_literal env _ cm pn a a p [] st (split_of_wellFormed a ha) (ne_nil_of_wellFormed a ha)
      hpa hp
  have h2 : closure env fuel cm pn (matchText b) st = .ok (q, st) :=
    onMatch_literal env _ cm pn b b q [] st (split_of_wellFormed b hb) (ne_nil_of_wellFormed b hb)
      hqb hq
  rw [h1]
  simp only
  rw [ReplaceAllStringFunc_single _ [] b w2 st (by decide) (rbrace_not_mem_of_wellFormed b hb)
    (nextMatch_none_of_noOpen w2 (hasSub_openMark_of_noDollar w2 hw2)), h2]
  simp

/-- C7, witness: two blanks, then the placeholders of `a` and `b`, with
`a = "p"` and `b = "q"`. -/
theorem literal_text_preserved_witness :
    resolveString rejectingEnv 1 [] "v".toList
        ("  ".toList ++ matchText "a".toList ++ matchText "b".toList ++ [])
        (newStack, fresh (tree [("a", sv "p"), ("b", sv "q")])) =
      .ok ("  ".toList ++ "p".toList ++ "q".toList ++ [], newStack,
        fresh (tree [("a", sv "p"), ("b", sv "q")])) :=
  literal_text_preserved rejectingEnv 0 [] "v".toList "  ".toList "a".toList "b".toList []
    "p".toList "q".toList (newStack, fresh (tree [("a", sv "p"), ("b", sv "q")]))
    (by decide) (by decide) (by decide) (by decide) rfl rfl (by decide) (by decide) (by decide) rfl

/-- C7, counterexample: with the property `k:1` holding `p` and `b` holding
`q`, the placeholders of `k:1` and `b` resolve to `1q`, not to `pq`; with
the property whose name is `{` followed by `x`, the value made of its
placeholder, the placeholder of `b` and a closing brace holds both template
markers, is rejected by the engine and resolves to the empty text with the
error set; and with an error pending, two blanks and the placeholders of `a`
and `b` resolve to the empty text. -/
theorem literal_text_not_preserved :
    (resolveString rejectingEnv 1 [] "v".toList (ph "k:1" ++ ph "b")
        (newStack, fresh (tree [("k:1", sv "p"), ("b", sv "q")])) =
      .ok ("1q".toList, newStack, fresh (tree [("k:1", sv "p"), ("b", sv "q")])) ∧
      "1q".toList ≠ "pq".toList) ∧
    (wellFormedName (lbrace :: "x".toList) = true ∧
      dollar ∉ [rbrace] ∧ usesTemplate [rbrace] = false ∧
      resolveString rejectingEnv 1 [] "v".toList
        ([] ++ matchText (lbrace :: "x".toList) ++ matchText "b".toList ++ [rbrace])
        (newStack, fresh [(lbrace :: "x".toList, sv "p"), ("b".toList, sv "q")]) =
      .ok ([], newStack,
        { data := [(lbrace :: "x".toList, sv "p"), ("b".toList, sv "q")],
          error := some "template: parse error".toList,
          messages := [],
          parsed := [[] ++ matchText (lbrace :: "x".toList) ++ matchText "b".toList ++ [rbrace]] })) ∧
    (resolveString rejectingEnv 1 [] "v".toList ("  ".toList ++ ph "a" ++ ph "b")
        (newStack, { data := tree [("a", sv "p"), ("b", sv "q")],
                     error := some "earlier".toList,
                     messages := [] }) =
      .ok ([], newStack, { data := tree [("a", sv "p"), ("b", sv "q")],
                           error := some "earlier".toList,
                           messages := [] }) ∧
      ([] : Str) ≠ "  pq".toList) :=
  ⟨⟨rfl, by decide⟩, ⟨by decide, by decide, by decide, rfl⟩, ⟨rfl, by decide⟩⟩

/-! ## The walker on a flat tree -/

theorem assign_top (pr : PropertiesResolver) (k : Str) (x : Value) :
    pr.assign [] k x = { pr with data := Tree.set pr.data k x } := rfl

theorem visit_str_top (env : Env) (sf : Nat)
    (walk : Path → PropertiesResolver → Except Fault PropertiesResolver) (k s : Str)
    (pr : PropertiesResolver) (h : Tree.get pr.data k = some (.str s)) :
    visit env sf walk [] k pr =
      match resolveString env sf [] k s (newStack, pr) with
      | .error e => .error e
      | .ok (r, _, pr1) => .ok (pr1.assign [] k (.str r)) := by
  simp [visit, Tree.at, h]

theorem onMatch_recurse (env : Env) (self : Str → Str → Machine → Except Fault (Str × Machine))
    (cm : Path) (pn inner name x : Str) (more : List Str) (S : List Str)
    (pr : PropertiesResolver)
    (hc : splitColon (TrimSpace inner) = name :: more) (hne : name ≠ [])
    (hget : Tree.get pr.data name = some (.str x)) (hx : hasSub openMark x = true)
    (hS : name ∉ S) :
    onMatch env self cm pn (matchText inner) (some S, pr) =
      match self name x (some (name :: S), pr) with
      | .error e => .error e
      | .ok (r, stack1, pr1) => recheck name more (stack1, pr1.assign cm name (.str r)) := by
  simp [onMatch, getPropertyClauseFromMatch_matchText, hc, hne,
    PropertiesResolver.resolvePropertyName, hget, hx, Stack.has, hS]

theorem onMatch_cycle (env : Env) (self : Str → Str → Machine → Except Fault (Str × Machine))
    (cm : Path) (pn inner name x : Str) (more : List Str) (S : List Str)
    (pr : PropertiesResolver)
    (hc : splitColon (TrimSpace inner) = name :: more) (hne : name ≠ [])
    (hget : Tree.get pr.data name = some (.str x)) (hx : hasSub openMark x = true)
    (hS : name ∈ S) :
    onMatch env self cm pn (matchText inner) (some S, pr) =
      .ok ([], some S, { pr with error := some (stackOverflowMsg name) }) := by
  simp [onMatch, getPropertyClauseFromMatch_matchText, hc, hne,
    PropertiesResolver.resolvePropertyName, hget, hx, Stack.has, hS]

theorem Tree.eq_of_keys_get (m : Tree) (x : Value) (hnd : m.keys.Nodup)
    (h : ∀ k ∈ m.keys, Tree.get m k = some x) : m = m.keys.map (fun k => (k, x)) := by
  induction m with
  | nil => rfl
  | cons e rest ih =>
    obtain ⟨k1, y⟩ := e
    simp only [Tree.keys, List.map_cons, List.nodup_cons] at hnd
    have h1 : y = x := by
      have := h k1 (by simp [Tree.keys])
      simpa [Tree.get] using this
    have h2 : ∀ k ∈ Tree.keys rest, Tree.get rest k = some x := by
      intro k hk
      have hne : k1 ≠ k := by
        rintro rfl
        exact hnd.1 hk
      have := h k (by simp only [Tree.keys, List.map_cons, List.mem_cons]; right; exact hk)
      simpa [Tree.get, hne] using this
    have := ih hnd.2 h2
    simp only [Tree.keys, List.map_cons, List.map_map] at this ⊢
    rw [h1]
    congr 1

/-! ## Chains -/

theorem chainEntries_keys (ps : List Str) (v : Str) : (chainEntries ps v).keys = ps := by
  induction ps with
  | nil => rfl
  | cons p rest ih =>
    simp only [Tree.keys] at ih
    simp [chainEntries, Tree.keys, ih]

theorem ChainState_of_mem (t : Tree) (v : Str) (hnd : t.keys.Nodup) (qs : List Str)
    (h : ∀ e ∈ chainEntries qs v, e ∈ t) : ChainState t v qs := by
  induction qs with
  | nil => trivial
  | cons p rest ih =>
    simp only [chainEntries, List.mem_cons, forall_eq_or_imp] at h
    refine ⟨?_, ih h.2⟩
    have hg := Tree.get_of_mem t p _ hnd h.1
    cases hh : rest.head? with
    | none => left; simpa [hh] using hg
    | some q => right; exact ⟨q, rfl, by simpa [hh] using hg⟩

theorem ChainState_mono (d1 d2 : Tree) (v : Str)
    (h : ∀ k, Tree.get d2 k = Tree.get d1 k ∨ Tree.get d2 k = some (.str v)) (qs : List Str)
    (hc : ChainState d1 v qs) : ChainState d2 v qs := by
  induction qs with
  | nil => trivial
  | cons p rest ih =>
    obtain ⟨h1, h2⟩ := hc
    refine ⟨?_, ih h2⟩
    rcases h p with e | e
    · rw [e]; exact h1
    · left; exact e

theorem ChainState_lookup (data : Tree) (v : Str) (ps : List Str) (hc : ChainState data v ps)
    (k : Str) (hk : k ∈ ps) :
    Tree.get data k = some (.str v) ∨
      ∃ q rest, (q :: rest) <:+ ps ∧ (q :: rest).length < ps.length ∧
        Tree.get data k = some (.str (matchText q)) ∧ ChainState data v (q :: rest) := by
  induction ps with
  | nil => simp at hk
  | cons p rest ih =>
    obtain ⟨h1, h2⟩ := hc
    simp only [List.mem_cons] at hk
    by_cases hkp : k = p
    · subst hkp
      rcases h1 with e | ⟨q, hq, e⟩
      · left; exact e
      · right
        cases rest with
        | nil => simp at hq
        | cons q1 rest1 =>
          simp only [List.head?_cons, Option.some.injEq] at hq
          subst hq
          exact ⟨q1, rest1, List.suffix_cons _ _, by simp, e, h2⟩
    · have hk2 : k ∈ rest := by
        rcases hk with e | e
        · exact absurd e hkp
        · exact e
      rcases ih h2 hk2 with e | ⟨q, r, hs, hl, e, hcs⟩
      · left; exact e
      · right
        exact ⟨q, r, hs.trans (List.suffix_cons _ _), by simp at hl ⊢; omega, e, hcs⟩

theorem resolve_chain (env : Env) (v : Str) (hv : hasSub openMark v = false) :
    ∀ (rest : List Str) (q : Str) (fuel : Nat) (pn : Str) (S : List Str)
      (pr : PropertiesResolver),
      rest.length < fuel → (q :: rest).Nodup → (∀ x ∈ q :: rest, wellFormedName x = true) →
      (∀ x ∈ q :: rest, x ∉ S) → ChainState pr.data v (q :: rest) → pr.error = none →
      ∃ S1 pr1, resolveString env fuel [] pn (matchText q) (some S, pr) = .ok (v, some S1, pr1) ∧
        pr1.error = none ∧ pr1.messages = pr.messages ∧ pr1.data.keys = pr.data.keys ∧
        Tree.get pr1.data q = some (.str v) ∧
        ∀ k, Tree.get pr1.data k = Tree.get pr.data k ∨ Tree.get pr1.data k = some (.str v) := by
  intro rest
  induction rest with
  | nil =>
    intro q fuel pn S pr hf _ hwf _ hc he
    obtain ⟨f, rfl⟩ : ∃ f, fuel = f + 1 := ⟨fuel - 1, by omega⟩
    have hq := hwf q (by simp)
    have hg : Tree.get pr.data q = some (.str v) := by
      rcases hc.1 with e | ⟨x, hx, _⟩
      · exact e
      · simp at hx
    refine ⟨S, pr, ?_, he, rfl, rfl, hg, fun k => Or.inl rfl⟩
    rw [resolveString_plain env f [] pn _ _ (usesTemplate_matchText q
        (rbrace_not_mem_of_wellFormed q hq)) he,
      ReplaceAllStringFunc_only _ _ _ (rbrace_not_mem_of_wellFormed q hq)]
    unfold closure
    rw [onMatch_literal env _ [] pn q q v [] _ (split_of_wellFormed q hq)
      (ne_nil_of_wellFormed q hq) hg hv]
  | cons q1 rest1 ih =>
    intro q fuel pn S pr hf hnd hwf hS hc he
    obtain ⟨f, rfl⟩ : ∃ f, fuel = f + 1 := ⟨fuel - 1, by omega⟩
    have hq := hwf q (by simp)
    have hstep : resolveString env (f + 1) [] pn (matchText q) (some S, pr) =
        match closure env f [] pn (matchText q) (some S, pr) with
        | .error e => .error e
        | .ok (r, st1) => .ok (r, st1) := by
      rw [resolveString_plain env f [] pn _ _ (usesTemplate_matchText q
          (rbrace_not_mem_of_wellFormed q hq)) he,
        ReplaceAllStringFunc_only _ _ _ (rbrace_not_mem_of_wellFormed q hq)]
    rcases hc.1 with hg | ⟨x, hx, hg⟩
    · refine ⟨S, pr, ?_, he, rfl, rfl, hg, fun k => Or.inl rfl⟩
      rw [hstep]
      unfold closure
      rw [onMatch_literal env _ [] pn q q v [] _ (split_of_wellFormed q hq)
        (ne_nil_of_wellFormed q hq) hg hv]
    · simp only [List.head?_cons, Option.some.injEq] at hx
      subst hx
      have hnd1 : (q1 :: rest1).Nodup := (List.nodup_cons.mp hnd).2
      have hqS : q ∉ S := hS q (by simp)
      have hS1 : ∀ x ∈ q1 :: rest1, x ∉ q :: S := by
        intro x hx hmem
        rcases List.mem_cons.mp hmem with e | e
        · subst e
          exact (List.nodup_cons.mp hnd).1 hx
        · exact hS x (List.mem_cons_of_mem _ hx) e
      obtain ⟨S1, pr1, hres, he1, hm1, hk1, hg1, hall1⟩ :=
        ih q1 f q (q :: S) pr (by simp at hf; omega) hnd1
          (fun x hx => hwf x (List.mem_cons_of_mem _ hx)) hS1 hc.2 he
      have hqpresent : ∃ y, Tree.get pr1.data q = some y := by
        rcases hall1 q with e | e
        · exact ⟨_, e.trans hg⟩
        · exact ⟨_, e⟩
      obtain ⟨y, hy⟩ := hqpresent
      refine ⟨S1, pr1.assign [] q (.str v), ?_, he1, hm1, ?_, ?_, ?_⟩
      · rw [hstep]
        unfold closure
        rw [onMatch_recurse env _ [] pn q q _ [] S pr (split_of_wellFormed q hq)
          (ne_nil_of_wellFormed q hq) hg (hasSub_openMark_matchText q1) hqS, hres]
        simp [recheck, PropertiesResolver.resolvePropertyName, assign_top, Tree.get_set_same]
      · rw [assign_top]
        simp only
        rw [Tree.keys_set_of_get _ _ _ _ hy, hk1]
      · rw [assign_top]
        exact Tree.get_set_same _ _ _
      · intro k
        by_cases hkq : k = q
        · subst hkq
          right
          rw [assign_top]
          exact Tree.get_set_same _ _ _
        · rw [assign_top]
          simp only
          rw [Tree.get_set_other _ _ _ _ hkq]
          exact hall1 k

theorem visit_chain (env : Env) (v : Str) (hv : hasSub openMark v = false)
    (hvt : usesTemplate v = false) (ps : List Str) (hnd : ps.Nodup)
    (hwf : ∀ x ∈ ps, wellFormedName x = true) (sf : Nat) (hsf : ps.length < sf)
    (walk : Path → PropertiesResolver → Except Fault PropertiesResolver)
    (k : Str) (hk : k ∈ ps) (pr : PropertiesResolver) (he : pr.error = none)
    (hc : ChainState pr.data v ps) :
    ∃ pr1, visit env sf walk [] k pr = .ok pr1 ∧ pr1.error = none ∧
      pr1.messages = pr.messages ∧ pr1.data.keys = pr.data.keys ∧
      Tree.get pr1.data k = some (.str v) ∧
      ∀ j, Tree.get pr1.data j = Tree.get pr.data j ∨ Tree.get pr1.data j = some (.str v) := by
  obtain ⟨f, rfl⟩ : ∃ f, sf = f + 1 := ⟨sf - 1, by omega⟩
  rcases ChainState_lookup pr.data v ps hc k hk with hg | ⟨q, rest, hs, hl, hg, hcs⟩
  · refine ⟨pr, ?_, he, rfl, rfl, hg, fun j => Or.inl rfl⟩
    rw [visit_str_top env _ walk k v pr hg,
      resolveString_literal env f [] k v (newStack, pr) hvt he (nextMatch_none_of_noOpen v hv)]
    simp only [assign_top]
    rw [Tree.set_self _ _ _ hg]
  · obtain ⟨S1, pr1, hres, he1, hm1, hk1, _, hall1⟩ :=
      resolve_chain env v hv rest q (f + 1) k [] pr (by simp at hl; omega)
        (hs.sublist.nodup hnd) (fun x hx => hwf x (hs.subset hx)) (fun x _ => by simp) hcs he
    have hpresent : ∃ y, Tree.get pr1.data k = some y := by
      rcases hall1 k with e | e
      · exact ⟨_, e.trans hg⟩
      · exact ⟨_, e⟩
    obtain ⟨y, hy⟩ := hpresent
    refine ⟨pr1.assign [] k (.str v), ?_, he1, hm1, ?_, ?_, ?_⟩
    · rw [visit_str_top env _ walk k _ pr hg]
      simp only [newStack]
      rw [hres]
    · rw [assign_top]
      simp only
      rw [Tree.keys_set_of_get _ _ _ _ hy, hk1]
    · rw [assign_top]
      exact Tree.get_set_same _ _ _
    · intro j
      by_cases hjk : j = k
      · subst hjk
        right
        rw [assign_top]
        exact Tree.get_set_same _ _ _
      · rw [assign_top]
        simp only
        rw [Tree.get_set_other _ _ _ _ hjk]
        exact hall1 j

theorem visitAll_chain (env : Env) (v : Str) (hv : hasSub openMark v = false)
    (hvt : usesTemplate v = false) (ps : List Str) (hnd : ps.Nodup)
    (hwf : ∀ x ∈ ps, wellFormedName x = true) (sf : Nat) (hsf : ps.length < sf)
    (walk : Path → PropertiesResolver → Except Fault PropertiesResolver) :
    ∀ (ks : List Str) (pr : PropertiesResolver), (∀ k ∈ ks, k ∈ ps) → pr.error = none →
      ChainState pr.data v ps →
      ∃ pr1, visitAll (visit env sf walk []) ks pr = .ok pr1 ∧ pr1.error = none ∧
        pr1.messages = pr.messages ∧ pr1.data.keys = pr.data.keys ∧
        (∀ k ∈ ks, Tree.get pr1.data k = some (.str v)) ∧
        (∀ j, Tree.get pr1.data j = Tree.get pr.data j ∨ Tree.get pr1.data j = some (.str v)) := by
  intro ks
  induction ks with
  | nil =>
    intro pr _ he _
    exact ⟨pr, rfl, he, rfl, rfl, by simp, fun j => Or.inl rfl⟩
  | cons k rest ih =>
    intro pr hks he hc
    obtain ⟨pr1, hvis, he1, hm1, hk1, hg1, hall1⟩ :=
      visit_chain env v hv hvt ps hnd hwf sf hsf walk k (hks k (by simp)) pr he hc
    obtain ⟨pr2, hrest, he2, hm2, hk2, hg2, hall2⟩ :=
      ih pr1 (fun x hx => hks x (List.mem_cons_of_mem _ hx)) he1
        (ChainState_mono pr.data pr1.data v hall1 ps hc)
    refine ⟨pr2, ?_, he2, hm2.trans hm1, hk2.trans hk1, ?_, ?_⟩
    · simp only [visitAll, hvis, hrest]
    · intro x hx
      rcases List.mem_cons.mp hx with e | e
      · subst e
        rcases hall2 x with e2 | e2
        · rw [e2]; exact hg1
        · exact e2
      · exact hg2 x e
    · intro j
      rcases hall2 j with e2 | e2
      · rcases hall1 j with e1 | e1
        · left; exact e2.trans e1
        · right; exact e2.trans e1
      · right; exact e2

/-- The loop over the keys of a tree made of a chain alone. -/
theorem chain_alone (env : Env) (ps : List Str) (v : Str) (t : Tree)
    (hnd : ps.Nodup) (hwf : ∀ p ∈ ps, wellFormedName p = true)
    (hv : hasSub openMark v = false) (hvt : usesTemplate v = false)
    (ht : t.Perm (chainEntries ps v)) :
    ∃ pr, visitAll (visit env (t.length + 1)
        (resolvePlaceholders env (t.length + 1) (depthEntries t)) []) t.keys (fresh t) = .ok pr ∧
      pr.data = t.keys.map (fun k => (k, .str v)) ∧ pr.error = none ∧ pr.messages = [] := by
  have hkeys : t.keys.Perm ps := by
    have := ht.map Prod.fst
    rw [← chainEntries_keys ps v]
    exact this
  have hndk : t.keys.Nodup := hkeys.nodup_iff.mpr hnd
  have hlen : t.length = ps.length := by
    have := hkeys.length_eq
    simpa [Tree.keys] using this
  have hc : ChainState t v ps :=
    ChainState_of_mem t v hndk ps (fun e he => ht.mem_iff.mpr he)
  obtain ⟨pr1, hrun, he1, hm1, hk1, hg1, _⟩ :=
    visitAll_chain env v hv hvt ps hnd hwf (t.length + 1) (by omega)
      (resolvePlaceholders env (t.length + 1) (depthEntries t)) t.keys (fresh t)
      (fun k hk => hkeys.mem_iff.mp hk) rfl hc
  have hdata : pr1.data = t.keys.map (fun k => (k, Value.str v)) := by
    have hk1a : pr1.data.keys = t.keys := hk1
    have := Tree.eq_of_keys_get pr1.data (.str v) (by rw [hk1a]; exact hndk)
      (fun k hk => hg1 k (by rw [← hk1a]; exact hk))
    rw [hk1a] at this
    exact this
  exact ⟨pr1, hrun, hdata, he1, hm1⟩

/-! ## The cycle guard as a measure -/

theorem pending_mono (ks S1 S2 : List Str) (h : ∀ x ∈ S1, x ∈ S2) :
    pending ks S2 ≤ pending ks S1 := by
  induction ks with
  | nil => simp [pending]
  | cons a rest ih =>
    simp only [pending]
    by_cases h1 : a ∈ S1
    · simp only [h1, h a h1, if_true]
      omega
    · by_cases h2 : a ∈ S2
      · simp only [h1, h2, if_true, if_false]
        omega
      · simp only [h1, h2, if_false]
        omega

theorem pending_cons_lt (ks S : List Str) (q : Str) (hq : q ∈ ks) (hS : q ∉ S) :
    pending ks (q :: S) < pending ks S := by
  induction ks with
  | nil => simp at hq
  | cons a rest ih =>
    have hmono := pending_mono rest S (q :: S) (fun x hx => List.mem_cons_of_mem _ hx)
    simp only [pending]
    by_cases haq : a = q
    · subst haq
      simp only [List.mem_cons, true_or, if_true, hS, if_false]
      omega
    · have hq2 : q ∈ rest := by
        rcases List.mem_cons.mp hq with e | e
        · exact absurd e.symm haq
        · exact e
      have := ih hq2
      by_cases h1 : a ∈ S
      · simp only [List.mem_cons, h1, or_true, if_true]
        omega
      · simp only [List.mem_cons, h1, haq, or_self, if_false]
        omega

theorem pending_le_length (ks S : List Str) : pending ks S ≤ ks.length := by
  induction ks with
  | nil => simp [pending]
  | cons a rest ih =>
    simp only [pending, List.length_cons]
    split_ifs <;> omega

/-! ## Cycles -/

theorem zipWith_fst_of_le (l1 l2 : List Str) (f : Str → Value) (hl : l1.length ≤ l2.length) :
    (List.zipWith (fun a b => (a, f b)) l1 l2).map Prod.fst = l1 := by
  induction l1 generalizing l2 with
  | nil => simp
  | cons a as ih =>
    cases l2 with
    | nil => simp at hl
    | cons b bs =>
      simp only [List.length_cons, Nat.add_le_add_iff_right] at hl
      simp [ih bs hl]

theorem mem_zipWith_pair (l1 l2 : List Str) (f : Str → Value) (e : Str × Value)
    (h : e ∈ List.zipWith (fun a b => (a, f b)) l1 l2) :
    ∃ a b, e = (a, f b) ∧ a ∈ l1 ∧ b ∈ l2 := by
  induction l1 generalizing l2 with
  | nil => simp at h
  | cons a as ih =>
    cases l2 with
    | nil => simp at h
    | cons b bs =>
      simp only [List.zipWith_cons_cons, List.mem_cons] at h
      rcases h with h | h
      · exact ⟨a, b, h, by simp, by simp⟩
      · obtain ⟨a1, b1, h1, h2, h3⟩ := ih bs h
        exact ⟨a1, b1, h1, List.mem_cons_of_mem _ h2, List.mem_cons_of_mem _ h3⟩

theorem cycleEntries_keys (ps : List Str) : (cycleEntries ps).keys = ps := by
  cases ps with
  | nil => rfl
  | cons p rest =>
    simp only [cycleEntries, Tree.keys]
    exact zipWith_fst_of_le (p :: rest) (rest ++ [p]) (fun b => .str (matchText b)) (by simp)

theorem cycleEntries_mem (ps : List Str) (e : Str × Value) (h : e ∈ cycleEntries ps) :
    ∃ a b, e = (a, .str (matchText b)) ∧ a ∈ ps ∧ b ∈ ps := by
  cases ps with
  | nil => simp [cycleEntries] at h
  | cons p rest =>
    simp only [cycleEntries] at h
    obtain ⟨a, b, h1, h2, h3⟩ :=
      mem_zipWith_pair (p :: rest) (rest ++ [p]) (fun b => .str (matchText b)) e h
    refine ⟨a, b, h1, h2, ?_⟩
    simp only [List.mem_append, List.mem_singleton] at h3
    rcases h3 with h3 | h3
    · exact List.mem_cons_of_mem _ h3
    · simp [h3]

theorem resolve_cycle (env : Env) (ps : List Str) (hwf : ∀ x ∈ ps, wellFormedName x = true) :
    ∀ (m fuel : Nat) (pn q : Str) (S : List Str) (pr : PropertiesResolver),
      pending ps S ≤ m → m < fuel → q ∈ ps → pr.error = none →
      (∀ p ∈ ps, ∃ p2, p2 ∈ ps ∧ Tree.get pr.data p = some (.str (matchText p2))) →
      ∃ S1 pr1 p, resolveString env fuel [] pn (matchText q) (some S, pr) =
          .ok ([], some S1, pr1) ∧
        p ∈ ps ∧ pr1.error = some (stackOverflowMsg p) ∧ pr1.messages = pr.messages ∧
        pr1.data.keys = pr.data.keys ∧
        ∀ k, Tree.get pr1.data k = Tree.get pr.data k ∨ Tree.get pr1.data k = some (.str []) := by
  intro m
  induction m with
  | zero =>
    intro fuel pn q S pr hm hf hq he hlink
    obtain ⟨f, rfl⟩ : ∃ f, fuel = f + 1 := ⟨fuel - 1, by omega⟩
    have hwq := hwf q hq
    obtain ⟨q2, _, hg⟩ := hlink q hq
    have hqS : q ∈ S := by
      by_contra hn
      have := pending_cons_lt ps S q hq hn
      omega
    refine ⟨S, { pr with error := some (stackOverflowMsg q) }, q, ?_, hq, rfl, rfl, rfl,
      fun k => Or.inl rfl⟩
    rw [resolveString_plain env f [] pn _ _ (usesTemplate_matchText q
        (rbrace_not_mem_of_wellFormed q hwq)) he,
      ReplaceAllStringFunc_only _ _ _ (rbrace_not_mem_of_wellFormed q hwq)]
    unfold closure
    rw [onMatch_cycle env _ [] pn q q _ [] S pr (split_of_wellFormed q hwq)
      (ne_nil_of_wellFormed q hwq) hg (hasSub_openMark_matchText q2) hqS]
  | succ m ih =>
    intro fuel pn q S pr hm hf hq he hlink
    obtain ⟨f, rfl⟩ : ∃ f, fuel = f + 1 := ⟨fuel - 1, by omega⟩
    have hwq := hwf q hq
    obtain ⟨q2, hq2, hg⟩ := hlink q hq
    have hstep : resolveString env (f + 1) [] pn (matchText q) (some S, pr) =
        match closure env f [] pn (matchText q) (some S, pr) with
        | .error e => .error e
        | .ok (r, st1) => .ok (r, st1) := by
      rw [resolveString_plain env f [] pn _ _ (usesTemplate_matchText q
          (rbrace_not_mem_of_wellFormed q hwq)) he,
        ReplaceAllStringFunc_only _ _ _ (rbrace_not_mem_of_wellFormed q hwq)]
    by_cases hqS : q ∈ S
    · refine ⟨S, { pr with error := some (stackOverflowMsg q) }, q, ?_, hq, rfl, rfl, rfl,
        fun k => Or.inl rfl⟩
      rw [hstep]
      unfold closure
      rw [onMatch_cycle env _ [] pn q q _ [] S pr (split_of_wellFormed q hwq)
        (ne_nil_of_wellFormed q hwq) hg (hasSub_openMark_matchText q2) hqS]
    · have hlt := pending_cons_lt ps S q hq hqS
      obtain ⟨S1, pr1, p, hres, hp, he1, hm1, hk1, hall1⟩ :=
        ih f q q2 (q :: S) pr (by omega) (by omega) hq2 he hlink
      have hpresent : ∃ y, Tree.get pr1.data q = some y := by
        rcases hall1 q with e | e
        · exact ⟨_, e.trans hg⟩
        · exact ⟨_, e⟩
      obtain ⟨y, hy⟩ := hpresent
      refine ⟨S1, pr1.assign [] q (.str []), p, ?_, hp, he1, hm1, ?_, ?_⟩
      · rw [hstep]
        unfold closure
        rw [onMatch_recurse env _ [] pn q q _ [] S pr (split_of_wellFormed q hwq)
          (ne_nil_of_wellFormed q hwq) hg (hasSub_openMark_matchText q2) hqS, hres]
        simp [recheck, PropertiesResolver.resolvePropertyName, assign_top, Tree.get_set_same]
      · rw [assign_top]
        simp only
        rw [Tree.keys_set_of_get _ _ _ _ hy, hk1]
      · intro k
        by_cases hkq : k = q
        · subst hkq
          right
          rw [assign_top]
          exact Tree.get_set_same _ _ _
        · rw [assign_top]
          simp only
          rw [Tree.get_set_other _ _ _ _ hkq]
          exact hall1 k

theorem visitAll_failed (env : Env) (f : Nat)
    (walk : Path → PropertiesResolver → Except Fault PropertiesResolver) :
    ∀ (ks : List Str) (pr : PropertiesResolver) (e : Str), pr.error = some e →
      (∀ k ∈ ks, ∃ x, Tree.get pr.data k = some (.str x) ∧ usesTemplate x = false) →
      ∃ pr1, visitAll (visit env (f + 1) walk []) ks pr = .ok pr1 ∧ pr1.error = some e ∧
        pr1.messages = pr.messages := by
  intro ks
  induction ks with
  | nil =>
    intro pr e he _
    exact ⟨pr, rfl, he, rfl⟩
  | cons k rest ih =>
    intro pr e he hall
    obtain ⟨x, hg, hx⟩ := hall k (by simp)
    have hne : pr.error ≠ none := by rw [he]; simp
    have hvis : visit env (f + 1) walk [] k pr = .ok (pr.assign [] k (.str [])) := by
      rw [visit_str_top env _ walk k x pr hg,
        resolveString_shortCircuit env f [] k x (newStack, pr) hx hne]
    have hrest : ∀ j ∈ rest, ∃ y, Tree.get (pr.assign [] k (.str [])).data j = some (.str y) ∧
        usesTemplate y = false := by
      intro j hj
      rw [assign_top]
      by_cases hjk : j = k
      · subst hjk
        exact ⟨[], Tree.get_set_same _ _ _, by decide⟩
      · simp only
        rw [Tree.get_set_other _ _ _ _ hjk]
        exact hall j (List.mem_cons_of_mem _ hj)
    obtain ⟨pr1, hrun, he1, hm1⟩ := ih (pr.assign [] k (.str [])) e he hrest
    exact ⟨pr1, by simp only [visitAll, hvis, hrun], he1, hm1⟩

theorem cycle_links (ps : List Str) (t : Tree) (hnd : ps.Nodup)
    (ht : t.Perm (cycleEntries ps)) :
    ∀ p ∈ ps, ∃ p2, p2 ∈ ps ∧ Tree.get t p = some (.str (matchText p2)) := by
  have hkeys : t.keys.Perm ps := by
    have := ht.map Prod.fst
    rw [← cycleEntries_keys ps]
    exact this
  have hndk : t.keys.Nodup := hkeys.nodup_iff.mpr hnd
  intro p hp
  have hpk : p ∈ t.keys := hkeys.mem_iff.mpr hp
  obtain ⟨e, he, hfst⟩ := List.mem_map.mp hpk
  obtain ⟨a, b, hab, _, hb⟩ := cycleEntries_mem ps e (ht.mem_iff.mp he)
  subst hab
  simp only at hfst
  subst hfst
  exact ⟨b, hb, Tree.get_of_mem t a _ hndk he⟩

/-- The loop over the keys of a tree made of a cycle alone. -/
theorem cycle_alone (env : Env) (ps : List Str) (t : Tree) (hne : ps ≠ [])
    (hnd : ps.Nodup) (hwf : ∀ p ∈ ps, wellFormedName p = true)
    (ht : t.Perm (cycleEntries ps)) :
    ∃ pr p, visitAll (visit env (t.length + 1)
        (resolvePlaceholders env (t.length + 1) (depthEntries t)) []) t.keys (fresh t) = .ok pr ∧
      p ∈ ps ∧ pr.error = some (stackOverflowMsg p) := by
  have hkeys : t.keys.Perm ps := by
    have := ht.map Prod.fst
    rw [← cycleEntries_keys ps]
    exact this
  have hlen : t.length = ps.length := by
    have := hkeys.length_eq
    simpa [Tree.keys] using this
  have hlink := cycle_links ps t hnd ht
  cases t with
  | nil =>
    have : ps.length = 0 := by simpa using hlen.symm
    exact absurd (List.length_eq_zero.mp this) hne
  | cons e trest =>
    obtain ⟨k, val⟩ := e
    have hk : k ∈ ps := hkeys.mem_iff.mp (by simp [Tree.keys])
    obtain ⟨q2, hq2, hg⟩ := hlink k hk
    obtain ⟨S1, pr1, p, hres, hp, he1, _, _, hall1⟩ :=
      resolve_cycle env ps hwf ps.length (((k, val) :: trest).length + 1) k q2 []
        (fresh ((k, val) :: trest)) (pending_le_length ps []) (by omega) hq2 rfl hlink
    have hvis : visit env (((k, val) :: trest).length + 1)
        (resolvePlaceholders env (((k, val) :: trest).length + 1)
          (depthEntries ((k, val) :: trest))) [] k (fresh ((k, val) :: trest)) =
        .ok (pr1.assign [] k (.str [])) := by
      rw [visit_str_top env _ _ k _ (fresh ((k, val) :: trest)) hg]
      simp only [newStack]
      rw [hres]
    have hrest : ∀ j ∈ Tree.keys trest,
        ∃ y, Tree.get (pr1.assign [] k (.str [])).data j = some (.str y) ∧
          usesTemplate y = false := by
      intro j hj
      rw [assign_top]
      by_cases hjk : j = k
      · subst hjk
        exact ⟨[], Tree.get_set_same _ _ _, by decide⟩
      · simp only
        rw [Tree.get_set_other _ _ _ _ hjk]
        have hjp : j ∈ ps := hkeys.mem_iff.mp (by
          simp only [Tree.keys, List.map_cons, List.mem_cons]
          right
          exact hj)
        rcases hall1 j with e | e
        · obtain ⟨j2, hj2, hgj⟩ := hlink j hjp
          refine ⟨matchText j2, e.trans hgj, usesTemplate_matchText j2
            (rbrace_not_mem_of_wellFormed j2 (hwf j2 hj2))⟩
        · exact ⟨[], e, by decide⟩
    obtain ⟨pr2, hrun, he2, _⟩ :=
      visitAll_failed env ((k, val) :: trest).length
        (resolvePlaceholders env (((k, val) :: trest).length + 1)
          (depthEntries ((k, val) :: trest))) (Tree.keys trest) (pr1.assign [] k (.str []))
        (stackOverflowMsg p) he1 hrest
    refine ⟨pr2, p, ?_, hp, he2⟩
    show visitAll _ (k :: Tree.keys trest) _ = _
    simp only [visitAll]
    rw [hvis]
    exact hrun

/-! ## Assignments below a path -/

theorem depth_get_le (m : Tree) (k : Str) (v : Value) (h : Tree.get m k = some v) :
    Value.depth v ≤ depthEntries m := by
  induction m with
  | nil => simp [Tree.get] at h
  | cons e rest ih =>
    obtain ⟨k1, y⟩ := e
    simp only [depthEntries]
    by_cases h1 : k1 = k
    · simp only [Tree.get, h1, if_true, Option.some.injEq] at h
      subst h
      exact le_max_left _ _
    · simp only [Tree.get, h1, if_false] at h
      exact le_trans (ih h) (le_max_right _ _)

theorem depth_set_le (m : Tree) (k : Str) (v : Value) :
    depthEntries (Tree.set m k v) ≤ max (Value.depth v) (depthEntries m) := by
  induction m with
  | nil => simp [Tree.set, depthEntries]
  | cons e rest ih =>
    obtain ⟨k1, y⟩ := e
    by_cases h1 : k1 = k
    · simp only [Tree.set, h1, if_true, depthEntries]
      omega
    · simp only [Tree.set, h1, if_false, depthEntries]
      omega

theorem depth_modifyAt_le (k : Str) (x : Value) (hx : Value.depth x = 0) :
    ∀ (Q : Path) (m : Tree),
      depthEntries (Tree.modifyAt (fun t => Tree.set t k x) Q m) ≤ depthEntries m := by
  intro Q
  induction Q with
  | nil =>
    intro m
    have := depth_set_le m k x
    simp only [Tree.modifyAt]
    omega
  | cons a Q1 ih =>
    intro m
    simp only [Tree.modifyAt]
    cases hg : Tree.get m a with
    | none => simp
    | some v =>
      cases v with
      | map ma =>
        simp only
        have h1 := depth_set_le m a (.map (Tree.modifyAt (fun t => Tree.set t k x) Q1 ma))
        have h2 := ih ma
        have h3 := depth_get_le m a _ hg
        simp only [Value.depth] at h1 h3
        omega
      | str _ => simp
      | seq _ => simp
      | strs _ => simp
      | other _ => simp

theorem at_modifyAt_append (f : Tree → Tree) (Q : Path) :
    ∀ (P : Path) (t m : Tree), Tree.at t P = some m →
      Tree.at (Tree.modifyAt f (P ++ Q) t) P = some (Tree.modifyAt f Q m) := by
  intro P
  induction P with
  | nil =>
    intro t m h
    simp only [Tree.at, Option.some.injEq] at h
    subst h
    simp [Tree.at]
  | cons a P1 ih =>
    intro t m h
    simp only [Tree.at] at h
    cases hg : Tree.get t a with
    | none => simp [hg] at h
    | some v =>
      cases v with
      | map ma =>
        simp only [hg] at h
        simp only [List.cons_append, Tree.modifyAt, hg, Tree.at, Tree.get_set_same]
        exact ih ma m h
      | str _ => simp [hg] at h
      | seq _ => simp [hg] at h
      | strs _ => simp [hg] at h
      | other _ => simp [hg] at h

theorem depth_of_isText (x : Value) (h : isText x = true) : Value.depth x = 0 := by
  cases x <;> simp [isText] at h <;> simp [Value.depth]

theorem Writes_trans {ks : List Str} {P : Path} {t1 t2 t3 : Tree} (h1 : Writes ks P t1 t2)
    (h2 : Writes ks P t2 t3) : Writes ks P t1 t3 := by
  induction h2 with
  | refl => exact h1
  | step t Q k x _ hx hk ih => exact Writes.step _ _ Q k x ih hx hk

theorem Writes_weaken {ks : List Str} {P Q : Path} {t1 t2 : Tree}
    (h : Writes ks (P ++ Q) t1 t2) : Writes ks P t1 t2 := by
  induction h with
  | refl => exact Writes.refl _
  | step t Q1 k x _ hx hk ih =>
    have := @Writes.step ks P _ t (Q ++ Q1) k x ih hx
      (by rw [← List.append_assoc]; exact hk)
    rw [← List.append_assoc] at this
    exact this

theorem Writes_assign (ks : List Str) (P : Path) (t : Tree) (k : Str) (x : Value)
    (hx : isText x = true) (hk : k ∈ ks ∨ k ∈ keysAt t P) :
    Writes ks P t (Tree.modifyAt (fun m => Tree.set m k x) P t) := by
  have := @Writes.step ks P t t [] k x (Writes.refl t) hx
    (by rw [List.append_nil]; exact hk)
  rw [List.append_nil] at this
  exact this

theorem Writes_keys_mono {ks ks1 : List Str} {P : Path} {t1 t2 : Tree} (h : Writes ks P t1 t2)
    (hks : ∀ k ∈ ks, k ∈ ks1) : Writes ks1 P t1 t2 := by
  induction h with
  | refl => exact Writes.refl _
  | step t Q k x _ hx hk ih =>
    exact Writes.step _ _ Q k x ih hx (hk.imp (hks k) id)

theorem Writes_at_depth {ks : List Str} {P : Path} {t1 t2 : Tree} (h : Writes ks P t1 t2) :
    ∀ m, Tree.at t1 P = some m →
      ∃ m1, Tree.at t2 P = some m1 ∧ depthEntries m1 ≤ depthEntries m := by
  induction h with
  | refl => exact fun m hm => ⟨m, hm, le_refl _⟩
  | step t Q k x _ hx hk ih =>
    intro m hm
    obtain ⟨m1, hm1, hd1⟩ := ih m hm
    refine ⟨_, at_modifyAt_append _ Q P t m1 hm1, ?_⟩
    exact le_trans (depth_modifyAt_le k x (depth_of_isText x hx) Q m1) hd1

theorem keys_modifyAt (k : Str) (x : Value) (P : Path) (t : Tree)
    (h : P = [] → k ∈ t.keys) :
    (Tree.modifyAt (fun m => Tree.set m k x) P t).keys = t.keys := by
  cases P with
  | nil =>
    have hk := h rfl
    cases hg : Tree.get t k with
    | none => exact absurd hk ((Tree.get_eq_none_iff t k).mp hg)
    | some y => exact Tree.keys_set_of_get t k x y hg
  | cons a P1 =>
    simp only [Tree.modifyAt]
    cases hg : Tree.get t a with
    | none => rfl
    | some v =>
      cases v with
      | map ma => exact Tree.keys_set_of_get t a _ _ hg
      | str _ => rfl
      | seq _ => rfl
      | strs _ => rfl
      | other _ => rfl

theorem at_append_single (k : Str) :
    ∀ (P : Path) (t : Tree),
      Tree.at t (P ++ [k]) =
        (Tree.at t P).bind (fun m =>
          match Tree.get m k with
          | some (.map m2) => some m2
          | _ => none) := by
  intro P
  induction P with
  | nil =>
    intro t
    simp only [List.nil_append, Tree.at, Option.some_bind]
  | cons a P1 ih =>
    intro t
    simp only [List.cons_append, Tree.at]
    cases hg : Tree.get t a with
    | none => rfl
    | some v =>
      cases v with
      | map ma => exact ih ma
      | str _ => rfl
      | seq _ => rfl
      | strs _ => rfl
      | other _ => rfl

theorem mem_keys_of_get (t : Tree) (k : Str) (v : Value) (h : Tree.get t k = some v) :
    k ∈ t.keys := by
  by_contra hn
  rw [(Tree.get_eq_none_iff t k).mpr hn] at h
  exact Option.noConfusion h

theorem Tree.mem_keys_set (m : Tree) (k : Str) (x : Value) (j : Str) :
    j ∈ (Tree.set m k x).keys ↔ j ∈ m.keys ∨ j = k := by
  induction m with
  | nil => simp [Tree.set, Tree.keys]
  | cons e rest ih =>
    obtain ⟨k1, y⟩ := e
    simp only [Tree.keys] at ih
    by_cases h : k1 = k
    · subst h
      simp only [Tree.set, if_true, Tree.keys, List.map_cons, List.mem_cons]
      tauto
    · simp only [Tree.set, h, if_false, Tree.keys, List.map_cons, List.mem_cons, ih]
      tauto

theorem keysAt_of_at {t : Tree} {P : Path} {m : Tree} (h : Tree.at t P = some m) :
    keysAt t P = m.keys := by
  simp [keysAt, h]

theorem Tree.modifyAt_none (f : Tree → Tree) (Q : Path) :
    ∀ (P : Path) (t : Tree), Tree.at t P = none → Tree.modifyAt f (P ++ Q) t = t := by
  intro P
  induction P with
  | nil =>
    intro t h
    simp [Tree.at] at h
  | cons a P1 ih =>
    intro t h
    simp only [Tree.at] at h
    simp only [List.cons_append, Tree.modifyAt]
    cases hg : Tree.get t a with
    | none => rfl
    | some v =>
      cases v with
      | map ma =>
        simp only [hg] at h
        simp only
        have e : Tree.modifyAt f (P1.append Q) ma = ma := ih ma h
        rw [e]
        exact Tree.set_self t a _ hg
      | str _ => rfl
      | seq _ => rfl
      | strs _ => rfl
      | other _ => rfl

/-- The keys of the map at `P` after an assignment at or below `P`. -/
theorem keysAt_modifyAt (k : Str) (x : Value) (Q : Path) (P : Path) (t : Tree) (j : Str) :
    j ∈ keysAt (Tree.modifyAt (fun m => Tree.set m k x) (P ++ Q) t) P ↔
      j ∈ keysAt t P ∨ (j = k ∧ Q = [] ∧ Tree.at t P ≠ none) := by
  cases hat : Tree.at t P with
  | none =>
    rw [Tree.modifyAt_none _ Q P t hat]
    simp
  | some m =>
    rw [keysAt_of_at (at_modifyAt_append _ Q P t m hat), keysAt_of_at hat]
    cases Q with
    | nil =>
      simp only [Tree.modifyAt, Tree.mem_keys_set]
      simp
    | cons a Q1 =>
      rw [keys_modifyAt k x (a :: Q1) m (fun h => List.noConfusion h)]
      simp

theorem Writes_keysAt {ks : List Str} {P : Path} {t1 t2 : Tree} (h : Writes ks P t1 t2) :
    (∀ j ∈ keysAt t1 P, j ∈ keysAt t2 P) ∧
      (∀ j ∈ keysAt t2 P, j ∈ keysAt t1 P ∨ j ∈ ks) := by
  induction h with
  | refl => exact ⟨fun _ h => h, fun _ h => Or.inl h⟩
  | step t Q k x _ hx hk ih =>
    refine ⟨fun j hj => (keysAt_modifyAt k x Q P t j).mpr (Or.inl (ih.1 j hj)), ?_⟩
    intro j hj
    rcases (keysAt_modifyAt k x Q P t j).mp hj with h1 | ⟨h1, h2, _⟩
    · exact ih.2 j h1
    · subst h1 h2
      rcases hk with h3 | h3
      · exact Or.inr h3
      · rw [List.append_nil] at h3
        exact ih.2 j h3

theorem mem_newKeys (c : Str) :
    ∀ (l old : List Str), c ∈ newKeys old l → c ∈ l ∧ c ∉ old := by
  intro l
  induction l with
  | nil => intro old h; simp [newKeys] at h
  | cons k ks ih =>
    intro old h
    simp only [newKeys] at h
    by_cases hk : k ∈ old
    · rw [if_pos hk] at h
      exact ⟨List.mem_cons_of_mem _ (ih old h).1, (ih old h).2⟩
    · rw [if_neg hk] at h
      rcases List.mem_cons.mp h with e | e
      · subst e
        exact ⟨List.mem_cons_self _ _, hk⟩
      · have := ih (k :: old) e
        exact ⟨List.mem_cons_of_mem _ this.1, fun hc => this.2 (List.mem_cons_of_mem _ hc)⟩

theorem newKeys_nodup : ∀ (l old : List Str), (newKeys old l).Nodup := by
  intro l
  induction l with
  | nil => intro old; simp [newKeys]
  | cons k ks ih =>
    intro old
    simp only [newKeys]
    by_cases hk : k ∈ old
    · rw [if_pos hk]
      exact ih old
    · rw [if_neg hk]
      refine List.nodup_cons.mpr ⟨?_, ih _⟩
      intro hc
      exact (mem_newKeys k ks (k :: old) hc).2 (List.mem_cons_self _ _)

theorem newKeys_of_subset : ∀ (l old : List Str), (∀ k ∈ l, k ∈ old) → newKeys old l = [] := by
  intro l
  induction l with
  | nil => intro old _; rfl
  | cons k ks ih =>
    intro old h
    simp only [newKeys]
    rw [if_pos (h k (List.mem_cons_self _ _))]
    exact ih old (fun j hj => h j (List.mem_cons_of_mem _ hj))

theorem createdKeys_of_keys_eq (a b : Tree) (P : Path) (h : keysAt b P = keysAt a P) :
    createdKeys a b P = [] := by
  unfold createdKeys
  rw [h]
  exact newKeys_of_subset _ _ (fun _ hk => hk)

theorem insertAt_length (k : Str) : ∀ (i : Nat) (l : List Str), (insertAt i k l).length = l.length + 1 := by
  intro i
  induction i with
  | zero => intro l; simp [insertAt]
  | succ i ih =>
    intro l
    cases l with
    | nil => simp [insertAt]
    | cons x l => simp [insertAt, ih l]

theorem mem_insertAt (k j : Str) : ∀ (i : Nat) (l : List Str), j ∈ insertAt i k l ↔ j = k ∨ j ∈ l := by
  intro i
  induction i with
  | zero => intro l; simp [insertAt]
  | succ i ih =>
    intro l
    cases l with
    | nil => simp [insertAt]
    | cons x l =>
      simp only [insertAt, List.mem_cons, ih l]
      tauto

theorem enqueue_length (env : Env) (P : Path) :
    ∀ (created remaining : List Str),
      (enqueue env P created remaining).length ≤ remaining.length + created.length := by
  intro created
  induction created with
  | nil => intro remaining; simp [enqueue]
  | cons k rest ih =>
    intro remaining
    simp only [enqueue]
    cases env.produce P k remaining with
    | none =>
      have := ih remaining
      simp only [List.length_cons]
      omega
    | some i =>
      have := ih (insertAt i k remaining)
      rw [insertAt_length] at this
      simp only [List.length_cons]
      omega

theorem mem_enqueue (env : Env) (P : Path) (j : Str) :
    ∀ (created remaining : List Str),
      (j ∈ remaining → j ∈ enqueue env P created remaining) ∧
        (j ∈ enqueue env P created remaining → j ∈ remaining ∨ j ∈ created) := by
  intro created
  induction created with
  | nil => intro remaining; simp [enqueue]
  | cons k rest ih =>
    intro remaining
    simp only [enqueue]
    cases env.produce P k remaining with
    | none =>
      refine ⟨(ih remaining).1, fun h => ?_⟩
      rcases (ih remaining).2 h with h1 | h1
      · exact Or.inl h1
      · exact Or.inr (List.mem_cons_of_mem _ h1)
    | some i =>
      refine ⟨fun h => (ih _).1 ((mem_insertAt k j i remaining).mpr (Or.inr h)), fun h => ?_⟩
      rcases (ih _).2 h with h1 | h1
      · rcases (mem_insertAt k j i remaining).mp h1 with e | e
        · subst e
          exact Or.inr (List.mem_cons_self _ _)
        · exact Or.inl e
      · exact Or.inr (List.mem_cons_of_mem _ h1)

/-- The number of names of `top` that are not keys of the map at `P`. -/
theorem created_count (top : List Str) (P : Path) (a b : Tree)
    (hmono : ∀ j ∈ keysAt a P, j ∈ keysAt b P)
    (hbound : ∀ j ∈ keysAt b P, j ∈ keysAt a P ∨ j ∈ top) :
    (createdKeys a b P).length +
        (top.dedup.filter (fun j => decide (j ∉ keysAt b P))).length ≤
      (top.dedup.filter (fun j => decide (j ∉ keysAt a P))).length := by
  rw [← List.length_append]
  apply List.Subperm.length_le
  apply List.subperm_of_subset
  · rw [List.nodup_append]
    refine ⟨newKeys_nodup _ _, (List.nodup_dedup top).filter _, ?_⟩
    intro c hc1 hc2
    have h1 := (mem_newKeys c _ _ hc1).1
    simp only [List.mem_filter, decide_eq_true_eq] at hc2
    exact hc2.2 h1
  · intro c hc
    simp only [List.mem_filter, decide_eq_true_eq, List.mem_dedup]
    rcases List.mem_append.mp hc with h | h
    · have h1 := mem_newKeys c _ _ h
      rcases hbound c h1.1 with h2 | h2
      · exact absurd h2 h1.2
      · exact ⟨h2, h1.2⟩
    · simp only [List.mem_filter, decide_eq_true_eq, List.mem_dedup] at h
      exact ⟨h.1, fun hc2 => h.2 (hmono c hc2)⟩

/-! ## Runs that do not exhaust the budget -/

theorem StackLe_refl (s : Stack) : StackLe s s := by
  cases s with
  | none => rfl
  | some S => exact ⟨S, rfl, fun _ h => h⟩

theorem StackLe_trans {a b c : Stack} (h1 : StackLe a b) (h2 : StackLe b c) : StackLe a c := by
  cases a with
  | none =>
    simp only [StackLe] at h1
    subst h1
    exact h2
  | some S =>
    obtain ⟨S1, rfl, hs1⟩ := h1
    obtain ⟨S2, rfl, hs2⟩ := h2
    exact ⟨S2, rfl, fun x hx => hs2 x (hs1 x hx)⟩

theorem stackPending_mono (ks : List Str) (a b : Stack) (h : StackLe a b) :
    stackPending ks b ≤ stackPending ks a := by
  cases a with
  | none =>
    simp only [StackLe] at h
    subst h
    exact le_refl _
  | some S =>
    obtain ⟨S1, rfl, hs1⟩ := h
    exact pending_mono ks S S1 hs1

theorem Grows_refl (cm : Path) (st : Machine) : Grows cm st st :=
  ⟨rfl, Writes.refl _, StackLe_refl _⟩

theorem Grows_trans {cm : Path} {a b c : Machine} (h1 : Grows cm a b) (h2 : Grows cm b c) :
    Grows cm a c :=
  ⟨h2.1.trans h1.1, Writes_trans h1.2.1 (by rw [← h1.1]; exact h2.2.1),
    StackLe_trans h1.2.2 h2.2.2⟩

theorem replaceAllAux_outcome (R : Machine → Machine → Prop) (hrefl : ∀ st, R st st)
    (htrans : ∀ a b c, R a b → R b c → R a c)
    (repl : Str → Machine → Except Fault (Str × Machine)) (st0 : Machine)
    (hrepl : ∀ m st, R st0 st → Outcome (fun r => R st r.2) (repl m st)) :
    ∀ (n : Nat) (s : Str) (st : Machine), R st0 st →
      Outcome (fun r => R st r.2) (replaceAllAux repl n s st) := by
  intro n
  induction n with
  | zero =>
    intro s st _
    exact hrefl st
  | succ n ih =>
    intro s st hst
    simp only [replaceAllAux]
    cases hnm : nextMatch s with
    | none => exact hrefl st
    | some p =>
      obtain ⟨a, i, b⟩ := p
      simp only
      have h1 := hrepl (matchText i) st hst
      cases hr : repl (matchText i) st with
      | error e =>
        rw [hr] at h1
        exact h1
      | ok q =>
        obtain ⟨r, st1⟩ := q
        rw [hr] at h1
        simp only [Outcome] at h1
        simp only
        have h2 := ih b st1 (htrans _ _ _ hst h1)
        cases hr2 : replaceAllAux repl n b st1 with
        | error e =>
          rw [hr2] at h2
          exact h2
        | ok q2 =>
          obtain ⟨rest, st2⟩ := q2
          rw [hr2] at h2
          simp only [Outcome] at h2 ⊢
          exact htrans _ _ _ h1 h2

theorem Outcome_imp {α : Type} {Q1 Q2 : α → Prop} (h : ∀ a, Q1 a → Q2 a) :
    ∀ x : Except Fault α, Outcome Q1 x → Outcome Q2 x
  | .error _, hx => hx
  | .ok a, hx => h a hx

theorem clause_error (m : Str) (e : Fault) (h : getPropertyClauseFromMatch m = .error e) :
    e = Fault.sliceBounds := by
  unfold getPropertyClauseFromMatch at h
  split_ifs at h
  injection h with h1
  exact h1.symm

theorem Grows_assign {cm : Path} {st : Machine} {stack1 : Stack} {pr1 : PropertiesResolver}
    (h : Grows cm st (stack1, pr1)) (k : Str) (x : Value) (hx : isText x = true)
    (hk : k ∈ st.2.data.keys) : Grows cm st (stack1, pr1.assign cm k x) := by
  obtain ⟨h1, h2, h3⟩ := h
  refine ⟨?_, ?_, h3⟩
  · show (Tree.modifyAt (fun m => Tree.set m k x) cm pr1.data).keys = st.2.data.keys
    rw [keys_modifyAt k x cm pr1.data (fun _ => by rw [h1]; exact hk)]
    exact h1
  · exact Writes_trans h2 (Writes_assign _ cm pr1.data k x hx (Or.inl hk))

theorem recheck_outcome (cm : Path) (name : Str) (more : List Str) (st : Machine) :
    Outcome (fun r => Grows cm st r.2) (recheck name more st) := by
  unfold recheck
  cases hg : st.2.resolvePropertyName name with
  | none =>
    cases more with
    | nil => exact ⟨rfl, Writes.refl _, StackLe_refl _⟩
    | cons d ds => exact Grows_refl cm st
  | some v =>
    cases v with
    | str u => exact Grows_refl cm st
    | seq _ => simp [Outcome]
    | strs _ => simp [Outcome]
    | map _ => simp [Outcome]
    | other _ => simp [Outcome]

theorem onMatch_outcome (env : Env) (ks : List Str) (f : Nat) (cm : Path) (pn : Str)
    (self : Str → Str → Machine → Except Fault (Str × Machine))
    (hself : ∀ name value st, (∀ k ∈ st.2.data.keys, k ∈ ks) → stackPending ks st.1 < f →
      Outcome (fun r => Grows cm st r.2) (self name value st))
    (m : Str) (st : Machine) (hks : ∀ k ∈ st.2.data.keys, k ∈ ks)
    (hp : stackPending ks st.1 ≤ f) :
    Outcome (fun r => Grows cm st r.2) (onMatch env self cm pn m st) := by
  obtain ⟨stack, pr⟩ := st
  unfold onMatch
  cases hclause : getPropertyClauseFromMatch m with
  | error e =>
    have := clause_error m e hclause
    subst this
    simp [Outcome]
  | ok l =>
    cases l with
    | nil => simp [Outcome]
    | cons name more =>
      simp only
      by_cases hne : name = []
      · rw [if_pos hne]
        exact ⟨rfl, Writes.refl _, StackLe_refl _⟩
      · rw [if_neg hne]
        cases hget : pr.resolvePropertyName name with
        | none => exact recheck_outcome cm name more _
        | some v =>
          cases v with
          | str cur =>
            simp only
            by_cases hsub : hasSub openMark cur = true
            · rw [if_pos hsub]
              by_cases hhas : Stack.has stack name = true
              · rw [if_pos hhas]
                exact ⟨rfl, Writes.refl _, StackLe_refl _⟩
              · rw [if_neg hhas]
                cases stack with
                | none => simp [Outcome]
                | some s =>
                  simp only
                  have hns : name ∉ s := by
                    simpa [Stack.has] using hhas
                  have hnk : name ∈ pr.data.keys := mem_keys_of_get pr.data name _ hget
                  have hlt := pending_cons_lt ks s name (hks name hnk) hns
                  have hrec := hself name cur (some (name :: s), pr) hks (by
                    simp only [stackPending] at hp ⊢
                    omega)
                  cases hr : self name cur (some (name :: s), pr) with
                  | error e =>
                    rw [hr] at hrec
                    exact hrec
                  | ok q =>
                    obtain ⟨r, stack1, pr1⟩ := q
                    rw [hr] at hrec
                    simp only [Outcome] at hrec
                    simp only
                    have hg0 : Grows cm (some s, pr) (stack1, pr1) := by
                      obtain ⟨h1, h2, S1, h3, h4⟩ := hrec
                      exact ⟨h1, h2, S1, h3, fun x hx => h4 x (List.mem_cons_of_mem _ hx)⟩
                    have hg1 := Grows_assign hg0 name (.str r) rfl hnk
                    exact Outcome_imp (fun a ha => Grows_trans hg1 ha) _
                      (recheck_outcome cm name more _)
            · rw [if_neg hsub]
              exact Grows_refl cm _
          | seq _ => exact Grows_refl cm _
          | strs _ => exact Grows_refl cm _
          | map _ => exact Grows_refl cm _
          | other _ => exact Grows_refl cm _

theorem templatePass_data (env : Env) (value : Str) (pr : PropertiesResolver) :
    (templatePass env value pr).2.data = pr.data ∧
      (templatePass env value pr).2.messages = pr.messages := by
  unfold templatePass
  split_ifs
  · cases env.template pr.parsed value <;> exact ⟨rfl, rfl⟩
  · exact ⟨rfl, rfl⟩

theorem resolveString_total (env : Env) (ks : List Str) :
    ∀ (f : Nat) (cm : Path) (pn value : Str) (st : Machine),
      (∀ k ∈ st.2.data.keys, k ∈ ks) → stackPending ks st.1 < f →
      Outcome (fun r => Grows cm st r.2) (resolveString env f cm pn value st) := by
  intro f
  induction f with
  | zero =>
    intro cm pn value st _ hp
    omega
  | succ f ih =>
    intro cm pn value st hks hp
    obtain ⟨stack, pr⟩ := st
    simp only [resolveString]
    have hdata := (templatePass_data env value pr).1
    cases htp : templatePass env value pr with
    | mk o pr1 =>
      rw [htp] at hdata
      simp only at hdata
      have hbase : Grows cm (stack, pr) (stack, pr1) := by
        refine ⟨?_, ?_, StackLe_refl _⟩
        · show pr1.data.keys = pr.data.keys
          rw [hdata]
        · show Writes pr.data.keys cm pr.data pr1.data
          rw [hdata]
          exact Writes.refl _
      cases o with
      | none => exact hbase
      | some gtr =>
        simp only
        by_cases he : pr1.error ≠ none
        · rw [if_pos he]
          exact hbase
        · rw [if_neg he]
          have hrepl : ∀ m st, Grows cm (stack, pr1) st →
              Outcome (fun r => Grows cm st r.2)
                (onMatch env (resolveString env f cm) cm pn m st) := by
            intro m st hst
            have hks1 : ∀ k ∈ st.2.data.keys, k ∈ ks := by
              intro k hk
              rw [hst.1] at hk
              simp only at hk
              rw [hdata] at hk
              exact hks k hk
            have hp1 : stackPending ks st.1 ≤ f := by
              have := stackPending_mono ks stack st.1 hst.2.2
              simp only at hp
              omega
            exact onMatch_outcome env ks f cm pn _ (fun name value st h1 h2 =>
              ih cm name value st h1 h2) m st hks1 hp1
          have := replaceAllAux_outcome (Grows cm) (Grows_refl cm)
            (fun a b c h1 h2 => Grows_trans h1 h2) _ (stack, pr1) hrepl gtr.length gtr
            (stack, pr1) (Grows_refl cm _)
          exact Outcome_imp (fun a ha => Grows_trans hbase ha) _ this

theorem stackPending_le (ks : List Str) (s : Stack) : stackPending ks s ≤ ks.length := by
  cases s with
  | none => simp [stackPending]
  | some S => exact pending_le_length ks S

theorem resolveElements_outcome (env : Env) (sf : Nat) (cm : Path) (pn : Str) :
    ∀ (xs : List Value) (resolved : List Str) (st : Machine), st.2.data.keys.length < sf →
      Outcome (fun r => Grows cm st r.2) (resolveElements env sf cm pn xs resolved st) := by
  intro xs
  induction xs with
  | nil =>
    intro resolved st _
    exact Grows_refl cm st
  | cons x rest ih =>
    intro resolved st hsf
    cases x with
    | str s =>
      simp only [resolveElements]
      have h1 := resolveString_total env st.2.data.keys sf cm pn s st (fun _ h => h)
        (lt_of_le_of_lt (stackPending_le _ _) hsf)
      cases hr : resolveString env sf cm pn s st with
      | error e =>
        rw [hr] at h1
        exact h1
      | ok q =>
        obtain ⟨r, st1⟩ := q
        rw [hr] at h1
        simp only [Outcome] at h1
        simp only
        have h2 := ih (resolved ++ [r]) st1 (by rw [h1.1]; exact hsf)
        exact Outcome_imp (fun a ha => Grows_trans h1 ha) _ h2
    | seq _ => simp [resolveElements, Outcome]
    | strs _ => simp [resolveElements, Outcome]
    | map _ => simp [resolveElements, Outcome]
    | other _ => simp [resolveElements, Outcome]

/-- What a visit or a walk may do to the resolver: the top-level keys stay,
the tree changes by assignments at or below `P` to keys that are top-level keys
or keys of the map assigned to. -/
theorem visit_outcome (env : Env) (sf : Nat)
    (walk : Path → PropertiesResolver → Except Fault PropertiesResolver) (P : Path) (k : Str)
    (pr : PropertiesResolver) (hsf : pr.data.keys.length < sf)
    (hwalk : ∀ m1 m2, Tree.at pr.data P = some m1 → Tree.get m1 k = some (.map m2) →
      Outcome (fun pr1 => pr1.data.keys = pr.data.keys ∧
          Writes pr.data.keys (P ++ [k]) pr.data pr1.data)
        (walk (P ++ [k]) pr)) :
    Outcome (fun pr1 => pr1.data.keys = pr.data.keys ∧ Writes pr.data.keys P pr.data pr1.data)
      (visit env sf walk P k pr) := by
  unfold visit
  cases hat : Tree.at pr.data P with
  | none => exact ⟨rfl, Writes.refl _⟩
  | some m1 =>
    simp only [Option.some_bind]
    cases hg : Tree.get m1 k with
    | none => exact ⟨rfl, Writes.refl _⟩
    | some v =>
      have hk : P = [] → k ∈ pr.data.keys := by
        intro hP
        subst hP
        simp only [Tree.at, Option.some.injEq] at hat
        subst hat
        exact mem_keys_of_get _ _ _ hg
      have hkat : k ∈ keysAt pr.data P := by
        rw [keysAt_of_at hat]
        exact mem_keys_of_get _ _ _ hg
      cases v with
      | map m2 =>
        simp only
        exact Outcome_imp (fun a ha => ⟨ha.1, Writes_weaken ha.2⟩) _ (hwalk m1 m2 hat hg)
      | seq xs =>
        simp only
        have h1 := resolveElements_outcome env sf P k xs [] (newStack, pr) hsf
        cases hr : resolveElements env sf P k xs [] (newStack, pr) with
        | error e =>
          rw [hr] at h1
          exact h1
        | ok q =>
          obtain ⟨resolved, stack1, pr1⟩ := q
          rw [hr] at h1
          simp only [Outcome] at h1 ⊢
          refine ⟨?_, Writes_trans h1.2.1 (Writes_assign _ P pr1.data k _ rfl
            (Or.inr ((Writes_keysAt h1.2.1).1 k hkat)))⟩
          show (Tree.modifyAt _ P pr1.data).keys = pr.data.keys
          rw [keys_modifyAt k _ P pr1.data (fun hP => by rw [h1.1]; exact hk hP)]
          exact h1.1
      | str s =>
        simp only
        have h1 := resolveString_total env pr.data.keys sf P k s (newStack, pr) (fun _ h => h)
          (lt_of_le_of_lt (stackPending_le _ _) hsf)
        cases hr : resolveString env sf P k s (newStack, pr) with
        | error e =>
          rw [hr] at h1
          exact h1
        | ok q =>
          obtain ⟨r, stack1, pr1⟩ := q
          rw [hr] at h1
          simp only [Outcome] at h1 ⊢
          refine ⟨?_, Writes_trans h1.2.1 (Writes_assign _ P pr1.data k _ rfl
            (Or.inr ((Writes_keysAt h1.2.1).1 k hkat)))⟩
          show (Tree.modifyAt _ P pr1.data).keys = pr.data.keys
          rw [keys_modifyAt k _ P pr1.data (fun hP => by rw [h1.1]; exact hk hP)]
          exact h1.1
      | strs _ => exact ⟨rfl, Writes.refl _⟩
      | other _ => exact ⟨rfl, Writes.refl _⟩

theorem visitAll_outcome (R : PropertiesResolver → PropertiesResolver → Prop)
    (hrefl : ∀ a, R a a) (htrans : ∀ a b c, R a b → R b c → R a c)
    (step : Str → PropertiesResolver → Except Fault PropertiesResolver)
    (pr0 : PropertiesResolver)
    (hstep : ∀ k pr, R pr0 pr → Outcome (fun pr1 => R pr pr1) (step k pr)) :
    ∀ (ks : List Str) (pr : PropertiesResolver), R pr0 pr →
      Outcome (fun pr1 => R pr pr1) (visitAll step ks pr) := by
  intro ks
  induction ks with
  | nil =>
    intro pr _
    exact hrefl pr
  | cons k rest ih =>
    intro pr hpr
    simp only [visitAll]
    have h1 := hstep k pr hpr
    cases hr : step k pr with
    | error e =>
      rw [hr] at h1
      exact h1
    | ok pr1 =>
      rw [hr] at h1
      simp only [Outcome] at h1
      simp only
      exact Outcome_imp (fun a ha => htrans _ _ _ h1 ha) _ (ih pr1 (htrans _ _ _ hpr h1))

theorem rangeLoop_nil (env : Env)
    (step : Str → PropertiesResolver → Except Fault PropertiesResolver) (P : Path) (n : Nat)
    (pr : PropertiesResolver) : rangeLoop env step P n [] pr = .ok pr := by
  cases n <;> rfl

theorem rangeLoop_outcome (env : Env) (P : Path) (top : List Str)
    (R : PropertiesResolver → PropertiesResolver → Prop)
    (hrefl : ∀ a, R a a) (htrans : ∀ a b c, R a b → R b c → R a c)
    (step : Str → PropertiesResolver → Except Fault PropertiesResolver)
    (pr0 : PropertiesResolver)
    (hkeys : ∀ a b, R pr0 a → R a b → (∀ j ∈ keysAt a.data P, j ∈ keysAt b.data P) ∧
      (∀ j ∈ keysAt b.data P, j ∈ keysAt a.data P ∨ j ∈ top))
    (hstep : ∀ k pr, R pr0 pr → Outcome (fun pr1 => R pr pr1) (step k pr)) :
    ∀ (n : Nat) (ks : List Str) (pr : PropertiesResolver), R pr0 pr →
      turns top P ks pr.data ≤ n →
      Outcome (fun pr1 => R pr pr1) (rangeLoop env step P n ks pr) := by
  intro n
  induction n with
  | zero =>
    intro ks pr _ hn
    cases ks with
    | nil => exact hrefl pr
    | cons k rest =>
      simp only [turns, List.length_cons] at hn
      omega
  | succ n ih =>
    intro ks pr hpr hn
    cases ks with
    | nil => exact hrefl pr
    | cons k rest =>
      simp only [rangeLoop]
      have h1 := hstep k pr hpr
      cases hr : step k pr with
      | error e =>
        rw [hr] at h1
        exact h1
      | ok pr1 =>
        rw [hr] at h1
        simp only [Outcome] at h1
        simp only
        have hk := hkeys pr pr1 hpr h1
        have hc := created_count top P pr.data pr1.data hk.1 hk.2
        have hl := enqueue_length env P (createdKeys pr.data pr1.data P) rest
        refine Outcome_imp (fun a ha => htrans _ _ _ h1 ha) _
          (ih _ pr1 (htrans _ _ _ hpr h1) ?_)
        simp only [turns, List.length_cons] at hn ⊢
        omega

theorem turns_le (top : List Str) (P : Path) (ks : List Str) (data : Tree) :
    turns top P ks data ≤ ks.length + top.length := by
  unfold turns
  have h1 := List.length_filter_le (fun j => decide (j ∉ keysAt data P)) top.dedup
  have h2 := (List.dedup_sublist top).length_le
  omega

theorem resolvePlaceholders_total (env : Env) (sf : Nat) :
    ∀ (d : Nat) (P : Path) (pr : PropertiesResolver) (m : Tree), pr.data.keys.length < sf →
      Tree.at pr.data P = some m → depthEntries m < d →
      Outcome (fun pr1 => pr1.data.keys = pr.data.keys ∧ Writes pr.data.keys P pr.data pr1.data)
        (resolvePlaceholders env sf d P pr) := by
  intro d
  induction d with
  | zero =>
    intro P pr m _ _ hd
    omega
  | succ d ih =>
    intro P pr m hsf hat hd
    simp only [resolvePlaceholders, hat]
    apply rangeLoop_outcome env P pr.data.keys
      (fun a b => b.data.keys = a.data.keys ∧ Writes a.data.keys P a.data b.data)
      (fun a => ⟨rfl, Writes.refl _⟩)
      (fun a b c h1 h2 => ⟨h2.1.trans h1.1, Writes_trans h1.2 (by rw [← h1.1]; exact h2.2)⟩) _ pr
    · intro a b ha hab
      have := Writes_keysAt hab.2
      rw [ha.1] at this
      exact this
    · intro k pr1 hpr1
      apply visit_outcome env sf _ P k pr1 (by rw [hpr1.1]; exact hsf)
      intro m1 m2 hat1 hg
      obtain ⟨m1a, hat1a, hdepth⟩ := Writes_at_depth hpr1.2 m hat
      rw [hat1] at hat1a
      simp only [Option.some.injEq] at hat1a
      subst hat1a
      have hat2 : Tree.at pr1.data (P ++ [k]) = some m2 := by
        rw [at_append_single, hat1]
        simp [hg]
      have hd2 := depth_get_le m1 k _ hg
      simp only [Value.depth] at hd2
      exact ih (P ++ [k]) pr1 m2 (by rw [hpr1.1]; exact hsf) hat2 (by omega)
    · exact ⟨rfl, Writes.refl _⟩
    · exact turns_le _ _ _ _

/-! ## Predicates on reachable values -/

theorem Good_get {q : Value → Prop} {m : Tree} (h : Good q (.map m)) (k : Str) (v : Value)
    (hg : Tree.get m k = some v) : Good q v := by
  cases h with
  | leaf _ hn _ => exact absurd rfl (hn m)
  | node _ hall => exact hall k v hg

theorem Good_text {q : Value → Prop} (hq : ∀ x, isText x = true → q x) (x : Value)
    (hx : isText x = true) : Good q x := by
  refine Good.leaf x ?_ (hq x hx)
  intro m hm
  subst hm
  simp [isText] at hx

theorem Good_modifyAt {q : Value → Prop} (hq : ∀ x, isText x = true → q x) (k : Str) (x : Value)
    (hx : isText x = true) :
    ∀ (Q : Path) (m : Tree), Good q (.map m) →
      Good q (.map (Tree.modifyAt (fun t => Tree.set t k x) Q m)) := by
  intro Q
  induction Q with
  | nil =>
    intro m hm
    refine Good.node _ ?_
    intro j v hj
    simp only [Tree.modifyAt] at hj
    by_cases hjk : j = k
    · subst hjk
      rw [Tree.get_set_same] at hj
      simp only [Option.some.injEq] at hj
      subst hj
      exact Good_text hq _ hx
    · rw [Tree.get_set_other _ _ _ _ hjk] at hj
      exact Good_get hm j v hj
  | cons a Q1 ih =>
    intro m hm
    simp only [Tree.modifyAt]
    cases hg : Tree.get m a with
    | none => exact hm
    | some va =>
      cases va with
      | map ma =>
        simp only
        refine Good.node _ ?_
        intro j v hj
        by_cases hja : j = a
        · subst hja
          rw [Tree.get_set_same] at hj
          simp only [Option.some.injEq] at hj
          subst hj
          exact ih ma (Good_get hm j _ hg)
        · rw [Tree.get_set_other _ _ _ _ hja] at hj
          exact Good_get hm j v hj
      | str _ => exact hm
      | seq _ => exact hm
      | strs _ => exact hm
      | other _ => exact hm

theorem Writes_good {q : Value → Prop} (hq : ∀ x, isText x = true → q x) {ks : List Str}
    {m m1 : Tree} (h : Writes ks [] m m1) (hm : Good q (.map m)) : Good q (.map m1) := by
  induction h with
  | refl => exact hm
  | step t Q k x _ hx _ ih => exact Good_modifyAt hq k x hx _ t ih

theorem keysAt_append {t m : Tree} {P : Path} (h : Tree.at t P = some m) (Q : Path) :
    keysAt t (P ++ Q) = keysAt m Q := by
  unfold keysAt
  have : Tree.at t (P ++ Q) = Tree.at m Q := by
    revert t
    induction P with
    | nil =>
      intro t h
      simp only [Tree.at, Option.some.injEq] at h
      subst h
      rfl
    | cons a P1 ih =>
      intro t h
      simp only [Tree.at] at h
      simp only [List.cons_append, Tree.at]
      cases hg : Tree.get t a with
      | none => simp [hg] at h
      | some v =>
        cases v with
        | map ma =>
          simp only [hg] at h
          exact ih h
        | str _ => simp [hg] at h
        | seq _ => simp [hg] at h
        | strs _ => simp [hg] at h
        | other _ => simp [hg] at h
  rw [this]

theorem Writes_at {ks : List Str} {P : Path} {t1 t2 : Tree} (h : Writes ks P t1 t2) :
    ∀ m, Tree.at t1 P = some m → ∃ m1, Tree.at t2 P = some m1 ∧ Writes ks [] m m1 := by
  induction h with
  | refl => exact fun m hm => ⟨m, hm, Writes.refl _⟩
  | step t Q k x _ hx hk ih =>
    intro m hm
    obtain ⟨m1, hm1, hw⟩ := ih m hm
    refine ⟨_, at_modifyAt_append _ Q P t m1 hm1, ?_⟩
    exact Writes.step (P := []) m m1 Q k x hw hx
      (hk.imp id (fun h => by rw [keysAt_append hm1] at h; exact h))

/-- What an entry of a map becomes under assignments. -/
theorem Writes_get {ks : List Str} {m m1 : Tree} (h : Writes ks [] m m1) :
    ∀ (j : Str) (v1 : Value), Tree.get m1 j = some v1 →
      isText v1 = true ∨ ∃ v, Tree.get m j = some v ∧
        (v1 = v ∨ ∃ ma ma1, v = .map ma ∧ v1 = .map ma1 ∧ Writes ks [] ma ma1) := by
  induction h with
  | refl => exact fun j v1 hj => Or.inr ⟨v1, hj, Or.inl rfl⟩
  | step t Q k x _ hx hk ih =>
    intro j v1 hj
    simp only [List.nil_append] at hj
    cases Q with
    | nil =>
      simp only [Tree.modifyAt] at hj
      by_cases hjk : j = k
      · subst hjk
        rw [Tree.get_set_same] at hj
        simp only [Option.some.injEq] at hj
        subst hj
        exact Or.inl hx
      · rw [Tree.get_set_other _ _ _ _ hjk] at hj
        exact ih j v1 hj
    | cons a Q1 =>
      simp only [Tree.modifyAt] at hj
      cases hg : Tree.get t a with
      | none =>
        rw [hg] at hj
        exact ih j v1 hj
      | some va =>
        rw [hg] at hj
        cases va with
        | map ma =>
          simp only at hj
          by_cases hja : j = a
          · subst hja
            rw [Tree.get_set_same] at hj
            simp only [Option.some.injEq] at hj
            subst hj
            have hat1 : Tree.at t [j] = some ma := by simp [Tree.at, hg]
            have hstep : Writes ks [] ma (Tree.modifyAt (fun m => Tree.set m k x) Q1 ma) :=
              Writes.step (P := []) ma ma Q1 k x (Writes.refl _) hx
                (hk.imp id (fun h => by
                  have := keysAt_append hat1 Q1
                  simp only [List.singleton_append] at this
                  simp only [List.nil_append] at h ⊢
                  rw [← this]
                  exact h))
            rcases ih j _ hg with htext | ⟨v, hv, hrel⟩
            · simp [isText] at htext
            · refine Or.inr ⟨v, hv, Or.inr ?_⟩
              rcases hrel with e | ⟨mb, mb1, e1, e2, hw⟩
              · exact ⟨ma, _, e.symm, rfl, hstep⟩
              · simp only [Value.map.injEq] at e2
                subst e2
                exact ⟨mb, _, e1, rfl, Writes_trans hw hstep⟩
          · rw [Tree.get_set_other _ _ _ _ hja] at hj
            exact ih j v1 hj
        | str _ => exact ih j v1 hj
        | seq _ => exact ih j v1 hj
        | strs _ => exact ih j v1 hj
        | other _ => exact ih j v1 hj

theorem noSeq_text (x : Value) (h : isText x = true) : noSeq x := by
  cases x <;> simp [isText] at h <;> trivial

theorem plainLeaf_of_not_str (x : Value) (h : ∀ s, x ≠ .str s) : plainLeaf x := by
  cases x with
  | str s => exact absurd rfl (h s)
  | seq _ => trivial
  | strs _ => trivial
  | map _ => trivial
  | other _ => trivial

theorem Tree.modifyAt_self (f : Tree → Tree) :
    ∀ (P : Path) (t m : Tree), Tree.at t P = some m → f m = m → Tree.modifyAt f P t = t := by
  intro P
  induction P with
  | nil =>
    intro t m h hf
    simp only [Tree.at, Option.some.injEq] at h
    subst h
    exact hf
  | cons a P1 ih =>
    intro t m h hf
    simp only [Tree.at] at h
    simp only [Tree.modifyAt]
    cases hg : Tree.get t a with
    | none => rfl
    | some v =>
      cases v with
      | map ma =>
        simp only [hg] at h
        simp only
        rw [ih ma m h hf]
        exact Tree.set_self t a _ hg
      | str _ => rfl
      | seq _ => rfl
      | strs _ => rfl
      | other _ => rfl

theorem visitAll_const (step : Str → PropertiesResolver → Except Fault PropertiesResolver)
    (pr : PropertiesResolver) :
    ∀ ks : List Str, (∀ k ∈ ks, step k pr = .ok pr) → visitAll step ks pr = .ok pr := by
  intro ks
  induction ks with
  | nil => exact fun _ => rfl
  | cons k rest ih =>
    intro h
    simp only [visitAll, h k (by simp)]
    exact ih (fun j hj => h j (List.mem_cons_of_mem _ hj))

theorem rangeLoop_const (env : Env)
    (step : Str → PropertiesResolver → Except Fault PropertiesResolver) (P : Path)
    (pr : PropertiesResolver) :
    ∀ (ks : List Str) (n : Nat), ks.length ≤ n → (∀ k ∈ ks, step k pr = .ok pr) →
      rangeLoop env step P n ks pr = .ok pr := by
  intro ks
  induction ks with
  | nil => exact fun n _ _ => rangeLoop_nil env step P n pr
  | cons k rest ih =>
    intro n hn h
    obtain ⟨n1, rfl⟩ : ∃ n1, n = n1 + 1 := ⟨n - 1, by simp at hn; omega⟩
    simp only [rangeLoop, h k (by simp), createdKeys_of_keys_eq pr.data pr.data P rfl, enqueue]
    exact ih n1 (by simp at hn; omega) (fun j hj => h j (List.mem_cons_of_mem _ hj))

theorem get_of_mem_keys (m : Tree) (k : Str) (h : k ∈ m.keys) : ∃ v, Tree.get m k = some v := by
  cases hg : Tree.get m k with
  | none => exact absurd h ((Tree.get_eq_none_iff m k).mp hg)
  | some v => exact ⟨v, rfl⟩

/-- A tree whose reachable strings are plain and that holds no raw sequence
is left as it is by the walker. -/
theorem resolvePlaceholders_fixpoint (env : Env) (sf : Nat) (hsf : 0 < sf) :
    ∀ (d : Nat) (P : Path) (pr : PropertiesResolver) (m : Tree), pr.error = none →
      Tree.at pr.data P = some m → Good plainLeaf (.map m) → Good noSeq (.map m) →
      depthEntries m < d → resolvePlaceholders env sf d P pr = .ok pr := by
  obtain ⟨f, rfl⟩ : ∃ f, sf = f + 1 := ⟨sf - 1, by omega⟩
  intro d
  induction d with
  | zero =>
    intro P pr m _ _ _ _ hd
    omega
  | succ d ih =>
    intro P pr m he hat hplain hns hd
    simp only [resolvePlaceholders, hat]
    apply rangeLoop_const env _ P pr m.keys _ (by omega)
    intro k hk
    obtain ⟨v, hv⟩ := get_of_mem_keys m k hk
    unfold visit
    rw [hat]
    simp only [Option.some_bind, hv]
    cases v with
    | map m2 =>
      simp only
      have hat2 : Tree.at pr.data (P ++ [k]) = some m2 := by
        rw [at_append_single, hat]
        simp [hv]
      have hd2 := depth_get_le m k _ hv
      simp only [Value.depth] at hd2
      exact ih (P ++ [k]) pr m2 he hat2 (Good_get hplain k _ hv) (Good_get hns k _ hv) (by omega)
    | seq xs =>
      have := Good_get hns k _ hv
      cases this with
      | leaf _ _ hq => exact absurd hq (by simp [noSeq])
    | str s =>
      simp only
      have hp := Good_get hplain k _ hv
      have hps : nextMatch s = none ∧ usesTemplate s = false := by
        cases hp with
        | leaf _ _ hq => exact hq
      rw [resolveString_literal env f P k s (newStack, pr) hps.2 he hps.1]
      simp only
      congr 1
      show ({ pr with data := Tree.modifyAt (fun m => Tree.set m k (.str s)) P pr.data } :
        PropertiesResolver) = pr
      rw [Tree.modifyAt_self _ P pr.data m hat (Tree.set_self m k _ hv)]
    | strs _ => rfl
    | other _ => rfl

theorem at_assign (pr : PropertiesResolver) (P : Path) (k : Str) (x : Value) (m : Tree)
    (h : Tree.at pr.data P = some m) :
    Tree.at (pr.assign P k x).data P = some (Tree.set m k x) := by
  have := at_modifyAt_append (fun m => Tree.set m k x) [] P pr.data m h
  rw [List.append_nil] at this
  exact this

theorem Good_leaf_of_ne {v : Value} (h1 : ∀ m, v ≠ .map m) (h2 : ∀ xs, v ≠ .seq xs) :
    Good noSeq v := by
  refine Good.leaf v h1 ?_
  cases v with
  | seq xs => exact absurd rfl (h2 xs)
  | str _ => trivial
  | strs _ => trivial
  | map _ => trivial
  | other _ => trivial

theorem visit_noSeq (env : Env) (sf : Nat)
    (walk : Path → PropertiesResolver → Except Fault PropertiesResolver) (P : Path) (k : Str)
    (prc prc1 : PropertiesResolver) (mc : Tree) (hsf : prc.data.keys.length < sf)
    (hat : Tree.at prc.data P = some mc)
    (hwalk : ∀ m2, Tree.get mc k = some (.map m2) →
      Outcome (fun pr2 => (pr2.data.keys = prc.data.keys ∧
          Writes prc.data.keys (P ++ [k]) prc.data pr2.data) ∧
        ∀ m3, Tree.at pr2.data (P ++ [k]) = some m3 → Good noSeq (.map m3))
        (walk (P ++ [k]) prc))
    (hvis : visit env sf walk P k prc = .ok prc1) :
    prc1.data.keys = prc.data.keys ∧ Writes prc.data.keys P prc.data prc1.data ∧
      ∀ mc1 v1, Tree.at prc1.data P = some mc1 → Tree.get mc1 k = some v1 → Good noSeq v1 := by
  have hbase := visit_outcome env sf walk P k prc hsf (fun m1 m2 h1 h2 =>
    Outcome_imp (fun a ha => ha.1) _ (hwalk m2 (by
      rw [hat] at h1
      simp only [Option.some.injEq] at h1
      subst h1
      exact h2)))
  rw [hvis] at hbase
  simp only [Outcome] at hbase
  refine ⟨hbase.1, hbase.2, ?_⟩
  intro mc1 v1 hat1 hg1
  unfold visit at hvis
  rw [hat] at hvis
  simp only [Option.some_bind] at hvis
  cases hg : Tree.get mc k with
  | none =>
    rw [hg] at hvis
    simp only [Except.ok.injEq] at hvis
    subst hvis
    rw [hat] at hat1
    simp only [Option.some.injEq] at hat1
    subst hat1
    rw [hg] at hg1
    exact Option.noConfusion hg1
  | some v =>
    rw [hg] at hvis
    cases v with
    | map m2 =>
      simp only at hvis
      have hw := hwalk m2 hg
      rw [hvis] at hw
      simp only [Outcome] at hw
      cases v1 with
      | map m3 =>
        apply hw.2 m3
        rw [at_append_single, hat1]
        simp [hg1]
      | seq xs =>
        obtain ⟨mcx, hatx, hwr⟩ := Writes_at hbase.2 mc hat
        rw [hat1] at hatx
        simp only [Option.some.injEq] at hatx
        subst hatx
        rcases Writes_get hwr k _ hg1 with ht | ⟨v, hv, hrel⟩
        · simp [isText] at ht
        · rw [hg] at hv
          simp only [Option.some.injEq] at hv
          subst hv
          rcases hrel with e | ⟨_, _, _, e, _⟩
          · exact Value.noConfusion e
          · exact Value.noConfusion e
      | str _ => exact Good_leaf_of_ne (fun _ h => Value.noConfusion h) (fun _ h => Value.noConfusion h)
      | strs _ => exact Good_leaf_of_ne (fun _ h => Value.noConfusion h) (fun _ h => Value.noConfusion h)
      | other _ => exact Good_leaf_of_ne (fun _ h => Value.noConfusion h) (fun _ h => Value.noConfusion h)
    | seq xs =>
      simp only at hvis
      have h1 := resolveElements_outcome env sf P k xs [] (newStack, prc) hsf
      cases hr : resolveElements env sf P k xs [] (newStack, prc) with
      | error e =>
        rw [hr] at hvis
        exact Except.noConfusion hvis
      | ok q =>
        obtain ⟨resolved, stack1, pr1⟩ := q
        rw [hr] at hvis h1
        simp only [Except.ok.injEq, Outcome] at hvis h1
        subst hvis
        obtain ⟨m1, hm1, _⟩ := Writes_at h1.2.1 mc hat
        rw [at_assign pr1 P k _ m1 hm1] at hat1
        simp only [Option.some.injEq] at hat1
        subst hat1
        rw [Tree.get_set_same] at hg1
        simp only [Option.some.injEq] at hg1
        subst hg1
        exact Good_text noSeq_text _ rfl
    | str s =>
      simp only at hvis
      have h1 := resolveString_total env prc.data.keys sf P k s (newStack, prc) (fun _ h => h)
        (lt_of_le_of_lt (stackPending_le _ _) hsf)
      cases hr : resolveString env sf P k s (newStack, prc) with
      | error e =>
        rw [hr] at hvis
        exact Except.noConfusion hvis
      | ok q =>
        obtain ⟨r, stack1, pr1⟩ := q
        rw [hr] at hvis h1
        simp only [Except.ok.injEq, Outcome] at hvis h1
        subst hvis
        obtain ⟨m1, hm1, _⟩ := Writes_at h1.2.1 mc hat
        rw [at_assign pr1 P k _ m1 hm1] at hat1
        simp only [Option.some.injEq] at hat1
        subst hat1
        rw [Tree.get_set_same] at hg1
        simp only [Option.some.injEq] at hg1
        subst hg1
        exact Good_text noSeq_text _ rfl
    | strs ys =>
      simp only [Except.ok.injEq] at hvis
      subst hvis
      rw [hat] at hat1
      simp only [Option.some.injEq] at hat1
      subst hat1
      rw [hg] at hg1
      simp only [Option.some.injEq] at hg1
      subst hg1
      exact Good_leaf_of_ne (fun _ h => Value.noConfusion h) (fun _ h => Value.noConfusion h)
    | other o =>
      simp only [Except.ok.injEq] at hvis
      subst hvis
      rw [hat] at hat1
      simp only [Option.some.injEq] at hat1
      subst hat1
      rw [hg] at hg1
      simp only [Option.some.injEq] at hg1
      subst hg1
      exact Good_leaf_of_ne (fun _ h => Value.noConfusion h) (fun _ h => Value.noConfusion h)

theorem rangeLoop_noSeq (env : Env) (sf D : Nat) (P : Path)
    (step : Str → PropertiesResolver → Except Fault PropertiesResolver)
    (hstep : ∀ k prc prc1 mc, prc.data.keys.length < sf → Tree.at prc.data P = some mc →
      depthEntries mc ≤ D → step k prc = .ok prc1 →
      prc1.data.keys = prc.data.keys ∧ Writes prc.data.keys P prc.data prc1.data ∧
        ∀ mc1 v1, Tree.at prc1.data P = some mc1 → Tree.get mc1 k = some v1 → Good noSeq v1) :
    ∀ (n : Nat) (ks : List Str) (prc pr1 : PropertiesResolver) (mc : Tree),
      prc.data.keys.length < sf → Tree.at prc.data P = some mc → depthEntries mc ≤ D →
      (∀ j v, Tree.get mc j = some v → j ∈ ks ∨ Good noSeq v) →
      rangeLoop env step P n ks prc = .ok pr1 →
      ∃ m1, Tree.at pr1.data P = some m1 ∧ ∀ j v, Tree.get m1 j = some v → Good noSeq v := by
  have hnil : ∀ (n : Nat) (prc pr1 : PropertiesResolver) (mc : Tree),
      Tree.at prc.data P = some mc →
      (∀ j v, Tree.get mc j = some v → j ∈ ([] : List Str) ∨ Good noSeq v) →
      rangeLoop env step P n [] prc = .ok pr1 →
      ∃ m1, Tree.at pr1.data P = some m1 ∧ ∀ j v, Tree.get m1 j = some v → Good noSeq v := by
    intro n prc pr1 mc hat hinv hrun
    rw [rangeLoop_nil] at hrun
    simp only [Except.ok.injEq] at hrun
    subst hrun
    refine ⟨mc, hat, fun j v hj => ?_⟩
    rcases hinv j v hj with h | h
    · simp at h
    · exact h
  intro n
  induction n with
  | zero =>
    intro ks prc pr1 mc _ hat _ hinv hrun
    cases ks with
    | nil => exact hnil 0 prc pr1 mc hat hinv hrun
    | cons k rest => simp [rangeLoop] at hrun
  | succ n ih =>
    intro ks prc pr1 mc hsf hat hD hinv hrun
    cases ks with
    | nil => exact hnil _ prc pr1 mc hat hinv hrun
    | cons k rest =>
      simp only [rangeLoop] at hrun
      cases hs : step k prc with
      | error e =>
        rw [hs] at hrun
        exact Except.noConfusion hrun
      | ok prc1 =>
        rw [hs] at hrun
        simp only at hrun
        obtain ⟨hk1, hw1, hfin⟩ := hstep k prc prc1 mc hsf hat hD hs
        obtain ⟨mc1, hat1, hwr⟩ := Writes_at hw1 mc hat
        obtain ⟨mc2, hat2, hdepth⟩ := Writes_at_depth hw1 mc hat
        rw [hat1] at hat2
        simp only [Option.some.injEq] at hat2
        subst hat2
        refine ih _ prc1 pr1 mc1 (by rw [hk1]; exact hsf) hat1 (le_trans hdepth hD) ?_ hrun
        intro j v1 hj
        by_cases hjk : j = k
        · subst hjk
          exact Or.inr (hfin mc1 v1 hat1 hj)
        · rcases Writes_get hwr j v1 hj with ht | ⟨v, hv, hrel⟩
          · exact Or.inr (Good_text noSeq_text v1 ht)
          · rcases hinv j v hv with hmem | hgood
            · rcases List.mem_cons.mp hmem with e | e
              · exact absurd e hjk
              · exact Or.inl ((mem_enqueue env P j _ rest).1 e)
            · right
              rcases hrel with e | ⟨ma, ma1, e1, e2, hw⟩
              · rw [e]; exact hgood
              · subst e1 e2
                exact Writes_good noSeq_text hw hgood

/-- A completed walk leaves no raw sequence in the map it walked. -/
theorem resolvePlaceholders_noSeq (env : Env) (sf : Nat) :
    ∀ (d : Nat) (P : Path) (pr pr1 : PropertiesResolver) (m : Tree),
      pr.data.keys.length < sf → Tree.at pr.data P = some m → depthEntries m < d →
      resolvePlaceholders env sf d P pr = .ok pr1 →
      ∃ m1, Tree.at pr1.data P = some m1 ∧ Good noSeq (.map m1) := by
  intro d
  induction d with
  | zero =>
    intro P pr pr1 m _ _ hd
    omega
  | succ d ih =>
    intro P pr pr1 m hsf hat hd hrun
    simp only [resolvePlaceholders, hat] at hrun
    have hloop := rangeLoop_noSeq env sf d P (visit env sf (resolvePlaceholders env sf d) P) ?_
      _ m.keys pr pr1 m hsf hat (by omega) (fun j v hj => Or.inl (mem_keys_of_get m j v hj)) hrun
    · obtain ⟨m1, hm1, hall⟩ := hloop
      exact ⟨m1, hm1, Good.node m1 hall⟩
    · intro k prc prc1 mc hsfc hatc hDc hvis
      apply visit_noSeq env sf _ P k prc prc1 mc hsfc hatc ?_ hvis
      intro m2 hg2
      have hat2 : Tree.at prc.data (P ++ [k]) = some m2 := by
        rw [at_append_single, hatc]
        simp [hg2]
      have hd2 := depth_get_le mc k _ hg2
      simp only [Value.depth] at hd2
      have htot := resolvePlaceholders_total env sf d (P ++ [k]) prc m2 hsfc hat2 (by omega)
      cases hres : resolvePlaceholders env sf d (P ++ [k]) prc with
      | error e =>
        rw [hres] at htot
        exact htot
      | ok pr2 =>
        rw [hres] at htot
        simp only [Outcome] at htot ⊢
        refine ⟨htot, fun m3 hm3 => ?_⟩
        obtain ⟨m4, hm4, hgood⟩ := ih (P ++ [k]) prc pr2 m2 hsfc hat2 (by omega) hres
        rw [hm3] at hm4
        simp only [Option.some.injEq] at hm4
        subst hm4
        exact hgood

theorem Good_nil (q : Value → Prop) : Good q (.map []) :=
  Good.node [] (fun k v h => by simp [Tree.get] at h)

theorem Good_cons {q : Value → Prop} (k : Str) (v : Value) (rest : Tree) (hv : Good q v)
    (hrest : Good q (.map rest)) : Good q (.map ((k, v) :: rest)) := by
  refine Good.node _ ?_
  intro j w hj
  by_cases hkj : k = j
  · simp only [Tree.get, hkj, if_true, Option.some.injEq] at hj
    subst hj
    exact hv
  · simp only [Tree.get, hkj, if_false] at hj
    exact Good_get hrest j w hj

/-- C9, evaluation at the failing input: the walker visits the mapping `n`
while the top-level `port` still holds a placeholder; resolving `url` assigns
the resolved `port` into `n`, over the number stored there. -/
theorem nested_scalar_overwritten :
    resolvePlaceholdersFromTop rejectingEnv
        (fresh (tree [
          ("n", .map (tree [("port", .other (.int 8080)),
                            ("url", .str ("http://h:".toList ++ ph "port"))])),
          ("port", .str (ph "base")),
          ("base", sv "80")])) =
      .ok (fresh (tree [
          ("n", .map (tree [("port", sv "80"),
                            ("url", .str ("http://h:".toList ++ ph "base"))])),
          ("port", sv "80"),
          ("base", sv "80")])) :=
  rfl

/-- C10 (amended): for every tree on which `resolvePlaceholdersFromTop`
completes, if no string that lookups reach in the resulting tree, at any
depth, has a match of the placeholder pattern or holds both template markers,
then resolving the resulting tree a second time with a new resolver returns
that same tree, a nil error and no diagnostic.  (That the first run left no
raw sequence is proved, not assumed; that its error was nil is not needed.) -/
theorem idempotence (env : Env) (t : Tree) (pr1 : PropertiesResolver)
    (hrun : resolvePlaceholdersFromTop env (fresh t) = .ok pr1)
    (hplain : Good plainLeaf (.map pr1.data)) :
    resolvePlaceholdersFromTop env (fresh pr1.data) = .ok (fresh pr1.data) := by
  obtain ⟨m1, hm1, hns⟩ := resolvePlaceholders_noSeq env (t.length + 1) (depthEntries t + 1) []
    (fresh t) pr1 t (by simp [fresh, Tree.keys]) rfl (by omega) hrun
  simp only [Tree.at, Option.some.injEq] at hm1
  subst hm1
  exact resolvePlaceholders_fixpoint env (pr1.data.length + 1) (by omega)
    (depthEntries pr1.data + 1) [] (fresh pr1.data) pr1.data rfl rfl hplain hns (by omega)

/-- C10, witness: a tree with a default, a reference and a nested sequence;
its result is resolved again. -/
theorem idempotence_witness :
    resolvePlaceholdersFromTop rejectingEnv
        (fresh (tree [("a", sv "fallback"), ("n", .map (tree [("b", .strs ["fallback".toList])])),
          ("c", .other (.bool true))])) =
      .ok (fresh (tree [("a", sv "fallback"),
        ("n", .map (tree [("b", .strs ["fallback".toList])])), ("c", .other (.bool true))])) :=
  idempotence rejectingEnv
    (tree [("a", .str (ph "missing:fallback")), ("n", .map (tree [("b", .seq [.str (ph "a")])])),
      ("c", .other (.bool true))])
    (fresh (tree [("a", sv "fallback"), ("n", .map (tree [("b", .strs ["fallback".toList])])),
      ("c", .other (.bool true))]))
    rfl
    (Good_cons _ _ _ (Good.leaf _ (fun _ h => Value.noConfusion h) ⟨by decide, by decide⟩)
      (Good_cons _ _ _
        (Good_cons _ _ _ (Good.leaf _ (fun _ h => Value.noConfusion h) trivial) (Good_nil _))
        (Good_cons _ _ _ (Good.leaf _ (fun _ h => Value.noConfusion h) trivial) (Good_nil _))))

/-- C10, counterexample: `a` holds the placeholder of `b` whose default is
written as the placeholder of `c`.  The first run takes the default up to the
first closing brace and leaves `a` holding the placeholder of `c`, with a nil
error and no diagnostic; the second run replaces it by the empty text and
records a diagnostic. -/
theorem second_run_differs :
    resolvePlaceholdersFromTop rejectingEnv
        (fresh (tree [("a", .str (matchText ("b:".toList ++ openMark ++ "c".toList) ++ [rbrace]))])) =
      .ok (fresh (tree [("a", .str (ph "c"))])) ∧
    resolvePlaceholdersFromTop rejectingEnv (fresh (tree [("a", .str (ph "c"))])) =
      .ok { data := tree [("a", sv "")],
            error := none,
            messages := [missingValueMsg "c".toList] } ∧
    resolvePlaceholdersFromTop rejectingEnv (fresh (tree [("a", .str (ph "c"))])) ≠
      .ok (fresh (tree [("a", .str (ph "c"))])) :=
  ⟨rfl, rfl, fun h => absurd (congrArg (fun r =>
    match r with
    | Except.ok pr => pr.messages.length
    | Except.error _ => 0) h) (by decide)⟩

/-! ## A larger budget changes nothing -/

theorem replaceAllAux_agree (repl1 repl2 : Str → Machine → Except Fault (Str × Machine))
    (h : ∀ m st, repl1 m st ≠ .error Fault.outOfFuel → repl2 m st = repl1 m st) :
    ∀ (n : Nat) (s : Str) (st : Machine),
      replaceAllAux repl1 n s st ≠ .error Fault.outOfFuel →
      replaceAllAux repl2 n s st = replaceAllAux repl1 n s st := by
  intro n
  induction n with
  | zero => exact fun _ _ _ => rfl
  | succ n ih =>
    intro s st hne
    simp only [replaceAllAux] at hne ⊢
    cases hnm : nextMatch s with
    | none => rfl
    | some p =>
      obtain ⟨a, i, b⟩ := p
      rw [hnm] at hne
      simp only at hne ⊢
      cases h1 : repl1 (matchText i) st with
      | error e =>
        rw [h1] at hne
        rw [h _ _ (by rw [h1]; exact hne), h1]
      | ok q =>
        obtain ⟨r, st1⟩ := q
        rw [h1] at hne
        rw [h _ _ (by rw [h1]; exact fun e => Except.noConfusion e), h1]
        simp only at hne ⊢
        cases h2 : replaceAllAux repl1 n b st1 with
        | error e =>
          rw [h2] at hne
          rw [ih b st1 (by rw [h2]; exact hne), h2]
        | ok q2 =>
          rw [ih b st1 (by rw [h2]; exact fun e => Except.noConfusion e), h2]

theorem onMatch_agree (env : Env) (self1 self2 : Str → Str → Machine → Except Fault (Str × Machine))
    (h : ∀ name value st, self1 name value st ≠ .error Fault.outOfFuel →
      self2 name value st = self1 name value st)
    (cm : Path) (pn m : Str) (st : Machine)
    (hne : onMatch env self1 cm pn m st ≠ .error Fault.outOfFuel) :
    onMatch env self2 cm pn m st = onMatch env self1 cm pn m st := by
  obtain ⟨stack, pr⟩ := st
  unfold onMatch at hne ⊢
  revert hne
  cases getPropertyClauseFromMatch m with
  | error e => exact fun _ => rfl
  | ok l =>
    cases l with
    | nil => exact fun _ => rfl
    | cons name more =>
      simp only
      by_cases hn : name = []
      · simp only [if_pos hn]
        exact fun _ => trivial
      · simp only [if_neg hn]
        cases pr.resolvePropertyName name with
        | none => exact fun _ => rfl
        | some v =>
          cases v with
          | str cur =>
            simp only
            by_cases hsub : hasSub openMark cur = true
            · simp only [if_pos hsub]
              by_cases hhas : Stack.has stack name = true
              · simp only [if_pos hhas]
                exact fun _ => trivial
              · simp only [if_neg hhas]
                cases stack with
                | none => exact fun _ => rfl
                | some s =>
                  simp only
                  intro hne
                  cases h1 : self1 name cur (some (name :: s), pr) with
                  | error e =>
                    rw [h1] at hne
                    rw [h _ _ _ (by rw [h1]; exact hne), h1]
                  | ok q =>
                    rw [h _ _ _ (by rw [h1]; exact fun e => Except.noConfusion e), h1]
            · simp only [if_neg hsub]
              exact fun _ => trivial
          | seq _ => exact fun _ => rfl
          | strs _ => exact fun _ => rfl
          | map _ => exact fun _ => rfl
          | other _ => exact fun _ => rfl

theorem resolveString_succ (env : Env) :
    ∀ (f : Nat) (cm : Path) (pn value : Str) (st : Machine),
      resolveString env f cm pn value st ≠ .error Fault.outOfFuel →
      resolveString env (f + 1) cm pn value st = resolveString env f cm pn value st := by
  intro f
  induction f with
  | zero =>
    intro cm pn value st hne
    exact absurd rfl hne
  | succ f ih =>
    intro cm pn value st hne
    rw [resolveString] at hne
    rw [resolveString, resolveString]
    revert hne
    cases templatePass env value st.2 with
    | mk o pr1 =>
      cases o with
      | none => exact fun _ => rfl
      | some gtr =>
        simp only
        by_cases he : pr1.error ≠ none
        · simp only [if_pos he]
          exact fun _ => trivial
        · simp only [if_neg he]
          intro hne
          exact replaceAllAux_agree _ _ (fun m st1 h1 =>
            onMatch_agree env _ _ (fun name value st2 h2 => ih cm name value st2 h2) cm pn m st1 h1)
            gtr.length gtr (st.1, pr1) hne

theorem resolveString_mono (env : Env) (f g : Nat) (hfg : f ≤ g) (cm : Path) (pn value : Str)
    (st : Machine) (hne : resolveString env f cm pn value st ≠ .error Fault.outOfFuel) :
    resolveString env g cm pn value st = resolveString env f cm pn value st := by
  induction g with
  | zero =>
    have : f = 0 := by omega
    subst this
    rfl
  | succ g ih =>
    by_cases h : f = g + 1
    · subst h
      rfl
    · have h1 := ih (by omega)
      rw [resolveString_succ env g cm pn value st (by rw [h1]; exact hne), h1]

theorem error_ne {α β : Type} {e : Fault}
    (h : (Except.error e : Except Fault α) ≠ .error Fault.outOfFuel) :
    (Except.error e : Except Fault β) ≠ .error Fault.outOfFuel := by
  intro h2
  injection h2 with h3
  exact h (by rw [h3])

theorem resolveElements_agree (env : Env) (sf1 sf2 : Nat)
    (hs : ∀ cm pn v st, resolveString env sf1 cm pn v st ≠ .error Fault.outOfFuel →
      resolveString env sf2 cm pn v st = resolveString env sf1 cm pn v st)
    (cm : Path) (pn : Str) :
    ∀ (xs : List Value) (resolved : List Str) (st : Machine),
      resolveElements env sf1 cm pn xs resolved st ≠ .error Fault.outOfFuel →
      resolveElements env sf2 cm pn xs resolved st =
        resolveElements env sf1 cm pn xs resolved st := by
  intro xs
  induction xs with
  | nil => exact fun _ _ _ => rfl
  | cons x rest ih =>
    intro resolved st hne
    cases x with
    | str s =>
      simp only [resolveElements] at hne ⊢
      cases h1 : resolveString env sf1 cm pn s st with
      | error e =>
        rw [h1] at hne
        simp only at hne
        rw [hs _ _ _ _ (by rw [h1]; exact error_ne hne), h1]
      | ok q =>
        obtain ⟨r, st1⟩ := q
        rw [h1] at hne
        simp only at hne
        rw [hs _ _ _ _ (by rw [h1]; exact fun e => Except.noConfusion e), h1]
        exact ih _ _ hne
    | seq _ => rfl
    | strs _ => rfl
    | map _ => rfl
    | other _ => rfl

theorem visit_agree (env : Env) (sf1 sf2 : Nat)
    (hs : ∀ cm pn v st, resolveString env sf1 cm pn v st ≠ .error Fault.outOfFuel →
      resolveString env sf2 cm pn v st = resolveString env sf1 cm pn v st)
    (walk1 walk2 : Path → PropertiesResolver → Except Fault PropertiesResolver)
    (hw : ∀ P pr, walk1 P pr ≠ .error Fault.outOfFuel → walk2 P pr = walk1 P pr)
    (P : Path) (k : Str) (pr : PropertiesResolver)
    (hne : visit env sf1 walk1 P k pr ≠ .error Fault.outOfFuel) :
    visit env sf2 walk2 P k pr = visit env sf1 walk1 P k pr := by
  unfold visit at hne ⊢
  revert hne
  cases (Tree.at pr.data P).bind (fun m => Tree.get m k) with
  | none => exact fun _ => rfl
  | some v =>
    cases v with
    | map m2 => exact fun hne => hw _ _ hne
    | seq xs =>
      simp only
      intro hne
      cases h1 : resolveElements env sf1 P k xs [] (newStack, pr) with
      | error e =>
        rw [h1] at hne
        simp only at hne
        rw [resolveElements_agree env sf1 sf2 hs P k xs [] _ (by rw [h1]; exact error_ne hne), h1]
      | ok q =>
        rw [resolveElements_agree env sf1 sf2 hs P k xs [] _
          (by rw [h1]; exact fun e => Except.noConfusion e), h1]
    | str s =>
      simp only
      intro hne
      cases h1 : resolveString env sf1 P k s (newStack, pr) with
      | error e =>
        rw [h1] at hne
        simp only at hne
        rw [hs _ _ _ _ (by rw [h1]; exact error_ne hne), h1]
      | ok q =>
        rw [hs _ _ _ _ (by rw [h1]; exact fun e => Except.noConfusion e), h1]
    | strs _ => exact fun _ => rfl
    | other _ => exact fun _ => rfl

theorem visitAll_agree (step1 step2 : Str → PropertiesResolver → Except Fault PropertiesResolver)
    (h : ∀ k pr, step1 k pr ≠ .error Fault.outOfFuel → step2 k pr = step1 k pr) :
    ∀ (ks : List Str) (pr : PropertiesResolver),
      visitAll step1 ks pr ≠ .error Fault.outOfFuel →
      visitAll step2 ks pr = visitAll step1 ks pr := by
  intro ks
  induction ks with
  | nil => exact fun _ _ => rfl
  | cons k rest ih =>
    intro pr hne
    simp only [visitAll] at hne ⊢
    cases h1 : step1 k pr with
    | error e =>
      rw [h1] at hne
      rw [h _ _ (by rw [h1]; exact hne), h1]
    | ok pr1 =>
      rw [h1] at hne
      rw [h _ _ (by rw [h1]; exact fun e => Except.noConfusion e), h1]
      exact ih pr1 hne

theorem rangeLoop_agree (env : Env) (P : Path)
    (step1 step2 : Str → PropertiesResolver → Except Fault PropertiesResolver)
    (h : ∀ k pr, step1 k pr ≠ .error Fault.outOfFuel → step2 k pr = step1 k pr) :
    ∀ (n : Nat) (ks : List Str) (pr : PropertiesResolver),
      rangeLoop env step1 P n ks pr ≠ .error Fault.outOfFuel →
      rangeLoop env step2 P n ks pr = rangeLoop env step1 P n ks pr := by
  intro n
  induction n with
  | zero =>
    intro ks pr _
    cases ks <;> rfl
  | succ n ih =>
    intro ks pr hne
    cases ks with
    | nil => rfl
    | cons k rest =>
      simp only [rangeLoop] at hne ⊢
      cases h1 : step1 k pr with
      | error e =>
        rw [h1] at hne
        rw [h _ _ (by rw [h1]; exact hne), h1]
      | ok pr1 =>
        rw [h1] at hne
        rw [h _ _ (by rw [h1]; exact fun e => Except.noConfusion e), h1]
        exact ih _ pr1 hne

theorem resolvePlaceholders_mono (env : Env) (sf1 sf2 : Nat) (hsf : sf1 ≤ sf2) :
    ∀ (d1 d2 : Nat), d1 ≤ d2 → ∀ (P : Path) (pr : PropertiesResolver),
      resolvePlaceholders env sf1 d1 P pr ≠ .error Fault.outOfFuel →
      resolvePlaceholders env sf2 d2 P pr = resolvePlaceholders env sf1 d1 P pr := by
  intro d1
  induction d1 with
  | zero =>
    intro d2 _ P pr hne
    exact absurd rfl hne
  | succ d1 ih =>
    intro d2 hd P pr hne
    obtain ⟨d3, rfl⟩ : ∃ d3, d2 = d3 + 1 := ⟨d2 - 1, by omega⟩
    simp only [resolvePlaceholders] at hne ⊢
    cases hat : Tree.at pr.data P with
    | none => rfl
    | some m =>
      rw [hat] at hne
      simp only at hne ⊢
      exact rangeLoop_agree env P _ _ (fun k pr1 h1 =>
        visit_agree env sf1 sf2 (fun cm pn v st h2 => resolveString_mono env sf1 sf2 hsf cm pn v st h2)
          _ _ (fun P1 pr2 h3 => ih d3 (by omega) P1 pr2 h3) P k pr1 h1) _ m.keys pr hne

/-- A walk that returns has kept the top-level keys and has changed the tree
by assignments at or below its map, whatever its budgets. -/
theorem resolvePlaceholders_writes (env : Env) (sf d : Nat) (P : Path)
    (pr pr1 : PropertiesResolver) (h : resolvePlaceholders env sf d P pr = .ok pr1) :
    pr1.data.keys = pr.data.keys ∧ Writes pr.data.keys P pr.data pr1.data := by
  cases hat : Tree.at pr.data P with
  | none =>
    cases d with
    | zero => simp [resolvePlaceholders] at h
    | succ d =>
      simp only [resolvePlaceholders, hat, Except.ok.injEq] at h
      subst h
      exact ⟨rfl, Writes.refl _⟩
  | some m =>
    have hbig := resolvePlaceholders_mono env sf (max sf (pr.data.keys.length + 1))
      (le_max_left _ _) d (max d (depthEntries m + 1)) (le_max_left _ _) P pr
      (by rw [h]; exact fun e => Except.noConfusion e)
    have htot := resolvePlaceholders_total env (max sf (pr.data.keys.length + 1))
      (max d (depthEntries m + 1)) P pr m
      (lt_of_lt_of_le (Nat.lt_succ_self _) (le_max_right _ _)) hat
      (lt_of_lt_of_le (Nat.lt_succ_self _) (le_max_right _ _))
    rw [hbig, h] at htot
    exact htot

/-- A visit that returns has kept the top-level keys and has changed the tree
by assignments at or below the map visited, whatever the budgets. -/
theorem visit_writes (env : Env) (sf d : Nat) (P : Path) (k : Str)
    (pr pr1 : PropertiesResolver)
    (h : visit env sf (resolvePlaceholders env sf d) P k pr = .ok pr1) :
    pr1.data.keys = pr.data.keys ∧ Writes pr.data.keys P pr.data pr1.data := by
  have hagree := visit_agree env sf (max sf (pr.data.keys.length + 1))
    (fun cm pn v st h2 => resolveString_mono env sf _ (le_max_left _ _) cm pn v st h2)
    (resolvePlaceholders env sf d) (resolvePlaceholders env sf d) (fun _ _ _ => rfl) P k pr
    (by rw [h]; exact fun e => Except.noConfusion e)
  have hout := visit_outcome env (max sf (pr.data.keys.length + 1))
    (resolvePlaceholders env sf d) P k pr
    (lt_of_lt_of_le (Nat.lt_succ_self _) (le_max_right _ _))
    (fun m1 m2 hat hg => by
      have hw : resolvePlaceholders env sf d (P ++ [k]) pr = .ok pr1 := by
        have h2 := h
        unfold visit at h2
        rw [hat] at h2
        simp only [Option.some_bind, hg] at h2
        exact h2
      rw [hw]
      exact resolvePlaceholders_writes env sf d (P ++ [k]) pr pr1 hw)
  rw [hagree, h] at hout
  exact hout

theorem rangeLoop_top (env : Env)
    (step : Str → PropertiesResolver → Except Fault PropertiesResolver)
    (hstep : ∀ k pr pr1, step k pr = .ok pr1 → pr1.data.keys = pr.data.keys) :
    ∀ (ks : List Str) (n : Nat) (pr : PropertiesResolver), ks.length ≤ n →
      rangeLoop env step [] n ks pr = visitAll step ks pr := by
  intro ks
  induction ks with
  | nil => exact fun n pr _ => rangeLoop_nil env step [] n pr
  | cons k rest ih =>
    intro n pr hn
    obtain ⟨n1, rfl⟩ : ∃ n1, n = n1 + 1 := ⟨n - 1, by simp at hn; omega⟩
    simp only [rangeLoop, visitAll]
    cases hs : step k pr with
    | error e => rfl
    | ok pr1 =>
      simp only
      have hk : keysAt pr1.data [] = keysAt pr.data [] := by
        simp only [keysAt, Tree.at]
        exact hstep k pr pr1 hs
      rw [createdKeys_of_keys_eq pr.data pr1.data [] hk]
      exact ih n1 pr1 (by simp at hn; omega)

/-- The loop over the top-level map is the loop over its keys in order: no
entry is created in the top-level map. -/
theorem resolvePlaceholders_top (env : Env) (sf d : Nat) (pr : PropertiesResolver) :
    resolvePlaceholders env sf (d + 1) [] pr =
      visitAll (visit env sf (resolvePlaceholders env sf d) []) pr.data.keys pr := by
  simp only [resolvePlaceholders, Tree.at]
  exact rangeLoop_top env _ (fun k pr0 pr1 h => (visit_writes env sf d [] k pr0 pr1 h).1)
    pr.data.keys _ pr (by omega)

/-- C3: `resolvePlaceholdersFromTop` terminates on every tree, whatever the
nesting and the reference graph, for every template engine taken as a total
function and every choice `range` makes for the entries created in a map
while it is ranged over: the budgets it runs with (the number of top-level keys
plus one for every call of `resolveString` made by the walker, the nesting
depth plus one for the walker, one turn of a loop for every key of its map and
every top-level key) are never exhausted.  And a top-level call of `resolveString`
nests at most as many recursive calls as the top-level tree has distinct
property names: started with a budget of that number plus one (one for the
top-level call, one per nested call) on any state it never runs out; for the
two-name cycle a budget of two is exhausted, so the bound is reached.  A run
that does not exhaust its budgets gives the same result with any larger
budgets, so the results do not depend on the budgets chosen. -/
theorem termination_and_depth_bound (env : Env) :
    (∀ pr : PropertiesResolver, resolvePlaceholdersFromTop env pr ≠ .error Fault.outOfFuel) ∧
    (∀ (cm : Path) (pn value : Str) (st : Machine),
      resolveString env (st.2.data.keys.dedup.length + 1) cm pn value st ≠
        .error Fault.outOfFuel) ∧
    resolveString env 2 [] "x".toList (ph "y")
        (newStack, fresh (tree [("x", .str (ph "y")), ("y", .str (ph "x"))])) =
      .error Fault.outOfFuel ∧
    (∀ (f g : Nat) (cm : Path) (pn value : Str) (st : Machine), f ≤ g →
      resolveString env f cm pn value st ≠ .error Fault.outOfFuel →
      resolveString env g cm pn value st = resolveString env f cm pn value st) ∧
    (∀ (sf1 sf2 d1 d2 : Nat) (P : Path) (pr : PropertiesResolver), sf1 ≤ sf2 → d1 ≤ d2 →
      resolvePlaceholders env sf1 d1 P pr ≠ .error Fault.outOfFuel →
      resolvePlaceholders env sf2 d2 P pr = resolvePlaceholders env sf1 d1 P pr) := by
  refine ⟨?_, ?_, rfl, ?_, ?_⟩
  · intro pr hcontra
    have := resolvePlaceholders_total env (pr.data.length + 1) (depthEntries pr.data + 1) [] pr
      pr.data (by simp [Tree.keys]) rfl (by omega)
    unfold resolvePlaceholdersFromTop at hcontra
    rw [hcontra] at this
    exact this rfl
  · intro cm pn value st hcontra
    have := resolveString_total env st.2.data.keys.dedup (st.2.data.keys.dedup.length + 1) cm pn
      value st (fun k hk => List.mem_dedup.mpr hk)
      (Nat.lt_succ_of_le (stackPending_le _ _))
    rw [hcontra] at this
    exact this rfl
  · intro f g cm pn value st hfg hne
    exact resolveString_mono env f g hfg cm pn value st hne
  · intro sf1 sf2 d1 d2 P pr hsf hd hne
    exact resolvePlaceholders_mono env sf1 sf2 hsf d1 d2 hd P pr hne

/-! ## Failures of the template engine -/

/-- C12, evaluation at the failing input: on a value that holds both template
markers and that the engine fails to execute, `resolveString` returns the empty
string and leaves the terminal error nil (it clears an error recorded before),
whereas a failure to parse records the parse error; so the run on the tree
whose only value is a template with an index out of range returns a nil
error. -/
theorem execution_failure_not_recorded :
    (∀ (env : Env) (fuel : Nat) (cm : Path) (pn value err : Str) (st : Machine),
      usesTemplate value = true → env.template st.2.parsed value = .execError err →
      resolveString env (fuel + 1) cm pn value st =
        .ok ([], st.1, { st.2 with error := none, parsed := st.2.parsed ++ [value] })) ∧
    (∀ (env : Env) (fuel : Nat) (cm : Path) (pn value e : Str) (st : Machine),
      usesTemplate value = true → env.template st.2.parsed value = .parseError e →
      resolveString env (fuel + 1) cm pn value st =
        .ok ([], st.1, { st.2 with error := some e, parsed := st.2.parsed ++ [value] })) ∧
    resolvePlaceholdersFromTop failingEnv (fresh (tree [("a", .str indexPastEnd)])) =
      .ok { data := tree [("a", sv "")], error := none, messages := [],
            parsed := [indexPastEnd] } := by
  refine ⟨?_, ?_, rfl⟩
  · intro env fuel cm pn value err st ht he
    simp [resolveString, templatePass, ht, he]
  · intro env fuel cm pn value e st ht he
    simp [resolveString, templatePass, ht, he]

/-! ## References from nested mappings -/

/-- C16, evaluation at the failing input: the walker enters the mapping `n`
while the top-level `p` still holds a placeholder.  The call made for `n`
leaves in `n` the leaf `s` with the raw text of `p` and a new key `p` with the
resolved value, and leaves the top-level `p` as it was; the whole run ends with
`s` still holding the raw text.  Visiting `p` before `n` gives `s` the resolved
value. -/
theorem nested_reference_gets_raw_text :
    resolvePlaceholders rejectingEnv 4 1 ["n".toList]
        (fresh (tree [("n", .map (tree [("s", .str (ph "p"))])),
                      ("p", .str (ph "q")), ("q", sv "v")])) =
      .ok (fresh (tree [("n", .map (tree [("s", .str (ph "q")), ("p", sv "v")])),
                        ("p", .str (ph "q")), ("q", sv "v")])) ∧
    resolvePlaceholdersFromTop rejectingEnv
        (fresh (tree [("n", .map (tree [("s", .str (ph "p"))])),
                      ("p", .str (ph "q")), ("q", sv "v")])) =
      .ok (fresh (tree [("n", .map (tree [("s", .str (ph "q")), ("p", sv "v")])),
                        ("p", sv "v"), ("q", sv "v")])) ∧
    resolvePlaceholdersFromTop rejectingEnv
        (fresh (tree [("p", .str (ph "q")),
                      ("n", .map (tree [("s", .str (ph "p"))])), ("q", sv "v")])) =
      .ok (fresh (tree [("p", sv "v"),
                        ("n", .map (tree [("s", sv "v")])), ("q", sv "v")])) :=
  ⟨rfl, rfl, rfl⟩

/-! ## Sequences with elements that are not strings -/

/-- C17, evaluation at the failing input: the loop over a sequence stops with
a failed type assertion at the first element that is not a string, whatever the
engine and the state; so the run on a tree with a sequence of one number fails.
A sequence of strings is replaced by the sequence of the resolved strings. -/
theorem sequence_of_numbers_fails :
    (∀ (env : Env) (sfuel : Nat) (cm : Path) (pn : Str) (o : Scalar) (rest : List Value)
      (resolved : List Str) (st : Machine),
      resolveElements env sfuel cm pn (.other o :: rest) resolved st =
        .error Fault.typeAssertion) ∧
    (∀ env : Env,
      resolvePlaceholdersFromTop env (fresh (tree [("ports", .seq [.other (.int 8080)])])) =
        .error Fault.typeAssertion) ∧
    resolvePlaceholdersFromTop rejectingEnv
        (fresh (tree [("a", .seq [.str (ph "x"), sv "y"]), ("x", sv "1")])) =
      .ok (fresh (tree [("a", .strs ["1".toList, "y".toList]), ("x", sv "1")])) := by
  refine ⟨?_, ?_, rfl⟩
  · intro env sfuel cm pn o rest resolved st
    rfl
  · intro env
    rfl

/-! ## The terminal error -/

/-- A call of `resolveString` entered with a terminal error returns the empty
string and leaves the guard, the tree and the diagnostics as they are. -/
theorem resolveString_pending (env : Env) (fuel : Nat) (cm : Path) (pn value : Str)
    (stack : Stack) (data : Tree) (e : Str) (msgs parsed : List Str) :
    ∃ err1 parsed1, resolveString env (fuel + 1) cm pn value
        (stack, { data := data, error := some e, messages := msgs, parsed := parsed }) =
      .ok ([], stack,
        { data := data, error := err1, messages := msgs, parsed := parsed1 }) := by
  unfold resolveString templatePass
  by_cases ht : usesTemplate value = true
  · simp only [ht, if_true]
    cases env.template parsed value with
    | parseError e1 => exact ⟨some e1, parsed ++ [value], rfl⟩
    | execError _ => exact ⟨none, parsed ++ [value], rfl⟩
    | rendered out => exact ⟨some e, parsed ++ [value], by simp⟩
  · simp only [ht]
    exact ⟨some e, parsed, by simp⟩

theorem execFails_append (env : Env) :
    ∀ (a p b : List Str),
      execFails env p (a ++ b) = (execFails env p a || execFails env (p ++ a) b) := by
  intro a
  induction a with
  | nil => intro p b; simp [execFails]
  | cons x a ih =>
    intro p b
    have e : p ++ [x] ++ a = p ++ x :: a := by simp
    have h := ih (p ++ [x]) b
    rw [e] at h
    show (isExecError (env.template p x) || execFails env (p ++ [x]) (a ++ b)) =
      ((isExecError (env.template p x) || execFails env (p ++ [x]) a) ||
        execFails env (p ++ x :: a) b)
    rw [h, Bool.or_assoc]

theorem Sticky_refl (env : Env) (pr : PropertiesResolver) : Sticky env pr pr :=
  ⟨[], by simp, fun h _ => h⟩

theorem Sticky_trans {env : Env} {a b c : PropertiesResolver} (h1 : Sticky env a b)
    (h2 : Sticky env b c) : Sticky env a c := by
  obtain ⟨l1, e1, k1⟩ := h1
  obtain ⟨l2, e2, k2⟩ := h2
  refine ⟨l1 ++ l2, by rw [e2, e1, List.append_assoc], fun he hf => ?_⟩
  rw [execFails_append, Bool.or_eq_false_iff] at hf
  exact k2 (k1 he hf.1) (by rw [e1]; exact hf.2)

theorem Sticky_same (env : Env) {pr pr1 : PropertiesResolver} (hp : pr1.parsed = pr.parsed)
    (he : pr.error ≠ none → pr1.error ≠ none) : Sticky env pr pr1 :=
  ⟨[], by simp [hp], fun h _ => he h⟩

theorem templatePass_sticky (env : Env) (value : Str) (pr : PropertiesResolver) :
    Sticky env pr (templatePass env value pr).2 := by
  unfold templatePass
  by_cases ht : usesTemplate value = true
  · simp only [ht, if_true]
    refine ⟨[value], ?_, ?_⟩
    · cases env.template pr.parsed value <;> rfl
    · intro he hf
      simp only [execFails, Bool.or_false] at hf
      cases hv : env.template pr.parsed value with
      | parseError e1 => simp
      | execError err => rw [hv] at hf; simp [isExecError] at hf
      | rendered out => exact he
  · simp only [ht]
    exact Sticky_refl env pr

/-- The replacement pass keeps a relation between states that every
replacement keeps. -/
theorem replaceAllAux_rel (R : Machine → Machine → Prop) (hrefl : ∀ st, R st st)
    (htrans : ∀ a b c, R a b → R b c → R a c)
    (repl : Str → Machine → Except Fault (Str × Machine))
    (hrepl : ∀ m st r st1, repl m st = .ok (r, st1) → R st st1) :
    ∀ (n : Nat) (s : Str) (st : Machine) (r : Str) (st1 : Machine),
      replaceAllAux repl n s st = .ok (r, st1) → R st st1 := by
  intro n
  induction n with
  | zero =>
    intro s st r st1 h
    simp only [replaceAllAux, Except.ok.injEq, Prod.mk.injEq] at h
    rw [← h.2]
    exact hrefl st
  | succ n ih =>
    intro s st r st1 h
    simp only [replaceAllAux] at h
    cases hnm : nextMatch s with
    | none =>
      rw [hnm] at h
      simp only [Except.ok.injEq, Prod.mk.injEq] at h
      rw [← h.2]
      exact hrefl st
    | some q =>
      obtain ⟨a, i, b⟩ := q
      rw [hnm] at h
      simp only at h
      cases h1 : repl (matchText i) st with
      | error e => rw [h1] at h; simp at h
      | ok q1 =>
        obtain ⟨r1, st2⟩ := q1
        rw [h1] at h
        simp only at h
        cases h2 : replaceAllAux repl n b st2 with
        | error e => rw [h2] at h; simp at h
        | ok q2 =>
          obtain ⟨r2, st3⟩ := q2
          rw [h2] at h
          simp only [Except.ok.injEq, Prod.mk.injEq] at h
          rw [← h.2]
          exact htrans _ _ _ (hrepl _ _ _ _ h1) (ih b st2 r2 st3 h2)

/-- The re-check leaves the terminal error as it is. -/
theorem recheck_error (name : Str) (more : List Str) (st : Machine) (r : Str) (st1 : Machine)
    (h : recheck name more st = .ok (r, st1)) :
    st1.2.error = st.2.error ∧ st1.2.parsed = st.2.parsed := by
  unfold recheck at h
  cases hv : st.2.resolvePropertyName name with
  | none =>
    rw [hv] at h
    cases more with
    | nil =>
      simp only [Except.ok.injEq, Prod.mk.injEq] at h
      rw [← h.2]
      exact ⟨rfl, rfl⟩
    | cons d _ =>
      simp only [Except.ok.injEq, Prod.mk.injEq] at h
      rw [← h.2]
      exact ⟨rfl, rfl⟩
  | some v =>
    rw [hv] at h
    cases v <;> simp only [Except.ok.injEq, Prod.mk.injEq, reduceCtorEq] at h
    rw [← h.2]
    exact ⟨rfl, rfl⟩

theorem onMatch_sticky (env : Env)
    (self : Str → Str → Machine → Except Fault (Str × Machine))
    (hself : ∀ name value st r st1, self name value st = .ok (r, st1) → Sticky env st.2 st1.2)
    (cm : Path) (pn m : Str) (st : Machine) (r : Str) (st1 : Machine)
    (h : onMatch env self cm pn m st = .ok (r, st1)) : Sticky env st.2 st1.2 := by
  unfold onMatch at h
  cases hc : getPropertyClauseFromMatch m with
  | error e => rw [hc] at h; simp at h
  | ok l =>
    rw [hc] at h
    cases l with
    | nil => simp at h
    | cons name more =>
      simp only at h
      by_cases hn : name = []
      · simp only [hn, if_true, Except.ok.injEq, Prod.mk.injEq] at h
        rw [← h.2]
        exact Sticky_same env rfl (fun he => he)
      · simp only [hn, if_false] at h
        cases hv : st.2.resolvePropertyName name with
        | none =>
          rw [hv] at h
          have := recheck_error name more st r st1 h
          exact Sticky_same env this.2 (fun he => by rw [this.1]; exact he)
        | some v =>
          rw [hv] at h
          cases v with
          | str s =>
            simp only at h
            by_cases hs : hasSub openMark s = true
            · simp only [hs, if_true] at h
              by_cases hk : st.1.has name = true
              · simp only [hk, if_true, Except.ok.injEq, Prod.mk.injEq] at h
                rw [← h.2]
                exact Sticky_same env rfl (fun _ => by simp)
              · simp only [hk] at h
                cases hst : st.1 with
                | none => rw [hst] at h; simp at h
                | some S =>
                  rw [hst] at h
                  simp only [Bool.false_eq_true, if_false] at h
                  cases hr : self name s (some (name :: S), st.2) with
                  | error e => rw [hr] at h; simp at h
                  | ok res =>
                    obtain ⟨r2, stack2, pr2⟩ := res
                    rw [hr] at h
                    simp only at h
                    have h2 := hself name s (some (name :: S), st.2) r2 (stack2, pr2) hr
                    have h3 := recheck_error name more _ r st1 h
                    exact Sticky_trans h2
                      (Sticky_same env h3.2 (fun he => by rw [h3.1]; exact he))
            · simp only [hs, Bool.false_eq_true, if_false, Except.ok.injEq, Prod.mk.injEq] at h
              rw [← h.2]
              exact Sticky_refl env _
          | seq _ =>
            simp only [Except.ok.injEq, Prod.mk.injEq] at h
            rw [← h.2]; exact Sticky_refl env _
          | strs _ =>
            simp only [Except.ok.injEq, Prod.mk.injEq] at h
            rw [← h.2]; exact Sticky_refl env _
          | map _ =>
            simp only [Except.ok.injEq, Prod.mk.injEq] at h
            rw [← h.2]; exact Sticky_refl env _
          | other _ =>
            simp only [Except.ok.injEq, Prod.mk.injEq] at h
            rw [← h.2]; exact Sticky_refl env _

theorem resolveString_sticky (env : Env) :
    ∀ (fuel : Nat) (cm : Path) (pn value : Str) (st : Machine) (r : Str) (st1 : Machine),
      resolveString env fuel cm pn value st = .ok (r, st1) → Sticky env st.2 st1.2 := by
  intro fuel
  induction fuel with
  | zero =>
    intro cm pn value st r st1 h
    simp [resolveString] at h
  | succ fuel ih =>
    intro cm pn value st r st1 h
    simp only [resolveString] at h
    have htp := templatePass_sticky env value st.2
    cases hp : templatePass env value st.2 with
    | mk o pr1 =>
      rw [hp] at h htp
      simp only at htp
      cases o with
      | none =>
        simp only [Except.ok.injEq, Prod.mk.injEq] at h
        rw [← h.2]
        exact htp
      | some gtr =>
        simp only at h
        by_cases he : pr1.error ≠ none
        · rw [if_pos he] at h
          simp only [Except.ok.injEq, Prod.mk.injEq] at h
          rw [← h.2]
          exact htp
        · rw [if_neg he] at h
          have := replaceAllAux_rel (fun a b => Sticky env a.2 b.2) (fun a => Sticky_refl env a.2)
            (fun a b c h1 h2 => Sticky_trans h1 h2) _
            (fun m st2 r2 st3 h2 => onMatch_sticky env _
              (fun name value st4 r4 st5 h4 => ih cm name value st4 r4 st5 h4) cm pn m st2 r2 st3 h2)
            gtr.length gtr (st.1, pr1) r st1 h
          exact Sticky_trans htp this

theorem resolveElements_sticky (env : Env) (sf : Nat) (cm : Path) (pn : Str) :
    ∀ (xs : List Value) (resolved : List Str) (st : Machine) (out : List Str) (st1 : Machine),
      resolveElements env sf cm pn xs resolved st = .ok (out, st1) → Sticky env st.2 st1.2 := by
  intro xs
  induction xs with
  | nil =>
    intro resolved st out st1 h
    simp only [resolveElements, Except.ok.injEq, Prod.mk.injEq] at h
    rw [← h.2]
    exact Sticky_refl env _
  | cons x rest ih =>
    intro resolved st out st1 h
    cases x with
    | str s =>
      simp only [resolveElements] at h
      cases hr : resolveString env sf cm pn s st with
      | error e => rw [hr] at h; simp at h
      | ok res =>
        obtain ⟨r2, st2⟩ := res
        rw [hr] at h
        simp only at h
        exact Sticky_trans (resolveString_sticky env sf cm pn s st r2 st2 hr) (ih _ st2 out st1 h)
    | seq _ => simp [resolveElements] at h
    | strs _ => simp [resolveElements] at h
    | map _ => simp [resolveElements] at h
    | other _ => simp [resolveElements] at h

theorem visit_sticky (env : Env) (sf : Nat)
    (walk : Path → PropertiesResolver → Except Fault PropertiesResolver)
    (hwalk : ∀ P pr pr1, walk P pr = .ok pr1 → Sticky env pr pr1)
    (cm : Path) (pn : Str) (pr pr1 : PropertiesResolver)
    (h : visit env sf walk cm pn pr = .ok pr1) : Sticky env pr pr1 := by
  unfold visit at h
  cases hv : (Tree.at pr.data cm).bind (fun m => Tree.get m pn) with
  | none =>
    rw [hv] at h
    simp only [Except.ok.injEq] at h
    rw [← h]; exact Sticky_refl env _
  | some v =>
    rw [hv] at h
    cases v with
    | map _ => exact hwalk _ pr pr1 h
    | seq xs =>
      simp only at h
      cases hr : resolveElements env sf cm pn xs [] (newStack, pr) with
      | error e => rw [hr] at h; simp at h
      | ok res =>
        obtain ⟨out, stack2, pr2⟩ := res
        rw [hr] at h
        simp only [Except.ok.injEq] at h
        rw [← h]
        exact resolveElements_sticky env sf cm pn xs [] (newStack, pr) out (stack2, pr2) hr
    | str s =>
      simp only at h
      cases hr : resolveString env sf cm pn s (newStack, pr) with
      | error e => rw [hr] at h; simp at h
      | ok res =>
        obtain ⟨out, stack2, pr2⟩ := res
        rw [hr] at h
        simp only [Except.ok.injEq] at h
        rw [← h]
        exact resolveString_sticky env sf cm pn s (newStack, pr) out (stack2, pr2) hr
    | strs _ =>
      simp only [Except.ok.injEq] at h
      rw [← h]; exact Sticky_refl env _
    | other _ =>
      simp only [Except.ok.injEq] at h
      rw [← h]; exact Sticky_refl env _

/-- The loop over the keys keeps a property of the resolver that every visit
keeps. -/
theorem visitAll_keeps (Q : PropertiesResolver → Prop)
    (step : Str → PropertiesResolver → Except Fault PropertiesResolver)
    (hstep : ∀ k pr pr1, Q pr → step k pr = .ok pr1 → Q pr1) :
    ∀ (ks : List Str) (pr pr1 : PropertiesResolver), Q pr → visitAll step ks pr = .ok pr1 →
      Q pr1 := by
  intro ks
  induction ks with
  | nil =>
    intro pr pr1 hq h
    simp only [visitAll, Except.ok.injEq] at h
    rw [← h]; exact hq
  | cons k rest ih =>
    intro pr pr1 hq h
    simp only [visitAll] at h
    cases hr : step k pr with
    | error e => rw [hr] at h; simp at h
    | ok pr2 =>
      rw [hr] at h
      exact ih pr2 pr1 (hstep k pr pr2 hq hr) h

/-- The loop of the walker keeps a relation between states of the resolver
that every visit keeps. -/
theorem rangeLoop_rel (env : Env) (P : Path)
    (R : PropertiesResolver → PropertiesResolver → Prop) (hrefl : ∀ a, R a a)
    (htrans : ∀ a b c, R a b → R b c → R a c)
    (step : Str → PropertiesResolver → Except Fault PropertiesResolver)
    (hstep : ∀ k pr pr1, step k pr = .ok pr1 → R pr pr1) :
    ∀ (n : Nat) (ks : List Str) (pr pr1 : PropertiesResolver),
      rangeLoop env step P n ks pr = .ok pr1 → R pr pr1 := by
  intro n
  induction n with
  | zero =>
    intro ks pr pr1 h
    cases ks with
    | nil =>
      simp only [rangeLoop, Except.ok.injEq] at h
      rw [← h]; exact hrefl pr
    | cons k rest => simp [rangeLoop] at h
  | succ n ih =>
    intro ks pr pr1 h
    cases ks with
    | nil =>
      simp only [rangeLoop, Except.ok.injEq] at h
      rw [← h]; exact hrefl pr
    | cons k rest =>
      simp only [rangeLoop] at h
      cases hr : step k pr with
      | error e => rw [hr] at h; simp at h
      | ok pr2 =>
        rw [hr] at h
        exact htrans _ _ _ (hstep k pr pr2 hr) (ih _ pr2 pr1 h)

theorem resolvePlaceholders_sticky (env : Env) (sf : Nat) :
    ∀ (d : Nat) (P : Path) (pr pr1 : PropertiesResolver),
      resolvePlaceholders env sf d P pr = .ok pr1 → Sticky env pr pr1 := by
  intro d
  induction d with
  | zero =>
    intro P pr pr1 h
    simp [resolvePlaceholders] at h
  | succ d ih =>
    intro P pr pr1 h
    simp only [resolvePlaceholders] at h
    cases hm : Tree.at pr.data P with
    | none =>
      rw [hm] at h
      simp only [Except.ok.injEq] at h
      rw [← h]; exact Sticky_refl env _
    | some m =>
      rw [hm] at h
      exact rangeLoop_rel env P (Sticky env) (Sticky_refl env)
        (fun a b c h1 h2 => Sticky_trans h1 h2) _
        (fun k p p1 hk => visit_sticky env sf _ ih P k p p1 hk) _ m.keys pr pr1 h

/-- C13, counterexample: a terminal error is replaced by a later one.  In the
tree of `x`, a one-name cycle, and `t`, the empty template action, the visit of
`x` records the cycle error and the run returns the parse error of `t`.  In the
tree of `a`, `b`, `x` without template markers, resolving the first span of `b`
records the cycle error of `x` and the run returns the cycle error of `b`,
recorded for the second span of `b`. -/
theorem first_error_replaced :
    visit rejectingEnv 3 (resolvePlaceholders rejectingEnv 3 0) [] "x".toList
        (fresh (tree [("x", .str (ph "x")), ("t", .str (tmplOpen ++ tmplClose))])) =
      .ok { data := tree [("x", sv ""), ("t", .str (tmplOpen ++ tmplClose))],
            error := some "stack overflow found when resolving $\x7bx\x7d".toList,
            messages := [] } ∧
    resolvePlaceholdersFromTop rejectingEnv
        (fresh (tree [("x", .str (ph "x")), ("t", .str (tmplOpen ++ tmplClose))])) =
      .ok { data := tree [("x", sv ""), ("t", sv "")],
            error := some "template: parse error".toList, messages := [],
            parsed := [tmplOpen ++ tmplClose] } ∧
    closure rejectingEnv 2 [] "b".toList (ph "x")
        (some ["b".toList], fresh (tree [("a", .str (ph "b")),
          ("b", .str (ph "x" ++ ph "b")), ("x", .str (ph "x"))])) =
      .ok ([], some ["x".toList, "b".toList],
        { data := tree [("a", .str (ph "b")), ("b", .str (ph "x" ++ ph "b")), ("x", sv "")],
          error := some "stack overflow found when resolving $\x7bx\x7d".toList,
          messages := [] }) ∧
    resolvePlaceholdersFromTop rejectingEnv
        (fresh (tree [("a", .str (ph "b")), ("b", .str (ph "x" ++ ph "b")),
          ("x", .str (ph "x"))])) =
      .ok { data := tree [("a", sv ""), ("b", sv ""), ("x", sv "")],
            error := some "stack overflow found when resolving $\x7bb\x7d".toList,
            messages := [] } :=
  ⟨rfl, rfl, rfl, rfl⟩

/-- C13 (amended): in every run, with every template engine, a terminal error
that has been recorded is still set after every later step during which the
engine does not fail at execution, though a later parse failure or cycle may
have replaced it by another error.  For a replacement of a span, a call of
`resolveString` and a call of the walker: the texts handed to the engine during
the step are `later`, and if the step is entered with a terminal error and the
engine fails at execution on none of these texts, the step ends with a terminal
error.  And a call of `resolveString` entered with a terminal error on a value
that does not hold both template markers leaves the whole state, the error
included, as it is.  (What a failure at execution does to the error is not
stated.) -/
theorem terminal_error_stays_set (env : Env) :
    (∀ (fuel : Nat) (cm : Path) (pn m : Str) (st : Machine) (r : Str) (st1 : Machine),
      closure env fuel cm pn m st = .ok (r, st1) →
      ∃ later, st1.2.parsed = st.2.parsed ++ later ∧
        (st.2.error ≠ none → execFails env st.2.parsed later = false → st1.2.error ≠ none)) ∧
    (∀ (fuel : Nat) (cm : Path) (pn value : Str) (st : Machine) (r : Str) (st1 : Machine),
      resolveString env fuel cm pn value st = .ok (r, st1) →
      ∃ later, st1.2.parsed = st.2.parsed ++ later ∧
        (st.2.error ≠ none → execFails env st.2.parsed later = false → st1.2.error ≠ none)) ∧
    (∀ (sf d : Nat) (P : Path) (pr pr1 : PropertiesResolver),
      resolvePlaceholders env sf d P pr = .ok pr1 →
      ∃ later, pr1.parsed = pr.parsed ++ later ∧
        (pr.error ≠ none → execFails env pr.parsed later = false → pr1.error ≠ none)) ∧
    (∀ (fuel : Nat) (cm : Path) (pn value : Str) (st : Machine),
      usesTemplate value = false → st.2.error ≠ none →
      resolveString env (fuel + 1) cm pn value st = .ok ([], st)) :=
  ⟨fun fuel cm pn m st r st1 h => onMatch_sticky env _
      (fun name value st2 r2 st3 h2 => resolveString_sticky env fuel cm name value st2 r2 st3 h2)
      cm pn m st r st1 h,
   fun fuel cm pn value st r st1 h => resolveString_sticky env fuel cm pn value st r st1 h,
   fun sf d P pr pr1 h => resolvePlaceholders_sticky env sf d P pr pr1 h,
   fun fuel cm pn value st ht he => resolveString_shortCircuit env fuel cm pn value st ht he⟩

/-- C13 (amended), witness: the walker entered with a terminal error on the
tree of `t`, the empty template action, with the engine that rejects every
text: the engine is handed the text of `t`, does not fail at execution, and the
walker returns with a terminal error, the parse error. -/
theorem terminal_error_stays_set_witness :
    resolvePlaceholders rejectingEnv 2 1 []
        { data := tree [("t", .str (tmplOpen ++ tmplClose))],
          error := some "first".toList, messages := [] } =
      .ok { data := tree [("t", sv "")],
            error := some "template: parse error".toList, messages := [],
            parsed := [tmplOpen ++ tmplClose] } ∧
    ∃ later, [tmplOpen ++ tmplClose] = [] ++ later ∧
      ((some "first".toList : Option Str) ≠ none → execFails rejectingEnv [] later = false →
        (some "template: parse error".toList : Option Str) ≠ none) :=
  ⟨rfl, (terminal_error_stays_set rejectingEnv).2.2.1 2 1 []
     { data := tree [("t", .str (tmplOpen ++ tmplClose))],
       error := some "first".toList, messages := [] }
     { data := tree [("t", sv "")],
       error := some "template: parse error".toList, messages := [],
       parsed := [tmplOpen ++ tmplClose] }
     rfl⟩

/-- C14, evaluation at the failing input.  A call of `resolveString` entered
with a terminal error returns the empty string and leaves the guard, the tree
and the diagnostics as they are, for every engine, name, value and guard; the
visit of a string leaf with a terminal error pending assigns it the empty
string.  But an engine failure at execution clears the error: in the tree of
`x`, a one-name cycle, `t`, a template with an index out of range, and `a`, a
literal, visited in this order, `a` keeps its text and the run returns a nil
error. -/
theorem leaf_kept_after_error :
    (∀ (env : Env) (fuel : Nat) (cm : Path) (pn value : Str) (stack : Stack) (data : Tree)
      (e : Str) (msgs parsed : List Str),
      ∃ err1 parsed1, resolveString env (fuel + 1) cm pn value
          (stack, { data := data, error := some e, messages := msgs, parsed := parsed }) =
        .ok ([], stack,
          { data := data, error := err1, messages := msgs, parsed := parsed1 })) ∧
    (∀ (env : Env) (sf : Nat)
      (walk : Path → PropertiesResolver → Except Fault PropertiesResolver) (cm : Path)
      (pn s : Str) (m : Tree) (pr : PropertiesResolver),
      pr.error ≠ none → Tree.at pr.data cm = some m → Tree.get m pn = some (.str s) →
      ∃ err1 parsed1, visit env (sf + 1) walk cm pn pr =
        .ok (PropertiesResolver.assign { pr with error := err1, parsed := parsed1 } cm pn
          (.str []))) ∧
    visit failingEnv 4 (resolvePlaceholders failingEnv 4 0) [] "x".toList
        (fresh (tree [("x", .str (ph "x")), ("t", .str indexPastEnd), ("a", sv "lit")])) =
      .ok { data := tree [("x", sv ""), ("t", .str indexPastEnd), ("a", sv "lit")],
            error := some (stackOverflowMsg "x".toList), messages := [] } ∧
    resolvePlaceholdersFromTop failingEnv
        (fresh (tree [("x", .str (ph "x")), ("t", .str indexPastEnd), ("a", sv "lit")])) =
      .ok { data := tree [("x", sv ""), ("t", sv ""), ("a", sv "lit")], error := none,
            messages := [], parsed := [indexPastEnd] } := by
  refine ⟨?_, ?_, rfl, rfl⟩
  · intro env fuel cm pn value stack data e msgs parsed
    exact resolveString_pending env fuel cm pn value stack data e msgs parsed
  · intro env sf walk cm pn s m pr he hat hget
    obtain ⟨data, error, messages, parsed⟩ := pr
    cases error with
    | none => exact absurd rfl he
    | some e =>
      obtain ⟨err1, parsed1, h1⟩ :=
        resolveString_pending env sf cm pn s newStack data e messages parsed
      refine ⟨err1, parsed1, ?_⟩
      simp only at hat
      simp only [visit, hat, Option.bind, hget, h1]

/-! ## Clause splitting -/

/-- Dropping a prefix by a test stops at the first element that fails it. -/
theorem dropWhile_append_stop (f : Char → Bool) (a b : Str) (c : Char) (hc : f c = false) :
    (a ++ c :: b).dropWhile f = a.dropWhile f ++ c :: b := by
  induction a with
  | nil => simp [List.dropWhile, hc]
  | cons x xs ih =>
    by_cases hx : f x = true
    · simp [List.dropWhile, hx, ih]
    · simp [List.dropWhile, hx]

/-- Trimming a clause that starts with a well-formed name followed by a colon
only touches the end of what follows the colon. -/
theorem TrimSpace_name_colon (p d : Str) (h : wellFormedName p = true) :
    TrimSpace (p ++ colon :: d) = p ++ colon :: (d.reverse.dropWhile isSpace).reverse := by
  obtain ⟨h1, _, _, h4, _⟩ := (wellFormedName_iff p).1 h
  unfold TrimSpace
  rw [dropWhile_isSpace_eq (p ++ colon :: d)]
  · have : (p ++ colon :: d).reverse = d.reverse ++ colon :: p.reverse := by simp
    rw [this, dropWhile_append_stop isSpace _ _ colon (by decide)]
    simp
  · intro c hc
    cases p with
    | nil => exact absurd rfl h1
    | cons x xs => exact h4 c (by simpa using hc)

/-- The clause of a span that spells a well-formed name, a colon, a first
default segment free of colons, a colon and more text starts with the name and
that segment. -/
theorem split_of_two_defaults (p d1 d2 : Str) (h : wellFormedName p = true)
    (h1 : colon ∉ d1) :
    ∃ more, splitColon (TrimSpace (p ++ colon :: (d1 ++ colon :: d2))) = p :: d1 :: more := by
  obtain ⟨_, h2, _, _, _⟩ := (wellFormedName_iff p).1 h
  rw [TrimSpace_name_colon p _ h]
  have : (d1 ++ colon :: d2).reverse = d2.reverse ++ colon :: d1.reverse := by simp
  rw [this, dropWhile_append_stop isSpace _ _ colon (by decide)]
  simp only [List.reverse_append, List.reverse_cons, List.reverse_reverse, List.append_assoc,
    List.singleton_append, List.cons_append, List.nil_append]
  rw [splitColon_append p _ h2, splitColon_append d1 _ h1]
  exact ⟨_, rfl⟩

/-- C19: the clause of a matched span is its text between the braces, trimmed
of surrounding white space and split on every colon, and is never empty.  The
replacement function takes segment 0 as the property name and, when that name
is not in the tree, returns segment 1 whatever segments follow.  So for a
well-formed name `p` absent from the tree and texts `d1`, `d2` free of `}`,
`d1` free of `:`, resolving the value made of the span of `p:d1:d2`, no error
pending, gives `d1` and changes nothing. -/
theorem clause_splitting (env : Env) (fuel : Nat) (cm : Path) (pn p d1 d2 : Str) (st : Machine)
    (hp : wellFormedName p = true) (habs : Tree.get st.2.data p = none)
    (h1 : colon ∉ d1) (h1b : rbrace ∉ d1) (h2 : rbrace ∉ d2) (he : st.2.error = none) :
    (∀ c : Str, getPropertyClauseFromMatch (matchText c) = .ok (splitColon (TrimSpace c)) ∧
      splitColon (TrimSpace c) ≠ []) ∧
    (∀ (c name dflt : Str) (more : List Str),
      splitColon (TrimSpace c) = name :: dflt :: more → name ≠ [] →
      Tree.get st.2.data name = none →
      closure env fuel cm pn (matchText c) st = .ok (dflt, st)) ∧
    resolveString env (fuel + 1) cm pn (matchText (p ++ colon :: (d1 ++ colon :: d2))) st =
      .ok (d1, st) := by
  refine ⟨fun c => ⟨getPropertyClauseFromMatch_matchText c, splitColon_ne_nil _⟩, ?_, ?_⟩
  · intro c name dflt more hc hne hn
    unfold closure
    rw [onMatch_absent env _ cm pn c name (dflt :: more) st hc hne hn]
  · have hr : rbrace ∉ p ++ colon :: (d1 ++ colon :: d2) := by
      have := rbrace_not_mem_of_wellFormed p hp
      have hc : ¬ rbrace = colon := by decide
      simp [this, h1b, h2, hc]
    obtain ⟨more, hs⟩ := split_of_two_defaults p d1 d2 hp h1
    rw [resolveString_plain env fuel cm pn _ st (usesTemplate_matchText _ hr) he,
      ReplaceAllStringFunc_only _ _ st hr]
    unfold closure
    rw [onMatch_absent env _ cm pn _ p (d1 :: more) st hs (ne_nil_of_wellFormed p hp) habs]

/-- C19, witness: in the tree that holds only `a`, the span of
`host:localhost:8080` resolves to `localhost`. -/
theorem clause_splitting_witness :
    wellFormedName "host".toList = true ∧
    resolveString rejectingEnv 1 [] "a".toList
        (matchText ("host".toList ++ colon :: ("localhost".toList ++ colon :: "8080".toList)))
        (newStack, fresh (tree [("a", .str (ph "host:localhost:8080"))])) =
      .ok ("localhost".toList, newStack, fresh (tree [("a", .str (ph "host:localhost:8080"))])) :=
  ⟨by decide,
   (clause_splitting rejectingEnv 0 [] "a".toList "host".toList "localhost".toList "8080".toList
    (newStack, fresh (tree [("a", .str (ph "host:localhost:8080"))]))
    (by decide) rfl (by decide) (by decide) (by decide) rfl).2.2⟩

/-! ## No failing operation on trees whose sequences hold strings -/

theorem StrKeep_refl (t : Tree) : StrKeep t t := fun _ s h => ⟨s, h⟩

theorem StrKeep_trans {a b c : Tree} (h1 : StrKeep a b) (h2 : StrKeep b c) : StrKeep a c := by
  intro k s h
  obtain ⟨s1, hs1⟩ := h1 k s h
  exact h2 k s1 hs1

theorem StrKeep_assign (cm : Path) (t : Tree) (k r : Str) :
    StrKeep t (Tree.modifyAt (fun m => Tree.set m k (.str r)) cm t) := by
  intro j s hj
  cases cm with
  | nil =>
    simp only [Tree.modifyAt]
    by_cases hjk : j = k
    · subst hjk
      exact ⟨r, Tree.get_set_same t j _⟩
    · rw [Tree.get_set_other t k j _ hjk]
      exact ⟨s, hj⟩
  | cons c cs =>
    simp only [Tree.modifyAt]
    cases hc : Tree.get t c with
    | none => exact ⟨s, hj⟩
    | some v =>
      cases v with
      | map m =>
        simp only
        by_cases hjc : j = c
        · subst hjc
          rw [hc] at hj
          simp at hj
        · rw [Tree.get_set_other t c j _ hjc]
          exact ⟨s, hj⟩
      | str _ => exact ⟨s, hj⟩
      | seq _ => exact ⟨s, hj⟩
      | strs _ => exact ⟨s, hj⟩
      | other _ => exact ⟨s, hj⟩

theorem Keeps_refl (st : Machine) : Keeps st st := ⟨fun h => h, StrKeep_refl _⟩

theorem Keeps_trans {a b c : Machine} (h1 : Keeps a b) (h2 : Keeps b c) : Keeps a c :=
  ⟨fun h => h2.1 (h1.1 h), StrKeep_trans h1.2 h2.2⟩

theorem NoPanic_imp {α : Type} {Q1 Q2 : α → Prop} (h : ∀ a, Q1 a → Q2 a) (x : Except Fault α)
    (hx : NoPanic Q1 x) : NoPanic Q2 x := by
  cases x with
  | error e => exact hx
  | ok a => exact h a hx

theorem replaceAllAux_noPanic (R : Machine → Machine → Prop) (hrefl : ∀ st, R st st)
    (htrans : ∀ a b c, R a b → R b c → R a c)
    (repl : Str → Machine → Except Fault (Str × Machine)) (st0 : Machine)
    (hrepl : ∀ inner st, R st0 st → NoPanic (fun r => R st r.2) (repl (matchText inner) st)) :
    ∀ (n : Nat) (s : Str) (st : Machine), R st0 st →
      NoPanic (fun r => R st r.2) (replaceAllAux repl n s st) := by
  intro n
  induction n with
  | zero =>
    intro s st _
    exact hrefl st
  | succ n ih =>
    intro s st hst
    simp only [replaceAllAux]
    cases nextMatch s with
    | none => exact hrefl st
    | some p =>
      obtain ⟨a, i, b⟩ := p
      simp only
      have h1 := hrepl i st hst
      cases hr : repl (matchText i) st with
      | error e =>
        rw [hr] at h1
        exact h1
      | ok q =>
        obtain ⟨r, st1⟩ := q
        rw [hr] at h1
        simp only [NoPanic] at h1
        simp only
        have h2 := ih b st1 (htrans _ _ _ hst h1)
        cases hr2 : replaceAllAux repl n b st1 with
        | error e =>
          rw [hr2] at h2
          exact h2
        | ok q2 =>
          obtain ⟨rest, st2⟩ := q2
          rw [hr2] at h2
          exact htrans _ _ _ h1 h2

theorem recheck_noPanic (name : Str) (more : List Str) (st : Machine)
    (h : Tree.get st.2.data name = none ∨ ∃ s, Tree.get st.2.data name = some (.str s)) :
    NoPanic (fun r => Keeps st r.2) (recheck name more st) := by
  unfold recheck
  simp only [PropertiesResolver.resolvePropertyName]
  rcases h with h | ⟨s, h⟩
  · rw [h]
    cases more with
    | nil => exact ⟨fun h => h, StrKeep_refl _⟩
    | cons d _ => exact Keeps_refl st
  · rw [h]
    exact Keeps_refl st

theorem onMatch_noPanic (env : Env) (cm : Path) (pn : Str)
    (self : Str → Str → Machine → Except Fault (Str × Machine))
    (hself : ∀ name value st, st.1 ≠ none → NoPanic (fun r => Keeps st r.2) (self name value st))
    (inner : Str) (st : Machine) (hst : st.1 ≠ none) :
    NoPanic (fun r => Keeps st r.2) (onMatch env self cm pn (matchText inner) st) := by
  obtain ⟨stack, pr⟩ := st
  unfold onMatch
  rw [getPropertyClauseFromMatch_matchText]
  cases hl : splitColon (TrimSpace inner) with
  | nil => exact absurd hl (splitColon_ne_nil _)
  | cons name more =>
    simp only
    by_cases hne : name = []
    · rw [if_pos hne]
      exact ⟨fun h => h, StrKeep_refl _⟩
    · rw [if_neg hne]
      cases hget : pr.resolvePropertyName name with
      | none => exact recheck_noPanic name more _ (Or.inl hget)
      | some v =>
        cases v with
        | str cur =>
          simp only
          by_cases hsub : hasSub openMark cur = true
          · rw [if_pos hsub]
            by_cases hhas : Stack.has stack name = true
            · rw [if_pos hhas]
              exact ⟨fun h => h, StrKeep_refl _⟩
            · rw [if_neg hhas]
              cases stack with
              | none => exact absurd rfl hst
              | some s =>
                simp only
                have hrec := hself name cur (some (name :: s), pr) (by simp)
                cases hr : self name cur (some (name :: s), pr) with
                | error e =>
                  rw [hr] at hrec
                  exact hrec
                | ok q =>
                  obtain ⟨r, stack1, pr1⟩ := q
                  rw [hr] at hrec
                  simp only [NoPanic] at hrec
                  simp only
                  obtain ⟨s1, hs1⟩ := hrec.2 name cur hget
                  have hk1 : Keeps (some s, pr) (stack1, pr1.assign cm name (.str r)) :=
                    ⟨fun _ => hrec.1 (by simp),
                     StrKeep_trans hrec.2 (StrKeep_assign cm pr1.data name r)⟩
                  obtain ⟨s2, hs2⟩ := StrKeep_assign cm pr1.data name r name s1 hs1
                  exact NoPanic_imp (fun a ha => Keeps_trans hk1 ha) _
                    (recheck_noPanic name more _ (Or.inr ⟨s2, hs2⟩))
          · rw [if_neg hsub]
            exact Keeps_refl _
        | seq _ => exact Keeps_refl _
        | strs _ => exact Keeps_refl _
        | map _ => exact Keeps_refl _
        | other _ => exact Keeps_refl _

theorem resolveString_noPanic (env : Env) :
    ∀ (f : Nat) (cm : Path) (pn value : Str) (st : Machine), st.1 ≠ none →
      NoPanic (fun r => Keeps st r.2) (resolveString env f cm pn value st) := by
  intro f
  induction f with
  | zero =>
    intro cm pn value st _
    rfl
  | succ f ih =>
    intro cm pn value st hst
    obtain ⟨stack, pr⟩ := st
    simp only [resolveString]
    have hdata := (templatePass_data env value pr).1
    cases htp : templatePass env value pr with
    | mk o pr1 =>
      rw [htp] at hdata
      simp only at hdata
      have hbase : Keeps (stack, pr) (stack, pr1) := by
        refine ⟨fun h => h, ?_⟩
        show StrKeep pr.data pr1.data
        rw [hdata]
        exact StrKeep_refl _
      cases o with
      | none => exact hbase
      | some gtr =>
        simp only
        by_cases he : pr1.error ≠ none
        · rw [if_pos he]
          exact hbase
        · rw [if_neg he]
          have hrepl : ∀ inner st, Keeps (stack, pr1) st →
              NoPanic (fun r => Keeps st r.2)
                (onMatch env (resolveString env f cm) cm pn (matchText inner) st) := by
            intro inner st hk
            exact onMatch_noPanic env cm pn _ (fun name value st h => ih cm name value st h)
              inner st (hk.1 hst)
          have := replaceAllAux_noPanic Keeps Keeps_refl
            (fun a b c h1 h2 => Keeps_trans h1 h2) _ (stack, pr1) hrepl gtr.length gtr
            (stack, pr1) (Keeps_refl _)
          exact NoPanic_imp (fun a ha => Keeps_trans hbase ha) _ this

theorem resolveElements_noPanic (env : Env) (sf : Nat) (cm : Path) (pn : Str) :
    ∀ (xs : List Value) (resolved : List Str) (st : Machine), st.1 ≠ none →
      (∀ x ∈ xs, ∃ s, x = .str s) →
      NoPanic (fun _ => True) (resolveElements env sf cm pn xs resolved st) := by
  intro xs
  induction xs with
  | nil =>
    intro resolved st _ _
    trivial
  | cons x rest ih =>
    intro resolved st hst hxs
    obtain ⟨s, hs⟩ := hxs x (List.mem_cons_self _ _)
    subst hs
    simp only [resolveElements]
    have h1 := resolveString_noPanic env sf cm pn s st hst
    cases hr : resolveString env sf cm pn s st with
    | error e =>
      rw [hr] at h1
      exact h1
    | ok q =>
      obtain ⟨r, st1⟩ := q
      rw [hr] at h1
      simp only [NoPanic] at h1
      exact ih (resolved ++ [r]) st1 (h1.1 hst) (fun y hy => hxs y (List.mem_cons_of_mem _ hy))

theorem Good_at {q : Value → Prop} :
    ∀ (P : Path) (t m : Tree), Good q (.map t) → Tree.at t P = some m → Good q (.map m) := by
  intro P
  induction P with
  | nil =>
    intro t m hg hat
    simp only [Tree.at, Option.some.injEq] at hat
    subst hat
    exact hg
  | cons k ks ih =>
    intro t m hg hat
    simp only [Tree.at] at hat
    cases hk : Tree.get t k with
    | none => rw [hk] at hat; simp at hat
    | some v =>
      rw [hk] at hat
      cases v with
      | map m2 => exact ih m2 m (Good_get hg k _ hk) hat
      | str _ => simp at hat
      | seq _ => simp at hat
      | strs _ => simp at hat
      | other _ => simp at hat

theorem visit_noPanic (env : Env) (sf : Nat)
    (walk : Path → PropertiesResolver → Except Fault PropertiesResolver) (P : Path) (k : Str)
    (pr : PropertiesResolver) (hgood : Good seqOfStrings (.map pr.data))
    (hwalk : NoPanic (fun _ => True) (walk (P ++ [k]) pr)) :
    NoPanic (fun _ => True) (visit env sf walk P k pr) := by
  unfold visit
  cases hat : Tree.at pr.data P with
  | none => trivial
  | some m1 =>
    simp only [Option.some_bind]
    cases hg : Tree.get m1 k with
    | none => trivial
    | some v =>
      cases v with
      | map m2 => exact hwalk
      | seq xs =>
        simp only
        have hxs : ∀ x ∈ xs, ∃ s, x = .str s := by
          have h1 := Good_get (Good_at P pr.data m1 hgood hat) k _ hg
          cases h1 with
          | leaf _ _ hq => exact hq
        have h1 := resolveElements_noPanic env sf P k xs [] (newStack, pr) (by simp [newStack]) hxs
        cases hr : resolveElements env sf P k xs [] (newStack, pr) with
        | error e =>
          rw [hr] at h1
          exact h1
        | ok q => trivial
      | str s =>
        simp only
        have h1 := resolveString_noPanic env sf P k s (newStack, pr) (by simp [newStack])
        cases hr : resolveString env sf P k s (newStack, pr) with
        | error e =>
          rw [hr] at h1
          exact h1
        | ok q => trivial
      | strs _ => trivial
      | other _ => trivial

theorem visitAll_noPanic (R : PropertiesResolver → PropertiesResolver → Prop)
    (htrans : ∀ a b c, R a b → R b c → R a c)
    (step : Str → PropertiesResolver → Except Fault PropertiesResolver)
    (pr0 : PropertiesResolver)
    (hstep : ∀ k pr, R pr0 pr → Outcome (fun pr1 => R pr pr1) (step k pr))
    (hsafe : ∀ k pr, R pr0 pr → NoPanic (fun _ => True) (step k pr)) :
    ∀ (ks : List Str) (pr : PropertiesResolver), R pr0 pr →
      NoPanic (fun _ => True) (visitAll step ks pr) := by
  intro ks
  induction ks with
  | nil =>
    intro pr _
    trivial
  | cons k rest ih =>
    intro pr hpr
    simp only [visitAll]
    have h1 := hstep k pr hpr
    have h2 := hsafe k pr hpr
    cases hr : step k pr with
    | error e =>
      rw [hr] at h2
      exact h2
    | ok pr1 =>
      rw [hr] at h1
      simp only [Outcome] at h1
      exact ih pr1 (htrans _ _ _ hpr h1)

theorem rangeLoop_noPanic (env : Env) (P : Path)
    (R : PropertiesResolver → PropertiesResolver → Prop)
    (htrans : ∀ a b c, R a b → R b c → R a c)
    (step : Str → PropertiesResolver → Except Fault PropertiesResolver)
    (pr0 : PropertiesResolver)
    (hstep : ∀ k pr, R pr0 pr → Outcome (fun pr1 => R pr pr1) (step k pr))
    (hsafe : ∀ k pr, R pr0 pr → NoPanic (fun _ => True) (step k pr)) :
    ∀ (n : Nat) (ks : List Str) (pr : PropertiesResolver), R pr0 pr →
      NoPanic (fun _ => True) (rangeLoop env step P n ks pr) := by
  intro n
  induction n with
  | zero =>
    intro ks pr _
    cases ks with
    | nil => trivial
    | cons k rest => rfl
  | succ n ih =>
    intro ks pr hpr
    cases ks with
    | nil => trivial
    | cons k rest =>
      simp only [rangeLoop]
      have h1 := hstep k pr hpr
      have h2 := hsafe k pr hpr
      cases hr : step k pr with
      | error e =>
        rw [hr] at h2
        exact h2
      | ok pr1 =>
        rw [hr] at h1
        simp only [Outcome] at h1
        exact ih _ pr1 (htrans _ _ _ hpr h1)

theorem Writes_top {ks : List Str} {P : Path} {t1 t2 : Tree} (h : Writes ks P t1 t2) :
    Writes ks [] t1 t2 :=
  Writes_weaken (P := []) (Q := P) (by simpa using h)

theorem seqOfStrings_text (x : Value) (h : isText x = true) : seqOfStrings x := by
  cases x <;> simp [isText] at h <;> trivial

theorem resolvePlaceholders_noPanic (env : Env) (sf : Nat) :
    ∀ (d : Nat) (P : Path) (pr : PropertiesResolver) (m : Tree), pr.data.keys.length < sf →
      Tree.at pr.data P = some m → depthEntries m < d → Good seqOfStrings (.map pr.data) →
      NoPanic (fun _ => True) (resolvePlaceholders env sf d P pr) := by
  intro d
  induction d with
  | zero =>
    intro P pr m _ _ hd
    omega
  | succ d ih =>
    intro P pr m hsf hat hd hgood
    simp only [resolvePlaceholders, hat]
    apply rangeLoop_noPanic env P
      (fun a b => b.data.keys = a.data.keys ∧ Writes a.data.keys P a.data b.data)
      (fun a b c h1 h2 => ⟨h2.1.trans h1.1, Writes_trans h1.2 (by rw [← h1.1]; exact h2.2)⟩) _ pr
    · intro k pr1 hpr1
      apply visit_outcome env sf _ P k pr1 (by rw [hpr1.1]; exact hsf)
      intro m1 m2 hat1 hg
      obtain ⟨m1a, hat1a, hdepth⟩ := Writes_at_depth hpr1.2 m hat
      rw [hat1] at hat1a
      simp only [Option.some.injEq] at hat1a
      subst hat1a
      have hat2 : Tree.at pr1.data (P ++ [k]) = some m2 := by
        rw [at_append_single, hat1]
        simp [hg]
      have hd2 := depth_get_le m1 k _ hg
      simp only [Value.depth] at hd2
      exact resolvePlaceholders_total env sf d (P ++ [k]) pr1 m2 (by rw [hpr1.1]; exact hsf) hat2
        (by omega)
    · intro k pr1 hpr1
      have hgood1 : Good seqOfStrings (.map pr1.data) :=
        Writes_good seqOfStrings_text (Writes_top hpr1.2) hgood
      apply visit_noPanic env sf _ P k pr1 hgood1
      obtain ⟨m1, hat1, hdepth⟩ := Writes_at_depth hpr1.2 m hat
      cases hg : Tree.get m1 k with
      | none =>
        have : Tree.at pr1.data (P ++ [k]) = none := by
          rw [at_append_single, hat1]
          simp [hg]
        cases d with
        | zero => rfl
        | succ d1 =>
          simp only [resolvePlaceholders, this]
          trivial
      | some v =>
        cases v with
        | map m2 =>
          have hat2 : Tree.at pr1.data (P ++ [k]) = some m2 := by
            rw [at_append_single, hat1]
            simp [hg]
          have hd2 := depth_get_le m1 k _ hg
          simp only [Value.depth] at hd2
          exact ih (P ++ [k]) pr1 m2 (by rw [hpr1.1]; exact hsf) hat2 (by omega) hgood1
        | str _ =>
          have : Tree.at pr1.data (P ++ [k]) = none := by
            rw [at_append_single, hat1]
            simp [hg]
          cases d with
          | zero => rfl
          | succ d1 =>
            simp only [resolvePlaceholders, this]
            trivial
        | seq _ =>
          have : Tree.at pr1.data (P ++ [k]) = none := by
            rw [at_append_single, hat1]
            simp [hg]
          cases d with
          | zero => rfl
          | succ d1 =>
            simp only [resolvePlaceholders, this]
            trivial
        | strs _ =>
          have : Tree.at pr1.data (P ++ [k]) = none := by
            rw [at_append_single, hat1]
            simp [hg]
          cases d with
          | zero => rfl
          | succ d1 =>
            simp only [resolvePlaceholders, this]
            trivial
        | other _ =>
          have : Tree.at pr1.data (P ++ [k]) = none := by
            rw [at_append_single, hat1]
            simp [hg]
          cases d with
          | zero => rfl
          | succ d1 =>
            simp only [resolvePlaceholders, this]
            trivial
    · exact ⟨rfl, Writes.refl _⟩

/-- On a tree whose sequences hold only strings the walker returns. -/
theorem resolvePlaceholdersFromTop_ok (env : Env) (pr : PropertiesResolver)
    (hgood : Good seqOfStrings (.map pr.data)) :
    ∃ pr1, resolvePlaceholdersFromTop env pr = .ok pr1 := by
  have h1 := resolvePlaceholders_total env (pr.data.length + 1) (depthEntries pr.data + 1) [] pr
    pr.data (by simp [Tree.keys]) rfl (by omega)
  have h2 := resolvePlaceholders_noPanic env (pr.data.length + 1) (depthEntries pr.data + 1) [] pr
    pr.data (by simp [Tree.keys]) rfl (by omega) hgood
  unfold resolvePlaceholdersFromTop
  cases hr : resolvePlaceholders env (pr.data.length + 1) (depthEntries pr.data + 1) [] pr with
  | error e =>
    rw [hr] at h1 h2
    exact absurd h2 h1
  | ok pr1 => exact ⟨pr1, rfl⟩

/-- C20: on every tree whose sequences, at any nesting, hold only strings,
in every visit order (the order of the entries), for every choice `range`
makes for the entries created in a map while it is ranged over, and with every
engine, whatever state it keeps, `resolvePlaceholdersFromTop` returns: no
operation fails.  The parts: the text
of every match of the pattern has at least three characters and its clause has
a segment 0; a call of `resolveString` entered with a guard that is not nil
meets no failing operation, returns a guard that is not nil, and leaves a
string under every top-level key that held a string, so the value the re-check
reads is a string. -/
theorem no_runtime_failure (env : Env) (t : Tree) (hseq : Good seqOfStrings (.map t)) :
    (∃ pr, resolvePlaceholdersFromTop env (fresh t) = .ok pr) ∧
    (∀ s before inner after : Str, nextMatch s = some (before, inner, after) →
      3 ≤ (matchText inner).length ∧
      ∃ name more, getPropertyClauseFromMatch (matchText inner) = .ok (name :: more)) ∧
    (∀ (f : Nat) (cm : Path) (pn value : Str) (st : Machine), st.1 ≠ none →
      NoPanic (fun r => r.2.1 ≠ none ∧ StrKeep st.2.data r.2.2.data)
        (resolveString env f cm pn value st)) := by
  refine ⟨resolvePlaceholdersFromTop_ok env (fresh t) hseq, ?_, ?_⟩
  · intro s before inner after _
    refine ⟨by simp [matchText, openMark], ?_⟩
    rw [getPropertyClauseFromMatch_matchText]
    cases hl : splitColon (TrimSpace inner) with
    | nil => exact absurd hl (splitColon_ne_nil _)
    | cons name more => exact ⟨name, more, rfl⟩
  · intro f cm pn value st hst
    exact NoPanic_imp (fun a ha => ⟨ha.1 hst, ha.2⟩) _
      (resolveString_noPanic env f cm pn value st hst)

/-- C20, witness: a tree with a nested mapping, a sequence of strings, a
number, a cycle and an empty placeholder. -/
theorem no_runtime_failure_witness :
    ∃ pr, resolvePlaceholdersFromTop rejectingEnv
      (fresh (tree [("n", .map (tree [("s", .seq [.str (ph "x"), sv "lit"]),
                                      ("port", .other (.int 8080))])),
                    ("x", .str (ph "y")), ("y", .str (ph "x")), ("e", .str (ph ""))])) =
      .ok pr :=
  (no_runtime_failure rejectingEnv
    (tree [("n", .map (tree [("s", .seq [.str (ph "x"), sv "lit"]),
                             ("port", .other (.int 8080))])),
           ("x", .str (ph "y")), ("y", .str (ph "x")), ("e", .str (ph ""))])
    (Good_cons _ _ _
      (Good_cons _ _ _
        (Good.leaf _ (fun _ h => Value.noConfusion h) (by
          intro x hx
          simp only [List.mem_cons, List.mem_singleton, List.not_mem_nil, or_false] at hx
          rcases hx with hx | hx
          · exact ⟨_, hx⟩
          · exact ⟨_, hx⟩))
        (Good_cons _ _ _ (Good.leaf _ (fun _ h => Value.noConfusion h) trivial) (Good_nil _)))
      (Good_cons _ _ _ (Good.leaf _ (fun _ h => Value.noConfusion h) trivial)
        (Good_cons _ _ _ (Good.leaf _ (fun _ h => Value.noConfusion h) trivial)
          (Good_cons _ _ _ (Good.leaf _ (fun _ h => Value.noConfusion h) trivial)
            (Good_nil _)))))).1

/-! ## Clean texts -/

theorem plainText_iff (s : Str) : plainText s = true ↔ dollar ∉ s ∧ lbrace ∉ s := by
  simp [plainText]

theorem plainText_nil : plainText [] = true := rfl

theorem plainText_append (a b : Str) (ha : plainText a = true) (hb : plainText b = true) :
    plainText (a ++ b) = true := by
  rw [plainText_iff] at *
  simp [ha.1, ha.2, hb.1, hb.2]

theorem plainText_of_subset (a b : Str) (h : ∀ c ∈ a, c ∈ b) (hb : plainText b = true) :
    plainText a = true := by
  rw [plainText_iff] at *
  exact ⟨fun hc => hb.1 (h _ hc), fun hc => hb.2 (h _ hc)⟩

theorem nextMatch_none_of_plain (s : Str) (h : plainText s = true) : nextMatch s = none :=
  nextMatch_none_of_noOpen s (hasSub_openMark_of_noDollar s ((plainText_iff s).1 h).1)

theorem hasSub_openMark_of_plain (s : Str) (h : plainText s = true) :
    hasSub openMark s = false :=
  hasSub_openMark_of_noDollar s ((plainText_iff s).1 h).1

theorem mem_of_mem_TrimSpace (s : Str) (c : Char) (h : c ∈ TrimSpace s) : c ∈ s := by
  unfold TrimSpace at h
  rw [List.mem_reverse] at h
  have h1 := (List.dropWhile_sublist isSpace).subset h
  rw [List.mem_reverse] at h1
  exact (List.dropWhile_sublist isSpace).subset h1

theorem mem_of_mem_splitColon :
    ∀ (s x : Str) (c : Char), x ∈ splitColon s → c ∈ x → c ∈ s := by
  intro s
  induction s with
  | nil =>
    intro x c hx hc
    simp only [splitColon, List.mem_singleton] at hx
    subst hx
    exact hc
  | cons a rest ih =>
    intro x c hx hc
    simp only [splitColon] at hx
    by_cases ha : a = colon
    · rw [if_pos ha] at hx
      rcases List.mem_cons.1 hx with hx | hx
      · subst hx
        simp at hc
      · exact List.mem_cons_of_mem _ (ih x c hx hc)
    · rw [if_neg ha] at hx
      cases hs : splitColon rest with
      | nil => exact absurd hs (splitColon_ne_nil _)
      | cons h t =>
        rw [hs] at hx ih
        simp only at hx
        rcases List.mem_cons.1 hx with hx | hx
        · subst hx
          rcases List.mem_cons.1 hc with hc | hc
          · subst hc
            exact List.mem_cons_self _ _
          · exact List.mem_cons_of_mem _ (ih h c (List.mem_cons_self _ _) hc)
        · exact List.mem_cons_of_mem _ (ih x c (List.mem_cons_of_mem _ hx) hc)

/-- The segments of the clause of a span hold no `$` and no `{` when the text
between its braces holds none. -/
theorem plainText_segment (inner x : Str) (h : plainText inner = true)
    (hx : x ∈ splitColon (TrimSpace inner)) : plainText x = true :=
  plainText_of_subset x inner
    (fun c hc => mem_of_mem_TrimSpace inner c (mem_of_mem_splitColon _ x c hx hc)) h

theorem cleanBelow_sound (rank : Str → Nat) (bound : Nat) :
    ∀ (n : Nat) (s : Str), cleanBelow rank bound n s = true → CleanBelow rank bound s := by
  intro n
  induction n with
  | zero =>
    intro s h
    exact CleanBelow.literal s h
  | succ n ih =>
    intro s h
    simp only [cleanBelow] at h
    cases hm : nextMatch s with
    | none =>
      rw [hm] at h
      exact CleanBelow.literal s h
    | some p =>
      obtain ⟨w, inner, after⟩ := p
      rw [hm] at h
      simp only [Bool.and_eq_true, decide_eq_true_eq] at h
      obtain ⟨hs, _, hi⟩ := nextMatch_sound s w inner after hm
      rw [hs]
      exact CleanBelow.span w inner after h.1.1.1 h.1.1.2 hi h.1.2 (ih after h.2)

theorem braceOk_plain : ∀ (s : Str) (p : Bool), lbrace ∉ s → braceOk p s = true := by
  intro s
  induction s with
  | nil => intro p _; rfl
  | cons c rest ih =>
    intro p h
    simp only [List.mem_cons, not_or] at h
    simp only [braceOk, Bool.and_eq_true, Bool.or_eq_true, decide_eq_true_eq]
    exact ⟨Or.inl (fun hc => h.1 hc.symm), ih _ h.2⟩

theorem braceOk_append : ∀ (a b : Str) (p : Bool), lbrace ∉ a → (∀ q, braceOk q b = true) →
    braceOk p (a ++ b) = true := by
  intro a
  induction a with
  | nil => intro b p _ hb; exact hb p
  | cons c rest ih =>
    intro b p h hb
    simp only [List.mem_cons, not_or] at h
    simp only [List.cons_append, braceOk, Bool.and_eq_true, Bool.or_eq_true, decide_eq_true_eq]
    exact ⟨Or.inl (fun hc => h.1 hc.symm), ih b _ h.2 hb⟩

theorem braceOk_clean (rank : Str → Nat) (bound : Nat) (s : Str)
    (h : CleanBelow rank bound s) : ∀ p, braceOk p s = true := by
  induction h with
  | literal s hs => exact fun p => braceOk_plain s p ((plainText_iff s).1 hs).2
  | span w inner rest hw hi hr _ _ ih =>
    intro p
    have hw2 := ((plainText_iff w).1 hw).2
    have hi2 := ((plainText_iff inner).1 hi).2
    have : w ++ matchText inner ++ rest = w ++ (dollar :: lbrace :: (inner ++ rbrace :: rest)) := by
      simp [matchText, openMark]
    rw [this]
    apply braceOk_append w _ p hw2
    intro q
    simp only [braceOk, Bool.and_eq_true, Bool.or_eq_true, decide_eq_true_eq]
    refine ⟨Or.inl dollar_ne_lbrace, Or.inr (by simp), ?_⟩
    have h2 : inner ++ rbrace :: rest = (inner ++ [rbrace]) ++ rest := by simp
    rw [h2]
    apply braceOk_append _ rest _ _ ih
    simp only [List.mem_append, List.mem_singleton, not_or]
    exact ⟨hi2, lbrace_ne_rbrace⟩

theorem hasSub_tmplOpen_of_braceOk :
    ∀ (s : Str) (p : Bool), braceOk p s = true → hasSub tmplOpen s = false := by
  intro s
  induction s with
  | nil => intro p _; rfl
  | cons c rest ih =>
    intro p h
    simp only [braceOk, Bool.and_eq_true, Bool.or_eq_true, decide_eq_true_eq] at h
    simp only [hasSub, Bool.or_eq_false_iff]
    refine ⟨?_, ih _ h.2⟩
    cases rest with
    | nil => simp [tmplOpen, startsWith]
    | cons d rest2 =>
      by_cases hc : c = lbrace
      · have h2 := h.2
        simp only [braceOk, Bool.and_eq_true, Bool.or_eq_true, decide_eq_true_eq] at h2
        have hd : d ≠ lbrace := by
          rcases h2.1 with h3 | h3
          · exact h3
          · rw [hc] at h3
            exact absurd h3 (fun e => dollar_ne_lbrace e.symm)
        have hd2 : ¬ lbrace = d := fun e => hd e.symm
        simp [tmplOpen, startsWith, hc, hd2]
      · have hc2 : ¬ lbrace = c := fun e => hc e.symm
        simp [tmplOpen, startsWith, hc2]

/-- A clean text does not hold both template markers. -/
theorem usesTemplate_clean (rank : Str → Nat) (bound : Nat) (s : Str)
    (h : CleanBelow rank bound s) : usesTemplate s = false := by
  unfold usesTemplate
  rw [hasSub_tmplOpen_of_braceOk s false (braceOk_clean rank bound s h false)]
  rfl

/-- A clean text without the two characters that open a span holds no `$` and
no `{`. -/
theorem plain_of_clean (rank : Str → Nat) (bound : Nat) (s : Str)
    (h : CleanBelow rank bound s) (hs : hasSub openMark s = false) : plainText s = true := by
  cases h with
  | literal _ hp => exact hp
  | span w inner rest hw hi hr _ _ =>
    have h1 := nextMatch_append w inner rest (hasSub_openMark_of_plain w hw) hr
    rw [nextMatch_none_of_noOpen _ hs] at h1
    simp at h1

theorem CleanBelow_mono (rank : Str → Nat) (b1 b2 : Nat) (hb : b1 ≤ b2) (s : Str)
    (h : CleanBelow rank b1 s) : CleanBelow rank b2 s := by
  induction h with
  | literal s hs => exact CleanBelow.literal s hs
  | span w inner rest hw hi hr hrank _ ih =>
    exact CleanBelow.span w inner rest hw hi hr (lt_of_lt_of_le hrank hb) ih

/-! ## Resolution of clean flat trees -/

theorem StepFree_refl (t : Tree) : StepFree t t := fun _ => Or.inl rfl

theorem StepFree_trans {a b c : Tree} (h1 : StepFree a b) (h2 : StepFree b c) :
    StepFree a c := by
  intro k
  rcases h2 k with h | h
  · rcases h1 k with h3 | h3
    · exact Or.inl (h.trans h3)
    · exact Or.inr (by rw [h]; exact h3)
  · exact Or.inr h

theorem StepFree_set (t : Tree) (k r : Str) (hr : plainText r = true) :
    StepFree t (Tree.set t k (.str r)) := by
  intro j
  by_cases hjk : j = k
  · subst hjk
    exact Or.inr ⟨r, Tree.get_set_same t j _, hr⟩
  · exact Or.inl (Tree.get_set_other t k j _ hjk)

theorem CleanData_step {t t1 : Tree} (h : CleanData t) (hs : StepFree t t1) : CleanData t1 := by
  intro k v hv
  rcases hs k with h1 | ⟨r, h1, hr⟩
  · rw [h1] at hv
    exact h k v hv
  · rw [h1] at hv
    simp only [Option.some.injEq] at hv
    exact ⟨r, hv.symm, CleanBelow.literal r hr⟩

/-- The replacement pass over a clean text, for a replacement function that
keeps an invariant of the state and returns texts without `$` and `{`. -/
theorem ReplaceAllStringFunc_clean (rank : Str → Nat) (bound : Nat)
    (repl : Str → Machine → Except Fault (Str × Machine)) (I : Machine → Prop)
    (R : Machine → Machine → Prop) (hrefl : ∀ st, R st st)
    (htrans : ∀ a b c, R a b → R b c → R a c)
    (hrepl : ∀ inner st r st1, I st → plainText inner = true → rbrace ∉ inner →
      rank (spanName inner) < bound → repl (matchText inner) st = .ok (r, st1) →
      I st1 ∧ R st st1 ∧ plainText r = true)
    (s : Str) (hs : CleanBelow rank bound s) :
    ∀ (st : Machine) (r : Str) (st1 : Machine), I st →
      ReplaceAllStringFunc repl s st = .ok (r, st1) → I st1 ∧ R st st1 ∧ plainText r = true := by
  induction hs with
  | literal s hp =>
    intro st r st1 hI h
    rw [ReplaceAllStringFunc_literal repl s st (nextMatch_none_of_plain s hp)] at h
    simp only [Except.ok.injEq, Prod.mk.injEq] at h
    rw [← h.1, ← h.2]
    exact ⟨hI, hrefl st, hp⟩
  | span w inner rest hw hi hr hrank _ ih =>
    intro st r st1 hI h
    rw [ReplaceAllStringFunc_append repl w inner rest st (hasSub_openMark_of_plain w hw) hr] at h
    cases h1 : repl (matchText inner) st with
    | error e => rw [h1] at h; simp at h
    | ok q =>
      obtain ⟨r1, st2⟩ := q
      rw [h1] at h
      simp only at h
      obtain ⟨hI2, hR2, hp2⟩ := hrepl inner st r1 st2 hI hi hr hrank h1
      cases h2 : ReplaceAllStringFunc repl rest st2 with
      | error e => rw [h2] at h; simp at h
      | ok q2 =>
        obtain ⟨r2, st3⟩ := q2
        rw [h2] at h
        simp only [Except.ok.injEq, Prod.mk.injEq] at h
        obtain ⟨hI3, hR3, hp3⟩ := ih st2 r2 st3 hI2 h2
        rw [← h.1, ← h.2]
        exact ⟨hI3, htrans _ _ _ hR2 hR3, plainText_append _ _ (plainText_append _ _ hw hp2) hp3⟩

theorem onMatch_clean (env : Env) (pn : Str)
    (self : Str → Str → Machine → Except Fault (Str × Machine))
    (hself : ∀ name value st r st1, CleanData st.2.data → Clean value →
      self name value st = .ok (r, st1) →
      CleanData st1.2.data ∧ StepFree st.2.data st1.2.data ∧ plainText r = true)
    (inner : Str) (st : Machine) (r : Str) (st1 : Machine) (hI : CleanData st.2.data)
    (hi : plainText inner = true)
    (h : onMatch env self [] pn (matchText inner) st = .ok (r, st1)) :
    CleanData st1.2.data ∧ StepFree st.2.data st1.2.data ∧ plainText r = true := by
  obtain ⟨stack, pr⟩ := st
  unfold onMatch at h
  rw [getPropertyClauseFromMatch_matchText] at h
  cases hl : splitColon (TrimSpace inner) with
  | nil => exact absurd hl (splitColon_ne_nil _)
  | cons name more =>
    rw [hl] at h
    simp only at h
    by_cases hne : name = []
    · rw [if_pos hne] at h
      simp only [Except.ok.injEq, Prod.mk.injEq] at h
      rw [← h.1, ← h.2]
      exact ⟨hI, StepFree_refl _, rfl⟩
    · rw [if_neg hne] at h
      cases hget : pr.resolvePropertyName name with
      | none =>
        rw [hget] at h
        simp only [recheck, hget] at h
        cases more with
        | nil =>
          simp only [Except.ok.injEq, Prod.mk.injEq] at h
          rw [← h.1, ← h.2]
          exact ⟨hI, StepFree_refl _, rfl⟩
        | cons d ds =>
          simp only [Except.ok.injEq, Prod.mk.injEq] at h
          rw [← h.1, ← h.2]
          refine ⟨hI, StepFree_refl _, plainText_segment inner d hi ?_⟩
          rw [hl]
          simp
      | some v =>
        rw [hget] at h
        obtain ⟨cur, hv, hcur⟩ := hI name v hget
        subst hv
        simp only at h
        by_cases hsub : hasSub openMark cur = true
        · rw [if_pos hsub] at h
          by_cases hhas : Stack.has stack name = true
          · rw [if_pos hhas] at h
            simp only [Except.ok.injEq, Prod.mk.injEq] at h
            rw [← h.1, ← h.2]
            exact ⟨hI, StepFree_refl _, rfl⟩
          · rw [if_neg hhas] at h
            cases stack with
            | none => simp at h
            | some S =>
              simp only at h
              cases hr : self name cur (some (name :: S), pr) with
              | error e => rw [hr] at h; simp at h
              | ok q =>
                obtain ⟨r1, stack1, pr1⟩ := q
                rw [hr] at h
                simp only at h
                obtain ⟨hI1, hS1, hp1⟩ := hself name cur (some (name :: S), pr) r1 (stack1, pr1)
                  hI hcur hr
                have hg : Tree.get (pr1.assign [] name (.str r1)).data name = some (.str r1) :=
                  Tree.get_set_same pr1.data name _
                simp only [recheck, PropertiesResolver.resolvePropertyName, hg, Except.ok.injEq,
                  Prod.mk.injEq] at h
                rw [← h.1, ← h.2]
                have hS2 : StepFree pr1.data (pr1.assign [] name (.str r1)).data :=
                  StepFree_set pr1.data name r1 hp1
                exact ⟨CleanData_step hI1 hS2, StepFree_trans hS1 hS2, hp1⟩
        · rw [if_neg hsub] at h
          simp only [Except.ok.injEq, Prod.mk.injEq] at h
          rw [← h.1, ← h.2]
          exact ⟨hI, StepFree_refl _, plain_of_clean _ _ cur hcur (by simpa using hsub)⟩

theorem resolveString_clean (env : Env) :
    ∀ (f : Nat) (pn value : Str) (st : Machine) (r : Str) (st1 : Machine),
      CleanData st.2.data → Clean value → resolveString env f [] pn value st = .ok (r, st1) →
      CleanData st1.2.data ∧ StepFree st.2.data st1.2.data ∧ plainText r = true := by
  intro f
  induction f with
  | zero =>
    intro pn value st r st1 _ _ h
    simp [resolveString] at h
  | succ f ih =>
    intro pn value st r st1 hI hv h
    have ht := usesTemplate_clean _ _ value hv
    by_cases he : st.2.error = none
    · rw [resolveString_plain env f [] pn value st ht he] at h
      exact ReplaceAllStringFunc_clean (fun _ => 0) 1 _ (fun st => CleanData st.2.data)
        (fun a b => StepFree a.2.data b.2.data) (fun _ => StepFree_refl _)
        (fun _ _ _ h1 h2 => StepFree_trans h1 h2)
        (fun inner st r st1 hI hi _ _ h =>
          onMatch_clean env pn _ (fun name value st r st1 h1 h2 h3 => ih name value st r st1 h1 h2 h3)
            inner st r st1 hI hi h)
        value hv st r st1 hI h
    · rw [resolveString_shortCircuit env f [] pn value st ht he] at h
      simp only [Except.ok.injEq, Prod.mk.injEq] at h
      rw [← h.1, ← h.2]
      exact ⟨hI, StepFree_refl _, rfl⟩

theorem visit_clean (env : Env) (sf : Nat)
    (walk : Path → PropertiesResolver → Except Fault PropertiesResolver) (k : Str)
    (pr pr1 : PropertiesResolver) (hI : CleanData pr.data)
    (h : visit env sf walk [] k pr = .ok pr1) :
    CleanData pr1.data ∧ StepFree pr.data pr1.data ∧
      ∀ v, Tree.get pr.data k = some v →
        ∃ r, Tree.get pr1.data k = some (.str r) ∧ plainText r = true := by
  cases hg : Tree.get pr.data k with
  | none =>
    simp only [visit, Tree.at, Option.some_bind, hg, Except.ok.injEq] at h
    rw [← h]
    exact ⟨hI, StepFree_refl _, fun v hv => by simp at hv⟩
  | some v =>
    obtain ⟨s, hv, hs⟩ := hI k v hg
    subst hv
    rw [visit_str_top env sf walk k s pr hg] at h
    cases hr : resolveString env sf [] k s (newStack, pr) with
    | error e => rw [hr] at h; simp at h
    | ok q =>
      obtain ⟨r, stack1, pr2⟩ := q
      rw [hr] at h
      simp only [Except.ok.injEq] at h
      obtain ⟨hI2, hS2, hp⟩ := resolveString_clean env sf k s (newStack, pr) r (stack1, pr2) hI hs hr
      have hS3 : StepFree pr2.data (pr2.assign [] k (.str r)).data := StepFree_set pr2.data k r hp
      rw [← h]
      exact ⟨CleanData_step hI2 hS3, StepFree_trans hS2 hS3,
        fun _ _ => ⟨r, Tree.get_set_same pr2.data k _, hp⟩⟩

theorem visitAll_clean (env : Env) (sf : Nat)
    (walk : Path → PropertiesResolver → Except Fault PropertiesResolver) :
    ∀ (ks : List Str) (pr pr1 : PropertiesResolver), CleanData pr.data →
      visitAll (visit env sf walk []) ks pr = .ok pr1 →
      CleanData pr1.data ∧ StepFree pr.data pr1.data ∧
        ∀ k ∈ ks, ∀ v, Tree.get pr.data k = some v →
          ∃ r, Tree.get pr1.data k = some (.str r) ∧ plainText r = true := by
  intro ks
  induction ks with
  | nil =>
    intro pr pr1 hI h
    simp only [visitAll, Except.ok.injEq] at h
    rw [← h]
    exact ⟨hI, StepFree_refl _, fun k hk => by simp at hk⟩
  | cons k rest ih =>
    intro pr pr1 hI h
    simp only [visitAll] at h
    cases hr : visit env sf walk [] k pr with
    | error e => rw [hr] at h; simp at h
    | ok pr2 =>
      rw [hr] at h
      simp only at h
      obtain ⟨hI2, hS2, hk2⟩ := visit_clean env sf walk k pr pr2 hI hr
      obtain ⟨hI3, hS3, hk3⟩ := ih pr2 pr1 hI2 h
      refine ⟨hI3, StepFree_trans hS2 hS3, ?_⟩
      intro j hj v hv
      rcases List.mem_cons.1 hj with hj | hj
      · subst hj
        obtain ⟨r, hr2, hp⟩ := hk2 v hv
        rcases hS3 j with h4 | h4
        · exact ⟨r, by rw [h4]; exact hr2, hp⟩
        · exact h4
      · rcases hS2 j with h4 | ⟨r, h4, _⟩
        · exact hk3 j hj v (by rw [h4]; exact hv)
        · exact hk3 j hj _ h4

theorem CleanData_of_cleanTree (t : Tree) (h : cleanTree t = true) : CleanData t := by
  intro k v hv
  have hmem := Tree.mem_of_get t k v hv
  unfold cleanTree at h
  rw [List.all_eq_true] at h
  have h1 := h (k, v) hmem
  cases v with
  | str s => exact ⟨s, rfl, cleanBelow_sound _ _ _ s h1⟩
  | seq _ => simp at h1
  | strs _ => simp at h1
  | map _ => simp at h1
  | other _ => simp at h1

theorem Good_of_CleanData (t : Tree) (h : CleanData t) : Good seqOfStrings (.map t) := by
  apply Good.node
  intro k v hv
  obtain ⟨s, hs, _⟩ := h k v hv
  subst hs
  exact Good.leaf _ (fun _ e => Value.noConfusion e) trivial

/-- C11 (amended): for every flat tree of strings in each of which `$` and `{`
occur only as the two characters that open a closed span, the text between the
braces holding no `$` and no `{`, in every visit order (the order of the
entries) and with every engine, `resolvePlaceholdersFromTop` returns, the keys
are those of the tree, and every value of the resulting tree is a string that
holds no `$` and no `{`, hence no span of the placeholder pattern, whether the
error is nil or not. -/
theorem resolved_values_plain (env : Env) (t : Tree) (h : cleanTree t = true) :
    ∃ pr, resolvePlaceholdersFromTop env (fresh t) = .ok pr ∧ pr.data.keys = t.keys ∧
      ∀ k ∈ t.keys, ∃ r, Tree.get pr.data k = some (.str r) ∧ dollar ∉ r ∧ lbrace ∉ r ∧
        hasSub openMark r = false ∧ nextMatch r = none := by
  have hC := CleanData_of_cleanTree t h
  obtain ⟨pr, hrun⟩ := resolvePlaceholdersFromTop_ok env (fresh t) (Good_of_CleanData t hC)
  refine ⟨pr, hrun, ?_, ?_⟩
  · have h1 := resolvePlaceholders_total env (t.length + 1) (depthEntries t + 1) [] (fresh t) t
      (by simp [fresh, Tree.keys]) rfl (by omega)
    unfold resolvePlaceholdersFromTop at hrun
    simp only [fresh] at hrun h1
    rw [hrun] at h1
    exact h1.1
  · intro k hk
    unfold resolvePlaceholdersFromTop at hrun
    rw [resolvePlaceholders_top] at hrun
    obtain ⟨_, _, h3⟩ := visitAll_clean env _ _ _ (fresh t) pr hC hrun
    obtain ⟨v, hv⟩ := get_of_mem_keys t k hk
    obtain ⟨r, hr, hp⟩ := h3 k hk v hv
    obtain ⟨hp1, hp2⟩ := (plainText_iff r).1 hp
    exact ⟨r, hr, hp1, hp2, hasSub_openMark_of_plain r hp, nextMatch_none_of_plain r hp⟩

/-- C11 (amended), witness: a tree with a chain, a default, a missing name and
a cycle. -/
theorem resolved_values_plain_witness :
    cleanTree (tree [("a", .str (ph "b" ++ " and ".toList ++ ph "d:dflt")),
                     ("b", .str (ph "c" ++ ph "missing")), ("c", sv "1"),
                     ("x", .str (ph "x"))]) = true ∧
    ∃ pr, resolvePlaceholdersFromTop rejectingEnv
        (fresh (tree [("a", .str (ph "b" ++ " and ".toList ++ ph "d:dflt")),
                      ("b", .str (ph "c" ++ ph "missing")), ("c", sv "1"),
                      ("x", .str (ph "x"))])) = .ok pr ∧
      pr.data.keys = (tree [("a", .str (ph "b" ++ " and ".toList ++ ph "d:dflt")),
                      ("b", .str (ph "c" ++ ph "missing")), ("c", sv "1"),
                      ("x", .str (ph "x"))]).keys ∧
      ∀ k ∈ (tree [("a", .str (ph "b" ++ " and ".toList ++ ph "d:dflt")),
                      ("b", .str (ph "c" ++ ph "missing")), ("c", sv "1"),
                      ("x", .str (ph "x"))]).keys,
        ∃ r, Tree.get pr.data k = some (.str r) ∧ dollar ∉ r ∧ lbrace ∉ r ∧
          hasSub openMark r = false ∧ nextMatch r = none :=
  ⟨rfl, resolved_values_plain rejectingEnv _ rfl⟩

/-- C11, counterexample: substituted text is not scanned again.  The value of
`url` is the span of `host` with, as default, the span of `fallback`; the run
returns a nil error and leaves in `url` the span of `fallback`, a key of the
tree that holds a text without placeholder.  The value of `a` is a `$`
followed by the span of `b`, and `b` holds the name `c` between braces; the run
returns a nil error and leaves in `a` the span of `c`, a key that holds `1`. -/
theorem span_left_after_resolution :
    resolvePlaceholdersFromTop rejectingEnv
        (fresh (tree [("url", .str (matchText ("host:".toList ++ openMark ++ "fallback".toList) ++
                        [rbrace])),
                      ("fallback", sv "localhost")])) =
      .ok (fresh (tree [("url", .str (ph "fallback")), ("fallback", sv "localhost")])) ∧
    resolvePlaceholdersFromTop rejectingEnv
        (fresh (tree [("a", .str (dollar :: ph "b")),
                      ("b", .str (lbrace :: "c".toList ++ [rbrace])), ("c", sv "1")])) =
      .ok (fresh (tree [("a", .str (ph "c")),
                        ("b", .str (lbrace :: "c".toList ++ [rbrace])), ("c", sv "1")])) ∧
    nextMatch (ph "fallback") = some ([], "fallback".toList, []) ∧
    hasSub openMark "localhost".toList = false ∧
    nextMatch (ph "c") = some ([], "c".toList, []) ∧
    hasSub openMark "1".toList = false :=
  ⟨rfl, rfl, by decide, by decide, by decide, by decide⟩

/-! ## The resolved text of a value -/

theorem substAux_fuel (f : Str → Str) :
    ∀ (n m : Nat) (s : Str), s.length ≤ n → s.length ≤ m → substAux f n s = substAux f m s := by
  intro n
  induction n with
  | zero =>
    intro m s hn _
    have : s = [] := List.length_eq_zero.mp (Nat.le_zero.mp hn)
    subst this
    cases m <;> simp [substAux, nextMatch, findOpen]
  | succ n ih =>
    intro m s hn hm
    cases m with
    | zero =>
      have : s = [] := List.length_eq_zero.mp (Nat.le_zero.mp hm)
      subst this
      simp [substAux, nextMatch, findOpen]
    | succ m =>
      simp only [substAux]
      cases hnm : nextMatch s with
      | none => rfl
      | some p =>
        obtain ⟨a, i, b⟩ := p
        have hlen := nextMatch_length s a i b hnm
        simp only
        rw [ih m b (by omega) (by omega)]

theorem substSpans_literal (f : Str → Str) (s : Str) (h : nextMatch s = none) :
    substSpans f s = s := by
  unfold substSpans
  cases hl : s.length with
  | zero => rfl
  | succ n => simp only [substAux, h]

theorem substSpans_append (f : Str → Str) (w inner rest : Str)
    (hw : hasSub openMark w = false) (hi : rbrace ∉ inner) :
    substSpans f (w ++ matchText inner ++ rest) =
      w ++ f (matchText inner) ++ substSpans f rest := by
  unfold substSpans
  have hm := nextMatch_append w inner rest hw hi
  have hlen := nextMatch_length _ w inner rest hm
  cases hl : (w ++ matchText inner ++ rest).length with
  | zero => omega
  | succ n =>
    simp only [substAux, hm]
    rw [substAux_fuel f n rest.length rest (by omega) (le_refl _)]

theorem collectAux_fuel (g : Str → List Str) :
    ∀ (n m : Nat) (s : Str), s.length ≤ n → s.length ≤ m →
      collectAux g n s = collectAux g m s := by
  intro n
  induction n with
  | zero =>
    intro m s hn _
    have : s = [] := List.length_eq_zero.mp (Nat.le_zero.mp hn)
    subst this
    cases m <;> simp [collectAux, nextMatch, findOpen]
  | succ n ih =>
    intro m s hn hm
    cases m with
    | zero =>
      have : s = [] := List.length_eq_zero.mp (Nat.le_zero.mp hm)
      subst this
      simp [collectAux, nextMatch, findOpen]
    | succ m =>
      simp only [collectAux]
      cases hnm : nextMatch s with
      | none => rfl
      | some p =>
        obtain ⟨a, i, b⟩ := p
        have hlen := nextMatch_length s a i b hnm
        simp only
        rw [ih m b (by omega) (by omega)]

theorem collectSpans_literal (g : Str → List Str) (s : Str) (h : nextMatch s = none) :
    collectSpans g s = [] := by
  unfold collectSpans
  cases hl : s.length with
  | zero => rfl
  | succ n => simp only [collectAux, h]

theorem collectSpans_append (g : Str → List Str) (w inner rest : Str)
    (hw : hasSub openMark w = false) (hi : rbrace ∉ inner) :
    collectSpans g (w ++ matchText inner ++ rest) =
      g (matchText inner) ++ collectSpans g rest := by
  unfold collectSpans
  have hm := nextMatch_append w inner rest hw hi
  have hlen := nextMatch_length _ w inner rest hm
  cases hl : (w ++ matchText inner ++ rest).length with
  | zero => omega
  | succ n =>
    simp only [collectAux, hm]
    rw [collectAux_fuel g n rest.length rest (by omega) (le_refl _)]

/-- Two replacements that agree on the spans of a clean text give the same
text. -/
theorem substSpans_congr (rank : Str → Nat) (bound : Nat) (f1 f2 : Str → Str) (s : Str)
    (hs : CleanBelow rank bound s)
    (h : ∀ inner, rank (spanName inner) < bound → f1 (matchText inner) = f2 (matchText inner)) :
    substSpans f1 s = substSpans f2 s := by
  induction hs with
  | literal s hp =>
    rw [substSpans_literal f1 s (nextMatch_none_of_plain s hp),
      substSpans_literal f2 s (nextMatch_none_of_plain s hp)]
  | span w inner rest hw hi hr hrank _ ih =>
    rw [substSpans_append f1 w inner rest (hasSub_openMark_of_plain w hw) hr,
      substSpans_append f2 w inner rest (hasSub_openMark_of_plain w hw) hr, ih, h inner hrank]

theorem denote_plain (look : Str → Option Value) (n : Nat) (s : Str)
    (h : plainText s = true) : denote look n s = s := by
  cases n with
  | zero => rfl
  | succ n => exact substSpans_literal _ s (nextMatch_none_of_plain s h)

theorem spanName_eq (inner name : Str) (more : List Str)
    (h : splitColon (TrimSpace inner) = name :: more) : spanName inner = name := by
  simp [spanName, h]

/-- One more level of references changes nothing once the depth reaches the
rank bound of the text. -/
theorem denote_succ (look : Str → Option Value) (rank : Str → Nat) (M : Nat)
    (hlook : ∀ k s, look k = some (.str s) → rank k < M → CleanBelow rank (rank k) s) :
    ∀ (n : Nat) (s : Str) (b : Nat), CleanBelow rank b s → b ≤ n → b ≤ M →
      denote look (n + 1) s = denote look n s := by
  intro n
  induction n with
  | zero =>
    intro s b hs hb _
    cases hs with
    | literal _ hp => exact denote_plain look 1 s hp
    | span w inner rest _ _ _ hrank _ => omega
  | succ n ih =>
    intro s b hs hb hM
    show substSpans (spanValue look (denote look (n + 1))) s =
      substSpans (spanValue look (denote look n)) s
    apply substSpans_congr rank b _ _ s hs
    intro inner hrank
    unfold spanValue
    rw [getPropertyClauseFromMatch_matchText]
    cases hl : splitColon (TrimSpace inner) with
    | nil => rfl
    | cons name more =>
      simp only
      by_cases hne : name = []
      · rw [if_pos hne, if_pos hne]
      · rw [if_neg hne, if_neg hne]
        cases hk : look name with
        | none => rfl
        | some v =>
          cases v with
          | str cur =>
            simp only
            by_cases hsub : hasSub openMark cur = true
            · rw [if_pos hsub, if_pos hsub]
              rw [spanName_eq inner name more hl] at hrank
              exact ih cur (rank name) (hlook name cur hk (by omega)) (by omega) (by omega)
            · rw [if_neg hsub, if_neg hsub]
          | seq _ => rfl
          | strs _ => rfl
          | map _ => rfl
          | other _ => rfl

theorem denote_stable (look : Str → Option Value) (rank : Str → Nat)
    (hlook : ∀ k s, look k = some (.str s) → CleanBelow rank (rank k) s)
    (s : Str) (b : Nat) (hs : CleanBelow rank b s) :
    ∀ (d n : Nat), b ≤ n → denote look (n + d) s = denote look n s := by
  intro d
  induction d with
  | zero => intro n _; rfl
  | succ d ih =>
    intro n hb
    rw [← Nat.add_assoc, denote_succ look rank b (fun k s h _ => hlook k s h) (n + d) s b hs
      (by omega) (le_refl _)]
    exact ih n hb

/-- The resolved text of a clean value is the value with every span replaced
by what it stands for. -/
theorem denote_unfold (look : Str → Option Value) (rank : Str → Nat) (N : Nat)
    (hlook : ∀ k s, look k = some (.str s) → rank k < N → CleanBelow rank (rank k) s)
    (s : Str) (b : Nat) (hs : CleanBelow rank b s) (hb : b ≤ N) :
    denote look N s = substSpans (spanValue look (denote look N)) s :=
  (denote_succ look rank N hlook N s b hs hb hb).symm

/-! ## Resolution of acyclic clean trees -/

theorem perm_advance {m m1 m2 e1 e2 F1 F2 : List Str} (h1 : m1.Perm (m ++ e1 ++ F1))
    (h2 : m2.Perm (m1 ++ e2 ++ F2)) : m2.Perm (m ++ (e1 ++ e2) ++ (F2 ++ F1)) := by
  rw [List.perm_iff_count] at *
  intro a
  have := h1 a
  have := h2 a
  simp only [List.count_append] at *
  omega

theorem Advance_refl (look : Str → Option Value) (rank : Str → Nat) (b : Nat)
    (S R msgs : List Str) : Advance look rank b [] S R msgs S R msgs :=
  ⟨[], rfl, by simp, fun _ h => h, fun _ h => Or.inl h, fun _ h => by simp at h⟩

theorem Advance_trans {look : Str → Option Value} {rank : Str → Nat} {b : Nat}
    {e1 e2 S R m S1 R1 m1 S2 R2 m2 : List Str}
    (h1 : Advance look rank b e1 S R m S1 R1 m1)
    (h2 : Advance look rank b e2 S1 R1 m1 S2 R2 m2) :
    Advance look rank b (e1 ++ e2) S R m S2 R2 m2 := by
  obtain ⟨n1, hR1, hp1, hs1, hg1, hn1⟩ := h1
  obtain ⟨n2, hR2, hp2, hs2, hg2, hn2⟩ := h2
  refine ⟨n2 ++ n1, by rw [hR2, hR1, List.append_assoc], ?_, fun n h => hs2 n (hs1 n h), ?_, ?_⟩
  · rw [List.flatMap_append]
    exact perm_advance hp1 hp2
  · intro n h
    rcases hg2 n h with h3 | h3
    · rcases hg1 n h3 with h4 | h4
      · exact Or.inl h4
      · right
        rw [hR2]
        exact List.mem_append_right _ h4
    · exact Or.inr h3
  · intro n h
    rcases List.mem_append.1 h with h3 | h3
    · exact ⟨fun hS => (hn2 n h3).1 (hs1 n hS), (hn2 n h3).2⟩
    · exact hn1 n h3

theorem Resolved_not_mem_of_open {look : Str → Option Value} {val : Str → Str} {R : List Str}
    {data : Tree} (h : Resolved look val R data) (name cur : Str)
    (hget : Tree.get data name = some (.str cur)) (hsub : hasSub openMark cur = true) :
    name ∉ R ∧ look name = some (.str cur) := by
  by_cases hR : name ∈ R
  · obtain ⟨s, _, hg, hp⟩ := (h name).1 hR
    rw [hg] at hget
    simp only [Option.some.injEq, Value.str.injEq] at hget
    rw [hget] at hp
    rw [hasSub_openMark_of_plain cur hp] at hsub
    simp at hsub
  · exact ⟨hR, by rw [← (h name).2 hR]; exact hget⟩

theorem Resolved_set {look : Str → Option Value} {val : Str → Str} {R : List Str}
    {data : Tree} (h : Resolved look val R data) (name cur : Str)
    (hlook : look name = some (.str cur)) (hp : plainText (val cur) = true) :
    Resolved look val (name :: R) (Tree.set data name (.str (val cur))) := by
  intro k
  by_cases hk : k = name
  · subst hk
    exact ⟨fun _ => ⟨cur, hlook, Tree.get_set_same data k _, hp⟩, fun hn => by simp at hn⟩
  · rw [Tree.get_set_other data name k _ hk]
    refine ⟨fun hm => (h k).1 ?_, fun hn => (h k).2 ?_⟩
    · rcases List.mem_cons.1 hm with h1 | h1
      · exact absurd h1 hk
      · exact h1
    · exact fun h1 => hn (List.mem_cons_of_mem _ h1)

theorem onMatch_acyclic (env : Env) (look : Str → Option Value) (rank : Str → Nat)
    (val : Str → Str) (pn : Str) (b : Nat)
    (hclean : ∀ k s, look k = some (.str s) → rank k < b → CleanBelow rank (rank k) s)
    (hflat : ∀ k v, look k = some v → rank k < b → ∃ s, v = .str s)
    (hval : ∀ s, plainText s = true → val s = s)
    (self : Str → Str → Machine → Except Fault (Str × Machine))
    (hself : ∀ name cur S R pr r st1, look name = some (.str cur) → rank name < b →
      Resolved look val R pr.data → R.Nodup → pr.error = none →
      (∀ n ∈ S, n ∈ R ∨ rank name ≤ rank n) →
      self name cur (some S, pr) = .ok (r, st1) →
      Settles look rank val (rank name) (val cur) (ownMsgs look name cur) S R pr r st1)
    (inner : Str) (S R : List Str) (pr : PropertiesResolver) (r : Str) (st1 : Machine)
    (hi : plainText inner = true) (hrank : rank (spanName inner) < b)
    (hres : Resolved look val R pr.data) (hnd : R.Nodup) (he : pr.error = none)
    (hstack : ∀ n ∈ S, n ∈ R ∨ b ≤ rank n)
    (h : onMatch env self [] pn (matchText inner) (some S, pr) = .ok (r, st1)) :
    Settles look rank val b (spanValue look val (matchText inner))
      (spanMsgs look pn (matchText inner)) S R pr r st1 := by
  unfold onMatch at h
  unfold spanValue spanMsgs
  rw [getPropertyClauseFromMatch_matchText] at h ⊢
  cases hl : splitColon (TrimSpace inner) with
  | nil => exact absurd hl (splitColon_ne_nil _)
  | cons name more =>
    rw [hl] at h
    rw [spanName_eq inner name more hl] at hrank
    simp only at h ⊢
    by_cases hne : name = []
    · rw [if_pos hne] at h
      rw [if_pos hne, if_pos hne]
      simp only [Except.ok.injEq, Prod.mk.injEq] at h
      rw [← h.1, ← h.2]
      exact ⟨rfl, rfl, S, R, _, rfl, hres, hnd, he, [], rfl, by simp [PropertiesResolver.addMessage],
        fun _ hn => hn, fun _ hn => Or.inl hn, fun _ hn => by simp at hn⟩
    · rw [if_neg hne] at h
      rw [if_neg hne, if_neg hne]
      cases hget : pr.resolvePropertyName name with
      | none =>
        have hget2 : Tree.get pr.data name = none := hget
        have hnR : name ∉ R := by
          intro hR
          obtain ⟨s, _, hg, _⟩ := (hres name).1 hR
          rw [hg] at hget2
          simp at hget2
        have hlk : look name = none := by rw [← (hres name).2 hnR]; exact hget2
        rw [hget] at h
        simp only [recheck, hget] at h
        rw [hlk]
        cases more with
        | nil =>
          simp only [Except.ok.injEq, Prod.mk.injEq] at h
          rw [← h.1, ← h.2]
          exact ⟨rfl, rfl, S, R, _, rfl, hres, hnd, he, [], rfl,
            by simp [PropertiesResolver.addMessage, UnresolvedPropertyResult],
            fun _ hn => hn, fun _ hn => Or.inl hn, fun _ hn => by simp at hn⟩
        | cons d ds =>
          simp only [Except.ok.injEq, Prod.mk.injEq] at h
          rw [← h.1, ← h.2]
          refine ⟨rfl, plainText_segment inner d hi (by rw [hl]; simp), S, R, pr, rfl, hres, hnd,
            he, ?_⟩
          simpa using Advance_refl look rank b S R pr.messages
      | some v =>
        have hget2 : Tree.get pr.data name = some v := hget
        rw [hget] at h
        have hstr : ∃ cur, v = .str cur := by
          by_cases hR : name ∈ R
          · obtain ⟨s, _, hg, _⟩ := (hres name).1 hR
            rw [hg] at hget2
            simp only [Option.some.injEq] at hget2
            exact ⟨_, hget2.symm⟩
          · rw [(hres name).2 hR] at hget2
            exact hflat name v hget2 hrank
        obtain ⟨cur, hv⟩ := hstr
        subst hv
        simp only at h
        by_cases hsub : hasSub openMark cur = true
        · rw [if_pos hsub] at h
          obtain ⟨hnR, hlk⟩ := Resolved_not_mem_of_open hres name cur hget2 hsub
          have hnS : name ∉ S := by
            intro hS
            rcases hstack name hS with h1 | h1
            · exact hnR h1
            · omega
          have hhas : Stack.has (some S) name = false := by simp [Stack.has, hnS]
          rw [hhas] at h
          simp only [Bool.false_eq_true, if_false] at h
          cases hr : self name cur (some (name :: S), pr) with
          | error e => rw [hr] at h; simp at h
          | ok q =>
            obtain ⟨r1, st2⟩ := q
            rw [hr] at h
            obtain ⟨hr1, hp1, S1, R1, pr1, hst2, hres1, hnd1, he1, newR, hR1, hperm, hsub1, hg1,
              hnew⟩ := hself name cur (name :: S) R pr r1 st2 hlk hrank hres hnd he
                (by
                  intro n hn
                  rcases List.mem_cons.1 hn with h1 | h1
                  · right; rw [h1]
                  · rcases hstack n h1 with h2 | h2
                    · exact Or.inl h2
                    · right; omega) hr
            subst hst2
            simp only at h
            have hg : Tree.get (pr1.assign [] name (.str r1)).data name = some (.str r1) :=
              Tree.get_set_same pr1.data name _
            simp only [recheck, PropertiesResolver.resolvePropertyName, hg, Except.ok.injEq,
              Prod.mk.injEq] at h
            rw [← h.1, ← h.2, hlk]
            simp only [hsub, if_true]
            have hnR1 : name ∉ R1 := by
              rw [hR1]
              intro hm
              rcases List.mem_append.1 hm with h1 | h1
              · exact (hnew name h1).1 (List.mem_cons_self _ _)
              · exact hnR h1
            refine ⟨hr1, hp1, S1, name :: R1, _, rfl, ?_, List.nodup_cons.2 ⟨hnR1, hnd1⟩, he1,
              name :: newR, by rw [hR1]; rfl, ?_, fun n hn => hsub1 n (List.mem_cons_of_mem _ hn),
              ?_, ?_⟩
            · show Resolved look val (name :: R1) (Tree.set pr1.data name (.str r1))
              rw [hr1]
              exact Resolved_set hres1 name cur hlk (by rw [← hr1]; exact hp1)
            · show pr1.messages.Perm _
              have : ownOf look name = ownMsgs look name cur := by simp [ownOf, hlk]
              simp only [List.flatMap_cons, this, List.append_nil]
              simpa [List.append_assoc] using hperm
            · intro n hn
              rcases hg1 n hn with h1 | h1
              · rcases List.mem_cons.1 h1 with h2 | h2
                · right; rw [h2]; exact List.mem_cons_self _ _
                · exact Or.inl h2
              · exact Or.inr (List.mem_cons_of_mem _ h1)
            · intro n hn
              rcases List.mem_cons.1 hn with h1 | h1
              · rw [h1]; exact ⟨hnS, hrank⟩
              · exact ⟨fun hS => (hnew n h1).1 (List.mem_cons_of_mem _ hS),
                  lt_trans (hnew n h1).2 hrank⟩
        · rw [if_neg hsub] at h
          simp only [Except.ok.injEq, Prod.mk.injEq] at h
          rw [← h.1, ← h.2]
          have hsub2 : hasSub openMark cur = false := by simpa using hsub
          by_cases hR : name ∈ R
          · obtain ⟨s, hlk, hg, hp⟩ := (hres name).1 hR
            rw [hg] at hget2
            simp only [Option.some.injEq, Value.str.injEq] at hget2
            rw [hlk]
            simp only
            have hexp : (if hasSub openMark s = true then val s else s) = cur := by
              by_cases hs : hasSub openMark s = true
              · rw [if_pos hs]; exact hget2
              · rw [if_neg hs]
                have hps := plain_of_clean _ _ s (hclean name s hlk hrank) (by simpa using hs)
                rw [← hget2, hval s hps]
            rw [hexp]
            refine ⟨rfl, by rw [← hget2]; exact hp, S, R, pr, rfl, hres, hnd, he, ?_⟩
            simpa using Advance_refl look rank b S R pr.messages
          · have hlk : look name = some (.str cur) := by rw [← (hres name).2 hR]; exact hget2
            rw [hlk]
            simp only [hsub2, Bool.false_eq_true, if_false]
            refine ⟨rfl, plain_of_clean _ _ cur (hclean name cur hlk hrank) hsub2, S, R, pr, rfl,
              hres,
              hnd, he, ?_⟩
            simpa using Advance_refl look rank b S R pr.messages

theorem ReplaceAllStringFunc_acyclic (look : Str → Option Value) (rank : Str → Nat)
    (val : Str → Str) (pn : Str) (b : Nat)
    (repl : Str → Machine → Except Fault (Str × Machine))
    (hrepl : ∀ inner S R pr r st1, plainText inner = true → rank (spanName inner) < b →
      Resolved look val R pr.data → R.Nodup → pr.error = none →
      (∀ n ∈ S, n ∈ R ∨ b ≤ rank n) → repl (matchText inner) (some S, pr) = .ok (r, st1) →
      Settles look rank val b (spanValue look val (matchText inner))
        (spanMsgs look pn (matchText inner)) S R pr r st1)
    (s : Str) (hs : CleanBelow rank b s) :
    ∀ (S R : List Str) (pr : PropertiesResolver) (r : Str) (st1 : Machine),
      Resolved look val R pr.data → R.Nodup → pr.error = none →
      (∀ n ∈ S, n ∈ R ∨ b ≤ rank n) →
      ReplaceAllStringFunc repl s (some S, pr) = .ok (r, st1) →
      Settles look rank val b (substSpans (spanValue look val) s) (ownMsgs look pn s) S R pr r
        st1 := by
  induction hs with
  | literal s hp =>
    intro S R pr r st1 hres hnd he hstack h
    have hm := nextMatch_none_of_plain s hp
    rw [ReplaceAllStringFunc_literal repl s _ hm] at h
    simp only [Except.ok.injEq, Prod.mk.injEq] at h
    rw [← h.1, ← h.2, substSpans_literal _ s hm]
    unfold ownMsgs
    rw [collectSpans_literal _ s hm]
    exact ⟨rfl, hp, S, R, pr, rfl, hres, hnd, he, Advance_refl look rank b S R pr.messages⟩
  | span w inner rest hw hi hr hrank _ ih =>
    intro S R pr r st1 hres hnd he hstack h
    have hw2 := hasSub_openMark_of_plain w hw
    rw [ReplaceAllStringFunc_append repl w inner rest _ hw2 hr] at h
    rw [substSpans_append _ w inner rest hw2 hr]
    unfold ownMsgs
    rw [collectSpans_append _ w inner rest hw2 hr]
    cases h1 : repl (matchText inner) (some S, pr) with
    | error e => rw [h1] at h; simp at h
    | ok q =>
      obtain ⟨r1, st2⟩ := q
      rw [h1] at h
      simp only at h
      obtain ⟨hr1, hp1, S1, R1, pr1, hst2, hres1, hnd1, he1, hadv1⟩ :=
        hrepl inner S R pr r1 st2 hi hrank hres hnd he hstack h1
      subst hst2
      cases h2 : ReplaceAllStringFunc repl rest (some S1, pr1) with
      | error e => rw [h2] at h; simp at h
      | ok q2 =>
        obtain ⟨r2, st3⟩ := q2
        rw [h2] at h
        simp only [Except.ok.injEq, Prod.mk.injEq] at h
        have hstack1 : ∀ n ∈ S1, n ∈ R1 ∨ b ≤ rank n := by
          obtain ⟨newR, hR1, _, _, hg, _⟩ := hadv1
          intro n hn
          rcases hg n hn with h3 | h3
          · rcases hstack n h3 with h4 | h4
            · left; rw [hR1]; exact List.mem_append_right _ h4
            · exact Or.inr h4
          · exact Or.inl h3
        obtain ⟨hr2, hp2, S2, R2, pr2, hst3, hres2, hnd2, he2, hadv2⟩ :=
          ih S1 R1 pr1 r2 st3 hres1 hnd1 he1 hstack1 h2
        rw [← h.1, ← h.2, hr1, hr2]
        refine ⟨rfl, ?_, S2, R2, pr2, hst3, hres2, hnd2, he2, Advance_trans hadv1 hadv2⟩
        rw [← hr1, ← hr2]
        exact plainText_append _ _ (plainText_append _ _ hw hp1) hp2

theorem resolveString_acyclic (env : Env) (look : Str → Option Value) (rank : Str → Nat)
    (N : Nat)
    (hclean : ∀ k s, look k = some (.str s) → rank k < N → CleanBelow rank (rank k) s)
    (hflat : ∀ k v, look k = some v → rank k < N → ∃ s, v = .str s) :
    ∀ (f : Nat) (pn s : Str) (b : Nat) (S R : List Str) (pr : PropertiesResolver) (r : Str)
      (st1 : Machine), CleanBelow rank b s → b ≤ N →
      Resolved look (denote look N) R pr.data → R.Nodup → pr.error = none →
      (∀ n ∈ S, n ∈ R ∨ b ≤ rank n) →
      resolveString env f [] pn s (some S, pr) = .ok (r, st1) →
      Settles look rank (denote look N) b (denote look N s) (ownMsgs look pn s) S R pr r st1 := by
  intro f
  induction f with
  | zero =>
    intro pn s b S R pr r st1 _ _ _ _ _ _ h
    simp [resolveString] at h
  | succ f ih =>
    intro pn s b S R pr r st1 hs hb hres hnd he hstack h
    rw [resolveString_plain env f [] pn s _ (usesTemplate_clean _ _ s hs) he] at h
    rw [denote_unfold look rank N hclean s b hs hb]
    apply ReplaceAllStringFunc_acyclic look rank (denote look N) pn b _ _ s hs S R pr r st1 hres
      hnd he hstack h
    intro inner S0 R0 pr0 r0 st0 hi hrank hres0 hnd0 he0 hstack0 h0
    apply onMatch_acyclic env look rank (denote look N) pn b
      (fun k s hk hr => hclean k s hk (by omega)) (fun k v hk hr => hflat k v hk (by omega))
      (fun s hp => denote_plain look N s hp) _ _ inner S0 R0 pr0 r0 st0 hi hrank hres0 hnd0 he0
      hstack0 h0
    intro name cur S2 R2 pr2 r2 st2 hlk hrk hres2 hnd2 he2 hstack2 h2
    exact ih name cur (rank name) S2 R2 pr2 r2 st2 (hclean name cur hlk (by omega)) (by omega)
      hres2 hnd2
      he2 hstack2 h2

theorem perm_visit {m m2 e Fn FR : List Str} (h1 : m2.Perm (m ++ e ++ Fn)) (h2 : m.Perm FR) :
    m2.Perm (e ++ (Fn ++ FR)) := by
  rw [List.perm_iff_count] at *
  intro a
  have := h1 a
  have := h2 a
  simp only [List.count_append] at *
  omega

theorem visit_acyclic (env : Env) (look : Str → Option Value) (rank : Str → Nat) (N : Nat)
    (hclean : ∀ k s, look k = some (.str s) → CleanBelow rank (rank k) s)
    (hflat : ∀ k v, look k = some v → rank k < N → ∃ s, v = .str s) (sf : Nat)
    (walk : Path → PropertiesResolver → Except Fault PropertiesResolver) (k s : Str)
    (hk : look k = some (.str s)) (hkN : rank k ≤ N) (R : List Str)
    (pr pr1 : PropertiesResolver) (hW : Walked look (denote look N) R pr)
    (h : visit env sf walk [] k pr = .ok pr1) :
    ∃ R1, Walked look (denote look N) R1 pr1 ∧ k ∈ R1 ∧ ∀ n ∈ R, n ∈ R1 := by
  obtain ⟨hres, hnd, he, hmsg⟩ := hW
  by_cases hR : k ∈ R
  · obtain ⟨s1, hlk, hg, hp⟩ := (hres k).1 hR
    rw [visit_str_top env sf walk k _ pr hg] at h
    cases sf with
    | zero => simp [resolveString] at h
    | succ f =>
      rw [resolveString_literal env f [] k _ (newStack, pr)
        (usesTemplate_clean (fun _ => 0) 1 _ (CleanBelow.literal _ hp)) he
        (nextMatch_none_of_plain _ hp)] at h
      simp only [Except.ok.injEq] at h
      have hpr : pr.assign [] k (.str (denote look N s1)) = pr := by
        rw [assign_top, Tree.set_self pr.data k _ hg]
      rw [hpr] at h
      rw [← h]
      exact ⟨R, ⟨hres, hnd, he, hmsg⟩, hR, fun _ hn => hn⟩
  · have hg : Tree.get pr.data k = some (.str s) := by rw [(hres k).2 hR]; exact hk
    rw [visit_str_top env sf walk k s pr hg] at h
    cases hr : resolveString env sf [] k s (newStack, pr) with
    | error e => rw [hr] at h; simp at h
    | ok q =>
      obtain ⟨r, st2⟩ := q
      rw [hr] at h
      obtain ⟨hr1, hp1, S1, R1, pr2, hst2, hres1, hnd1, he1, newR, hR1, hperm, _, _, hnew⟩ :=
        resolveString_acyclic env look rank N (fun j t hj _ => hclean j t hj) hflat sf k s
          (rank k) [] R pr r st2
          (hclean k s hk) hkN hres hnd he (fun _ hn => by simp at hn) hr
      subst hst2
      simp only [Except.ok.injEq] at h
      have hnR1 : k ∉ R1 := by
        rw [hR1]
        intro hm
        rcases List.mem_append.1 hm with h1 | h1
        · have := (hnew k h1).2
          omega
        · exact hR h1
      rw [← h]
      refine ⟨k :: R1, ⟨?_, List.nodup_cons.2 ⟨hnR1, hnd1⟩, he1, ?_⟩, List.mem_cons_self _ _, ?_⟩
      · show Resolved look (denote look N) (k :: R1) (Tree.set pr2.data k (.str r))
        rw [hr1]
        exact Resolved_set hres1 k s hk (by rw [← hr1]; exact hp1)
      · show pr2.messages.Perm _
        have : ownOf look k = ownMsgs look k s := by simp [ownOf, hk]
        rw [List.flatMap_cons, this, hR1, List.flatMap_append]
        exact perm_visit hperm hmsg
      · intro n hn
        rw [hR1]
        exact List.mem_cons_of_mem _ (List.mem_append_right _ hn)

theorem visitAll_acyclic (env : Env) (look : Str → Option Value) (rank : Str → Nat) (N : Nat)
    (hclean : ∀ k s, look k = some (.str s) → CleanBelow rank (rank k) s)
    (hflat : ∀ k v, look k = some v → rank k < N → ∃ s, v = .str s) (sf : Nat)
    (walk : Path → PropertiesResolver → Except Fault PropertiesResolver) :
    ∀ (ks : List Str), (∀ k ∈ ks, (∃ s, look k = some (.str s)) ∧ rank k ≤ N) →
      ∀ (R : List Str) (pr pr1 : PropertiesResolver), Walked look (denote look N) R pr →
      visitAll (visit env sf walk []) ks pr = .ok pr1 →
      ∃ R1, Walked look (denote look N) R1 pr1 ∧ (∀ k ∈ ks, k ∈ R1) ∧ ∀ n ∈ R, n ∈ R1 := by
  intro ks
  induction ks with
  | nil =>
    intro _ R pr pr1 hW h
    simp only [visitAll, Except.ok.injEq] at h
    rw [← h]
    exact ⟨R, hW, fun _ hk => by simp at hk, fun _ hn => hn⟩
  | cons k rest ih =>
    intro hks R pr pr1 hW h
    simp only [visitAll] at h
    cases hr : visit env sf walk [] k pr with
    | error e => rw [hr] at h; simp at h
    | ok pr2 =>
      rw [hr] at h
      simp only at h
      obtain ⟨⟨s, hk⟩, hkN⟩ := hks k (List.mem_cons_self _ _)
      obtain ⟨R2, hW2, hk2, hsub2⟩ :=
        visit_acyclic env look rank N hclean hflat sf walk k s hk hkN R pr pr2 hW hr
      obtain ⟨R3, hW3, hk3, hsub3⟩ :=
        ih (fun j hj => hks j (List.mem_cons_of_mem _ hj)) R2 pr2 pr1 hW2 h
      refine ⟨R3, hW3, ?_, fun n hn => hsub3 n (hsub2 n hn)⟩
      intro j hj
      rcases List.mem_cons.1 hj with h1 | h1
      · rw [h1]; exact hsub3 k hk2
      · exact hk3 j h1

theorem flat_of_acyclicTree (rank : Str → Nat) (t : Tree) (h : acyclicTree rank t = true) :
    ∀ k v, Tree.get t k = some v → ∃ s, v = .str s ∧ CleanBelow rank (rank k) s := by
  intro k v hv
  have hmem := Tree.mem_of_get t k v hv
  unfold acyclicTree at h
  rw [List.all_eq_true] at h
  have h1 := h (k, v) hmem
  cases v with
  | str s => exact ⟨s, rfl, cleanBelow_sound _ _ _ s h1⟩
  | seq _ => simp at h1
  | strs _ => simp at h1
  | map _ => simp at h1
  | other _ => simp at h1

/-- The run on an acyclic clean tree: it returns, with a nil error, the keys
of the tree, under every key the resolved text of its value, and the
diagnostics of all the keys in some order. -/
theorem acyclic_run (env : Env) (rank : Str → Nat) (t : Tree) (N : Nat)
    (hnd : t.keys.Nodup) (hac : acyclicTree rank t = true) (hN : ∀ k ∈ t.keys, rank k ≤ N) :
    ∃ pr, resolvePlaceholdersFromTop env (fresh t) = .ok pr ∧ pr.error = none ∧
      pr.data.keys = t.keys ∧
      (∀ k s, Tree.get t k = some (.str s) →
        Tree.get pr.data k = some (.str (denote (Tree.get t) N s))) ∧
      pr.messages.Perm (t.keys.flatMap (ownOf (Tree.get t))) := by
  have hfc := flat_of_acyclicTree rank t hac
  have hflat : ∀ k v, Tree.get t k = some v → ∃ s, v = .str s :=
    fun k v hv => (hfc k v hv).imp (fun _ h => h.1)
  have hclean : ∀ k s, Tree.get t k = some (.str s) → CleanBelow rank (rank k) s := by
    intro k s hs
    obtain ⟨s1, h1, h2⟩ := hfc k _ hs
    simp only [Value.str.injEq] at h1
    rw [h1]
    exact h2
  have hgood : Good seqOfStrings (.map t) := by
    apply Good.node
    intro k v hv
    obtain ⟨s, hs⟩ := hflat k v hv
    subst hs
    exact Good.leaf _ (fun _ e => Value.noConfusion e) trivial
  obtain ⟨pr, hrun⟩ := resolvePlaceholdersFromTop_ok env (fresh t) hgood
  have hkeys : pr.data.keys = t.keys := by
    have h1 := resolvePlaceholders_total env (t.length + 1) (depthEntries t + 1) [] (fresh t) t
      (by simp [fresh, Tree.keys]) rfl (by omega)
    unfold resolvePlaceholdersFromTop at hrun
    simp only [fresh] at hrun h1
    rw [hrun] at h1
    exact h1.1
  have hrun2 := hrun
  unfold resolvePlaceholdersFromTop at hrun2
  rw [resolvePlaceholders_top] at hrun2
  obtain ⟨R1, ⟨hres, hnd1, he, hmsg⟩, hall, _⟩ :=
    visitAll_acyclic env (Tree.get t) rank N hclean (fun k v hk _ => hflat k v hk) _ _ t.keys
      (fun k hk => by
        obtain ⟨v, hv⟩ := get_of_mem_keys t k hk
        obtain ⟨s, hs⟩ := hflat k v hv
        subst hs
        exact ⟨⟨s, hv⟩, hN k hk⟩)
      [] (fresh t) pr
      ⟨fun k => ⟨fun hk => by simp at hk, fun _ => rfl⟩, List.nodup_nil, rfl, by simp [fresh]⟩
      hrun2
  have hperm : R1.Perm t.keys := by
    rw [List.perm_ext_iff_of_nodup hnd1 hnd]
    intro a
    constructor
    · intro ha
      obtain ⟨s, hs, _⟩ := (hres a).1 ha
      exact mem_keys_of_get t a _ hs
    · exact hall a
  refine ⟨pr, hrun, he, hkeys, ?_, hmsg.trans (List.Perm.flatMap_right _ hperm)⟩
  intro k s hs
  obtain ⟨s1, hs1, hg, _⟩ := (hres k).1 (hall k (mem_keys_of_get t k _ hs))
  rw [hs] at hs1
  simp only [Option.some.injEq, Value.str.injEq] at hs1
  rw [hs1]
  exact hg

/-! ## Cycle error and visit order on acyclic trees -/

theorem Tree.get_perm (t1 t2 : Tree) (hperm : t1.Perm t2) (hnd : t1.keys.Nodup) (k : Str) :
    Tree.get t1 k = Tree.get t2 k := by
  have hnd2 : t2.keys.Nodup := (List.Perm.nodup_iff (hperm.map Prod.fst)).1 hnd
  cases h1 : Tree.get t1 k with
  | none =>
    rw [Tree.get_eq_none_iff] at h1
    symm
    rw [Tree.get_eq_none_iff]
    exact fun h2 => h1 ((hperm.map Prod.fst).mem_iff.2 h2)
  | some v =>
    exact (Tree.get_of_mem t2 k v hnd2 (hperm.mem_iff.1 (Tree.mem_of_get t1 k v h1))).symm

theorem Tree.perm_of_get (m1 m2 : Tree) (h1 : m1.keys.Nodup) (h2 : m2.keys.Nodup)
    (h : ∀ k, Tree.get m1 k = Tree.get m2 k) : m1.Perm m2 := by
  rw [List.perm_ext_iff_of_nodup (List.Nodup.of_map _ h1) (List.Nodup.of_map _ h2)]
  intro e
  obtain ⟨k, v⟩ := e
  constructor
  · intro he
    exact Tree.mem_of_get m2 k v (by rw [← h k]; exact Tree.get_of_mem m1 k v h1 he)
  · intro he
    exact Tree.mem_of_get m1 k v (by rw [h k]; exact Tree.get_of_mem m2 k v h2 he)

theorem acyclicTree_perm (rank : Str → Nat) (t1 t2 : Tree) (hperm : t1.Perm t2)
    (h : acyclicTree rank t1 = true) : acyclicTree rank t2 = true := by
  unfold acyclicTree at *
  rw [List.all_eq_true] at *
  exact fun e he => h e (hperm.mem_iff.2 he)

theorem rank_le_sum (rank : Str → Nat) (t : Tree) (k : Str) (hk : k ∈ t.keys) :
    rank k ≤ (t.keys.map rank).sum :=
  List.le_sum_of_mem (List.mem_map_of_mem rank hk)

/-- C15 (amended): for every flat tree of clean strings (in each value `$` and
`{` occur only as the two characters that open a closed span, the text between
the braces holding no `$` and no `{`) with distinct keys whose reference graph
is acyclic, that is, for which some rank decreases along every reference, and
for every visit order (the order of the entries) and every engine,
`resolvePlaceholdersFromTop` returns a nil error, however often a value
references the same property. -/
theorem acyclic_no_cycle_error (env : Env) (rank : Str → Nat) (t : Tree)
    (hnd : t.keys.Nodup) (hac : acyclicTree rank t = true) :
    ∃ pr, resolvePlaceholdersFromTop env (fresh t) = .ok pr ∧ pr.error = none := by
  obtain ⟨pr, hrun, he, _⟩ := acyclic_run env rank t (t.keys.map rank).sum hnd hac
    (fun k hk => rank_le_sum rank t k hk)
  exact ⟨pr, hrun, he⟩

/-- C15 (amended), witness: `a` references `x` twice in sibling positions, `x`
references `z`. -/
theorem acyclic_no_cycle_error_witness :
    (tree [("a", .str (ph "x" ++ ph "x")), ("x", .str (ph "z")), ("z", sv "1")]).keys.Nodup ∧
    acyclicTree (rankTable [("a", 2), ("x", 1)])
      (tree [("a", .str (ph "x" ++ ph "x")), ("x", .str (ph "z")), ("z", sv "1")]) = true ∧
    ∃ pr, resolvePlaceholdersFromTop rejectingEnv
        (fresh (tree [("a", .str (ph "x" ++ ph "x")), ("x", .str (ph "z")), ("z", sv "1")])) =
      .ok pr ∧ pr.error = none :=
  ⟨by decide, rfl,
   acyclic_no_cycle_error rejectingEnv (rankTable [("a", 2), ("x", 1)])
     (tree [("a", .str (ph "x" ++ ph "x")), ("x", .str (ph "z")), ("z", sv "1")])
     (by decide) rfl⟩

/-- C15, counterexample: `y` holds the two characters `$`, `{` and nothing
else, so it references nothing, and `a` references `y` twice in sibling
positions; the reference graph is acyclic and no value holds a template marker.
In both visit orders the run returns the cycle error for `y`: the first span
puts `y` in the guard, the resolved text of `y` still holds the two characters,
and the second span finds `y` in the guard.  The same happens when `p` holds
the span of an absent `x` with, as default, the span of `y`: `p` references
only `x`, its resolved text is the span of `y`, and the second reference of `a`
to `p` is reported as a cycle. -/
theorem sibling_reference_flagged :
    resolvePlaceholdersFromTop rejectingEnv
        (fresh (tree [("a", .str (ph "y" ++ ph "y")), ("y", .str openMark)])) =
      .ok { data := tree [("a", .str openMark), ("y", sv "")],
            error := some (stackOverflowMsg "y".toList), messages := [] } ∧
    resolvePlaceholdersFromTop rejectingEnv
        (fresh (tree [("y", .str openMark), ("a", .str (ph "y" ++ ph "y"))])) =
      .ok { data := tree [("y", .str openMark), ("a", .str openMark)],
            error := some (stackOverflowMsg "y".toList), messages := [] } ∧
    nextMatch openMark = none ∧
    usesTemplate openMark = false ∧ usesTemplate (ph "y" ++ ph "y") = false ∧
    resolvePlaceholdersFromTop rejectingEnv
        (fresh (tree [("a", .str (ph "p" ++ ph "p")),
                      ("p", .str (matchText ("x:".toList ++ openMark ++ "y".toList) ++
                        [rbrace]))])) =
      .ok { data := tree [("a", .str (ph "y")), ("p", sv "")],
            error := some (stackOverflowMsg "p".toList), messages := [] } :=
  ⟨rfl, rfl, by decide, by decide, by decide, rfl⟩

/-- C18 (amended): for every flat tree of clean strings with distinct keys
whose reference graph is acyclic (some rank decreases along every reference),
any two orders of its entries give, with every engine, the same resolved tree
(the same keys, the same value under every key), a nil error, and the same
diagnostics up to their order. -/
theorem order_independence (env : Env) (rank : Str → Nat) (t1 t2 : Tree)
    (hperm : t1.Perm t2) (hnd : t1.keys.Nodup) (hac : acyclicTree rank t1 = true) :
    ∃ pr1 pr2, resolvePlaceholdersFromTop env (fresh t1) = .ok pr1 ∧
      resolvePlaceholdersFromTop env (fresh t2) = .ok pr2 ∧
      pr1.data.keys = t1.keys ∧ pr2.data.keys = t2.keys ∧
      (∀ k, Tree.get pr1.data k = Tree.get pr2.data k) ∧ pr1.data.Perm pr2.data ∧
      pr1.error = none ∧ pr2.error = none ∧ pr1.messages.Perm pr2.messages := by
  have hkperm : t1.keys.Perm t2.keys := hperm.map Prod.fst
  have hnd2 : t2.keys.Nodup := (List.Perm.nodup_iff hkperm).1 hnd
  have hlook : Tree.get t2 = Tree.get t1 := funext (fun k => (Tree.get_perm t1 t2 hperm hnd k).symm)
  obtain ⟨pr1, hrun1, he1, hk1, hv1, hm1⟩ := acyclic_run env rank t1 (t1.keys.map rank).sum hnd
    hac (fun k hk => rank_le_sum rank t1 k hk)
  obtain ⟨pr2, hrun2, he2, hk2, hv2, hm2⟩ := acyclic_run env rank t2 (t1.keys.map rank).sum hnd2
    (acyclicTree_perm rank t1 t2 hperm hac)
    (fun k hk => rank_le_sum rank t1 k (hkperm.mem_iff.2 hk))
  rw [hlook] at hv2 hm2
  have hget : ∀ k, Tree.get pr1.data k = Tree.get pr2.data k := by
    intro k
    cases hk : Tree.get t1 k with
    | none =>
      have h1 : Tree.get pr1.data k = none := by
        rw [Tree.get_eq_none_iff, hk1, ← Tree.get_eq_none_iff]
        exact hk
      have h2 : Tree.get pr2.data k = none := by
        rw [Tree.get_eq_none_iff, hk2]
        rw [Tree.get_eq_none_iff] at hk
        exact fun h => hk (hkperm.mem_iff.2 h)
      rw [h1, h2]
    | some v =>
      obtain ⟨s, hs, _⟩ := flat_of_acyclicTree rank t1 hac k v hk
      subst hs
      rw [hv1 k s hk, hv2 k s hk]
  refine ⟨pr1, pr2, hrun1, hrun2, hk1, hk2, hget, ?_, he1, he2, ?_⟩
  · exact Tree.perm_of_get pr1.data pr2.data (by rw [hk1]; exact hnd) (by rw [hk2]; exact hnd2)
      hget
  · exact hm1.trans ((List.Perm.flatMap_right _ hkperm).trans hm2.symm)

/-- The run on the inputs of the case `multi-level-recurse`, in the order of
the source, gives the expectation and the two diagnostics of the test. -/
theorem multiLevelRecurse_run :
    resolvePlaceholdersFromTop rejectingEnv (fresh multiLevelRecurse) =
      .ok { data := multiLevelRecurseExpectation, error := none,
            messages := [missingPlaceholderMsg (ph "") "b.d.a".toList,
                         missingValueMsg "missing".toList] } := by
  rfl

/-- C18 (amended), witness: the inputs of the case `multi-level-recurse` of
`Test_resolvePlaceholders`, in the order of the source and in the opposite
order. -/
theorem order_independence_witness :
    multiLevelRecurse.keys.Nodup ∧
    acyclicTree multiLevelRecurseRank multiLevelRecurse = true ∧
    ∃ pr1 pr2, resolvePlaceholdersFromTop rejectingEnv (fresh multiLevelRecurse) = .ok pr1 ∧
      resolvePlaceholdersFromTop rejectingEnv (fresh multiLevelRecurse.reverse) = .ok pr2 ∧
      pr1.data.keys = multiLevelRecurse.keys ∧ pr2.data.keys = Tree.keys multiLevelRecurse.reverse ∧
      (∀ k, Tree.get pr1.data k = Tree.get pr2.data k) ∧ pr1.data.Perm pr2.data ∧
      pr1.error = none ∧ pr2.error = none ∧ pr1.messages.Perm pr2.messages :=
  ⟨by decide, rfl,
   order_independence rejectingEnv multiLevelRecurseRank multiLevelRecurse
     multiLevelRecurse.reverse (List.reverse_perm _).symm (by decide) rfl⟩

/-- C18, counterexample: three flat trees of strings without template markers,
each in two orders.  With `x` a one-name cycle and `a` the span of a missing
name, the diagnostic of `a` is recorded when `a` is visited first and not when
`x` is.  With `a` a literal, `a` keeps its text when visited first and is
emptied when visited after `x`.  With `b` a `$` followed by the span of `c`
and `c` a name between braces, the run returns a nil error in both orders and
`a` ends as the span of `x` in one and as the empty text in the other. -/
theorem visit_order_changes_result :
    resolvePlaceholdersFromTop rejectingEnv
        (fresh (tree [("x", .str (ph "x")), ("a", .str (ph "missing"))])) =
      .ok { data := tree [("x", sv ""), ("a", sv "")],
            error := some (stackOverflowMsg "x".toList), messages := [] } ∧
    resolvePlaceholdersFromTop rejectingEnv
        (fresh (tree [("a", .str (ph "missing")), ("x", .str (ph "x"))])) =
      .ok { data := tree [("a", sv ""), ("x", sv "")],
            error := some (stackOverflowMsg "x".toList),
            messages := [missingValueMsg "missing".toList] } ∧
    ¬ ([] : List Str).Perm [missingValueMsg "missing".toList] ∧
    resolvePlaceholdersFromTop rejectingEnv
        (fresh (tree [("x", .str (ph "x")), ("a", sv "lit")])) =
      .ok { data := tree [("x", sv ""), ("a", sv "")],
            error := some (stackOverflowMsg "x".toList), messages := [] } ∧
    resolvePlaceholdersFromTop rejectingEnv
        (fresh (tree [("a", sv "lit"), ("x", .str (ph "x"))])) =
      .ok { data := tree [("a", sv "lit"), ("x", sv "")],
            error := some (stackOverflowMsg "x".toList), messages := [] } ∧
    resolvePlaceholdersFromTop rejectingEnv
        (fresh (tree [("a", .str (ph "b")), ("b", .str (dollar :: ph "c")),
                      ("c", .str (lbrace :: "x".toList ++ [rbrace]))])) =
      .ok { data := tree [("a", .str (ph "x")), ("b", sv ""),
                          ("c", .str (lbrace :: "x".toList ++ [rbrace]))],
            error := none, messages := [missingValueMsg "x".toList] } ∧
    resolvePlaceholdersFromTop rejectingEnv
        (fresh (tree [("b", .str (dollar :: ph "c")), ("a", .str (ph "b")),
                      ("c", .str (lbrace :: "x".toList ++ [rbrace]))])) =
      .ok { data := tree [("b", sv ""), ("a", sv ""),
                          ("c", .str (lbrace :: "x".toList ++ [rbrace]))],
            error := none, messages := [missingValueMsg "x".toList] } :=
  ⟨rfl, rfl, fun h => by simpa using h.length_eq, rfl, rfl, rfl, rfl⟩


/-! ## Chains in larger trees -/

theorem CleanBelow_matchText (rank : Str → Nat) (b : Nat) (q : Str) (hq : rbrace ∉ q)
    (h : CleanBelow rank b (matchText q)) : plainText q = true ∧ rank (spanName q) < b := by
  generalize hs : matchText q = s at h
  cases h with
  | literal _ hp =>
    have h1 := hasSub_openMark_of_plain _ hp
    rw [← hs, hasSub_openMark_matchText] at h1
    simp at h1
  | span w inner rest hw hi hr hrank _ =>
    have h1 := nextMatch_append w inner rest (hasSub_openMark_of_plain w hw) hr
    have h2 := nextMatch_append [] q [] (by decide) hq
    simp only [List.nil_append, List.append_nil] at h2
    rw [hs, h1] at h2
    simp only [Option.some.injEq, Prod.mk.injEq] at h2
    rw [← h2.2.1]
    exact ⟨hi, hrank⟩

theorem substSpans_matchText (f : Str → Str) (q : Str) (hq : rbrace ∉ q) :
    substSpans f (matchText q) = f (matchText q) := by
  have := substSpans_append f [] q [] (by decide) hq
  simp only [List.nil_append, List.append_nil] at this
  rw [this, substSpans_literal f [] (by decide)]
  simp

theorem collectSpans_matchText (g : Str → List Str) (q : Str) (hq : rbrace ∉ q) :
    collectSpans g (matchText q) = g (matchText q) := by
  have := collectSpans_append g [] q [] (by decide) hq
  simp only [List.nil_append, List.append_nil] at this
  rw [this, collectSpans_literal g [] (by decide)]
  simp

/-- In an acyclic clean tree that holds a chain, the resolved text of the value
of every name of the chain is the text at its end, and the value gives rise to
no diagnostic. -/
theorem chain_denote (rank : Str → Nat) (t : Tree) (hnd : t.keys.Nodup)
    (hac : acyclicTree rank t = true) (v : Str) (hv : hasSub openMark v = false) :
    ∀ (ps : List Str), (∀ p ∈ ps, wellFormedName p = true) →
      (∀ e ∈ chainEntries ps v, e ∈ t) →
      ∀ p ∈ ps, ∃ s, Tree.get t p = some (.str s) ∧ ownOf (Tree.get t) p = [] ∧
        ∀ N, rank p ≤ N → denote (Tree.get t) N s = v := by
  have hfc := flat_of_acyclicTree rank t hac
  intro ps
  induction ps with
  | nil => intro _ _ p hp; simp at hp
  | cons p rest ih =>
    intro hwf hin p1 hp1
    simp only [chainEntries, List.mem_cons, forall_eq_or_imp] at hin
    have ih1 := ih (fun x hx => hwf x (List.mem_cons_of_mem _ hx)) hin.2
    rcases List.mem_cons.mp hp1 with e | e
    · subst e
      have hg := Tree.get_of_mem t p1 _ hnd hin.1
      obtain ⟨s0, hs0, hclean⟩ := hfc p1 _ hg
      simp only [Value.str.injEq] at hs0
      cases rest with
      | nil =>
        simp only [List.head?_nil] at hg hs0
        subst hs0
        have hp := plain_of_clean _ _ _ hclean hv
        refine ⟨_, hg, ?_, fun N _ => denote_plain _ N _ hp⟩
        simp only [ownOf, hg, ownMsgs]
        exact collectSpans_literal _ _ (nextMatch_none_of_plain _ hp)
      | cons q rest1 =>
        simp only [List.head?_cons] at hg hs0
        subst hs0
        have hq := hwf q (by simp)
        have hqr := rbrace_not_mem_of_wellFormed q hq
        have hsplit := split_of_wellFormed q hq
        obtain ⟨_, hrank⟩ := CleanBelow_matchText rank (rank p1) q hqr hclean
        rw [spanName_eq q q [] hsplit] at hrank
        obtain ⟨s1, hg1, _, hden1⟩ := ih1 q (by simp)
        obtain ⟨s2, hs2, hclean1⟩ := hfc q _ hg1
        simp only [Value.str.injEq] at hs2
        subst hs2
        refine ⟨_, hg, ?_, ?_⟩
        · simp only [ownOf, hg, ownMsgs]
          rw [collectSpans_matchText _ q hqr]
          simp [spanMsgs, getPropertyClauseFromMatch_matchText, hsplit,
            ne_nil_of_wellFormed q hq, hg1]
        · intro N hN
          obtain ⟨n, rfl⟩ : ∃ n, N = n + 1 := ⟨N - 1, by omega⟩
          show substSpans (spanValue (Tree.get t) (denote (Tree.get t) n)) (matchText q) = v
          rw [substSpans_matchText _ q hqr]
          have hd := hden1 n (by omega)
          simp only [spanValue, getPropertyClauseFromMatch_matchText, hsplit,
            ne_nil_of_wellFormed q hq, if_false, hg1]
          by_cases hsub : hasSub openMark s1 = true
          · rw [if_pos hsub]
            exact hd
          · rw [if_neg hsub]
            have hp := plain_of_clean _ _ _ hclean1 (by simpa using hsub)
            rw [denote_plain _ n _ hp] at hd
            exact hd
    · exact ih1 p1 e

/-- C1, counterexample: the tree holds the chain `x`, `y` with `y` holding
`v`, and one more key.  With the key `c` that holds its own placeholder,
visited first, the cycle error is recorded, and `x` and `y` end up empty; the
error returned is not nil.  With the key `a` that holds the placeholder of an
absent name, the names of the chain hold `v` and the error is nil, but a
diagnostic is recorded. -/
theorem chain_beside_cycle :
    resolvePlaceholdersFromTop rejectingEnv
        (fresh (tree [("c", .str (ph "c")), ("x", .str (ph "y")), ("y", sv "v")])) =
      .ok { data := tree [("c", sv ""), ("x", sv ""), ("y", sv "")],
            error := some "stack overflow found when resolving $\x7bc\x7d".toList,
            messages := [] } ∧
    (∀ e ∈ chainEntries ["x".toList, "y".toList] "v".toList,
      e ∈ tree [("c", .str (ph "c")), ("x", .str (ph "y")), ("y", sv "v")]) ∧
    resolvePlaceholdersFromTop rejectingEnv
        (fresh (tree [("a", .str (ph "missing")), ("x", .str (ph "y")), ("y", sv "v")])) =
      .ok { data := tree [("a", sv ""), ("x", sv "v"), ("y", sv "v")],
            error := none,
            messages := ["Missing value for property [missing]".toList] } ∧
    (∀ e ∈ chainEntries ["x".toList, "y".toList] "v".toList,
      e ∈ tree [("a", .str (ph "missing")), ("x", .str (ph "y")), ("y", sv "v")]) :=
  ⟨rfl, by
    intro e he
    simp only [chainEntries, List.head?_cons, List.head?_nil, List.mem_cons,
      List.not_mem_nil, or_false] at he
    rcases he with rfl | rfl <;> simp [tree, ph, sv], rfl, by
    intro e he
    simp only [chainEntries, List.head?_cons, List.head?_nil, List.mem_cons,
      List.not_mem_nil, or_false] at he
    rcases he with rfl | rfl <;> simp [tree, ph, sv]⟩

/-- C1 (amended): for a chain of distinct well-formed names `ps`, each holding
the placeholder of the next and the last holding a text `v` without the two
characters `$`, `{` in a row.  (1) For the flat tree made of the entries of
the chain alone, in any order, `v` not holding both template markers:
`resolvePlaceholdersFromTop` on a new resolver returns the tree in which every
name holds `v`, with a nil error and no diagnostic.  (2) For every flat tree
with distinct keys that holds the entries of the chain, in any order, among
clean strings whose reference graph is acyclic (some rank decreases along
every reference): the run returns with a nil error, every name of the chain
holds `v`, no diagnostic arises from the values of the chain, and the
diagnostics recorded are those of the values of the tree, in some order. -/
theorem transitive_resolution (env : Env) (ps : List Str) (v : Str)
    (hwf : ∀ p ∈ ps, wellFormedName p = true) (hv : hasSub openMark v = false) :
    (∀ t : Tree, ps.Nodup → usesTemplate v = false → t.Perm (chainEntries ps v) →
      ∃ pr, resolvePlaceholdersFromTop env (fresh t) = .ok pr ∧
        pr.data = t.keys.map (fun k => (k, .str v)) ∧ pr.error = none ∧ pr.messages = []) ∧
    (∀ (rank : Str → Nat) (t : Tree), t.keys.Nodup → acyclicTree rank t = true →
      (∀ e ∈ chainEntries ps v, e ∈ t) →
      ∃ pr, resolvePlaceholdersFromTop env (fresh t) = .ok pr ∧ pr.error = none ∧
        (∀ p ∈ ps, Tree.get pr.data p = some (.str v)) ∧
        (∀ p ∈ ps, ownOf (Tree.get t) p = []) ∧
        pr.messages.Perm (t.keys.flatMap (ownOf (Tree.get t)))) := by
  constructor
  · intro t hnd hvt ht
    obtain ⟨pr, hrun, h⟩ := chain_alone env ps v t hnd hwf hv hvt ht
    refine ⟨pr, ?_, h⟩
    unfold resolvePlaceholdersFromTop
    rw [resolvePlaceholders_top]
    exact hrun
  · intro rank t hnd hac hin
    obtain ⟨pr, hrun, he, _, hval, hmsg⟩ := acyclic_run env rank t (t.keys.map rank).sum hnd hac
      (fun k hk => rank_le_sum rank t k hk)
    have hch := chain_denote rank t hnd hac v hv ps hwf hin
    refine ⟨pr, hrun, he, ?_, fun p hp => (hch p hp).choose_spec.2.1, hmsg⟩
    intro p hp
    obtain ⟨s, hg, _, hden⟩ := hch p hp
    rw [hval p s hg, hden _ (rank_le_sum rank t p (mem_keys_of_get t p _ hg))]

/-- C1 (amended), witness: the tree of the spec, `x` holding the placeholder of
`y`, `y` the one of `z`, `z` holding `v`, visited in the order `y`, `x`, `z`;
and the same chain in a tree that also holds `a`, with the placeholders of `x`
and of an absent name. -/
theorem transitive_resolution_witness :
    (∃ pr, resolvePlaceholdersFromTop rejectingEnv
        (fresh (tree [("y", .str (ph "z")), ("x", .str (ph "y")), ("z", sv "v")])) = .ok pr ∧
      pr.data = tree [("y", sv "v"), ("x", sv "v"), ("z", sv "v")] ∧ pr.error = none ∧
      pr.messages = []) ∧
    (∃ pr, resolvePlaceholdersFromTop rejectingEnv
        (fresh (tree [("a", .str (ph "x" ++ ph "missing")), ("y", .str (ph "z")),
          ("x", .str (ph "y")), ("z", sv "v")])) = .ok pr ∧ pr.error = none ∧
      (∀ p ∈ ["x".toList, "y".toList, "z".toList], Tree.get pr.data p = some (sv "v")) ∧
      (∀ p ∈ ["x".toList, "y".toList, "z".toList],
        ownOf (Tree.get (tree [("a", .str (ph "x" ++ ph "missing")), ("y", .str (ph "z")),
          ("x", .str (ph "y")), ("z", sv "v")])) p = []) ∧
      pr.messages.Perm ((tree [("a", .str (ph "x" ++ ph "missing")), ("y", .str (ph "z")),
          ("x", .str (ph "y")), ("z", sv "v")]).keys.flatMap
        (ownOf (Tree.get (tree [("a", .str (ph "x" ++ ph "missing")), ("y", .str (ph "z")),
          ("x", .str (ph "y")), ("z", sv "v")]))))) :=
  ⟨(transitive_resolution rejectingEnv ["x".toList, "y".toList, "z".toList] "v".toList
      (by decide) (by decide)).1
      (tree [("y", .str (ph "z")), ("x", .str (ph "y")), ("z", sv "v")])
      (by decide) (by decide) (List.Perm.swap _ _ _),
   (transitive_resolution rejectingEnv ["x".toList, "y".toList, "z".toList] "v".toList
      (by decide) (by decide)).2
      (rankTable [("a", 3), ("x", 2), ("y", 1)])
      (tree [("a", .str (ph "x" ++ ph "missing")), ("y", .str (ph "z")),
        ("x", .str (ph "y")), ("z", sv "v")])
      (by decide) rfl (by
        intro e he
        simp only [chainEntries, List.head?_cons, List.head?_nil, List.mem_cons,
          List.not_mem_nil, or_false] at he
        rcases he with rfl | rfl | rfl <;> simp [tree, ph, sv])⟩

/-! ## Cycles in larger trees -/

theorem cycle_links_of_mem (ps : List Str) (t : Tree) (hndk : t.keys.Nodup)
    (hin : ∀ e ∈ cycleEntries ps, e ∈ t) :
    ∀ p ∈ ps, ∃ p2, p2 ∈ ps ∧ Tree.get t p = some (.str (matchText p2)) := by
  intro p hp
  have hpk : p ∈ (cycleEntries ps).keys := by rw [cycleEntries_keys]; exact hp
  obtain ⟨e, he, hfst⟩ := List.mem_map.mp hpk
  obtain ⟨a, b, hab, _, hb⟩ := cycleEntries_mem ps e he
  subst hab
  simp only at hfst
  subst hfst
  exact ⟨b, hb, Tree.get_of_mem t a _ hndk (hin _ he)⟩

theorem CycleInv_of_eq {t : Tree} {ps : List Str} {pr pr1 : PropertiesResolver}
    (h : CycleInv t ps pr) (hd : pr1.data = pr.data) (he : pr1.error = pr.error) :
    CycleInv t ps pr1 := by
  unfold CycleInv at *
  rw [hd, he]
  exact h

theorem CycleInv_set {t : Tree} {ps : List Str} {pr0 pr1 : PropertiesResolver}
    (hcyc : ∀ p ∈ ps, ∃ q, q ∈ ps ∧ Tree.get t p = some (.str (matchText q)))
    (h0 : CycleInv t ps pr0) (h1 : CycleInv t ps pr1)
    (hst : pr0.error ≠ none → pr1.error ≠ none) (name cur r : Str)
    (hget : Tree.get pr0.data name = some (.str cur)) (hr : plainText r = true)
    (hhit : (∃ q ∈ ps, cur = matchText q) → pr1.error ≠ none) :
    CycleInv t ps (pr1.assign [] name (.str r)) := by
  obtain ⟨hC, hS, hE, hD⟩ := h1
  have hS2 : StepFree pr1.data (pr1.assign [] name (.str r)).data := StepFree_set pr1.data name r hr
  refine ⟨CleanData_step hC hS2, StepFree_trans hS hS2, hE, ?_⟩
  by_cases he1 : pr1.error = none
  · right
    have hint := hD.resolve_left (fun h => h he1)
    intro p hp
    by_cases hpn : p = name
    · subst hpn
      exfalso
      have he0 : pr0.error = none := by
        by_contra hne
        exact hst hne he1
      have hint0 := h0.2.2.2.resolve_left (fun h => h he0)
      obtain ⟨q, hq, hgq⟩ := hcyc p hp
      rw [hint0 p hp, hgq] at hget
      simp only [Option.some.injEq, Value.str.injEq] at hget
      exact hhit ⟨q, hq, hget.symm⟩ he1
    · show Tree.get (Tree.set pr1.data name (.str r)) p = Tree.get t p
      rw [Tree.get_set_other _ _ _ _ hpn]
      exact hint p hp
  · exact Or.inl he1

theorem onMatch_cycleInv (env : Env) (t : Tree) (ps : List Str)
    (hwf : ∀ p ∈ ps, wellFormedName p = true)
    (hcyc : ∀ p ∈ ps, ∃ q, q ∈ ps ∧ Tree.get t p = some (.str (matchText q))) (pn : Str)
    (self : Str → Str → Machine → Except Fault (Str × Machine))
    (hself : ∀ name value st r st1, CycleInv t ps st.2 → Clean value →
      self name value st = .ok (r, st1) →
      CycleInv t ps st1.2 ∧ plainText r = true ∧ (st.2.error ≠ none → st1.2.error ≠ none) ∧
        ((∃ q ∈ ps, value = matchText q) → st1.2.error ≠ none))
    (inner : Str) (st : Machine) (r : Str) (st1 : Machine) (hI : CycleInv t ps st.2)
    (hi : plainText inner = true)
    (h : onMatch env self [] pn (matchText inner) st = .ok (r, st1)) :
    CycleInv t ps st1.2 ∧ plainText r = true ∧ (st.2.error ≠ none → st1.2.error ≠ none) ∧
      (inner ∈ ps → st1.2.error ≠ none) := by
  obtain ⟨stack, pr⟩ := st
  -- what a name of the cycle holds while the error is nil
  have hlive : inner ∈ ps → pr.error = none →
      splitColon (TrimSpace inner) = [inner] ∧ inner ≠ [] ∧
        ∃ q, q ∈ ps ∧ Tree.get pr.data inner = some (.str (matchText q)) := by
    intro hp he
    obtain ⟨q, hq, hgq⟩ := hcyc inner hp
    have hint := hI.2.2.2.resolve_left (fun h => h he)
    exact ⟨split_of_wellFormed inner (hwf inner hp), ne_nil_of_wellFormed inner (hwf inner hp),
      q, hq, by rw [hint inner hp]; exact hgq⟩
  unfold onMatch at h
  rw [getPropertyClauseFromMatch_matchText] at h
  cases hl : splitColon (TrimSpace inner) with
  | nil => exact absurd hl (splitColon_ne_nil _)
  | cons name more =>
    rw [hl] at h
    simp only at h
    by_cases hne : name = []
    · rw [if_pos hne] at h
      simp only [Except.ok.injEq, Prod.mk.injEq] at h
      rw [← h.1, ← h.2]
      refine ⟨CycleInv_of_eq hI rfl rfl, rfl, fun he => he, ?_⟩
      intro hp
      by_cases he : pr.error = none
      · obtain ⟨h1, h2, _⟩ := hlive hp he
        rw [hl] at h1
        simp only [List.cons.injEq] at h1
        exact absurd (h1.1.symm.trans hne) h2
      · exact he
    · rw [if_neg hne] at h
      cases hget : pr.resolvePropertyName name with
      | none =>
        rw [hget] at h
        simp only [recheck, hget] at h
        have hhit : inner ∈ ps → pr.error ≠ none := by
          intro hp he
          obtain ⟨h1, _, q, _, hgq⟩ := hlive hp he
          rw [hl] at h1
          simp only [List.cons.injEq] at h1
          rw [← h1.1] at hgq
          have hget2 : Tree.get pr.data name = none := hget
          rw [hget2] at hgq
          exact Option.noConfusion hgq
        cases more with
        | nil =>
          simp only [Except.ok.injEq, Prod.mk.injEq] at h
          rw [← h.1, ← h.2]
          exact ⟨CycleInv_of_eq hI rfl rfl, rfl, fun he => he, hhit⟩
        | cons d ds =>
          simp only [Except.ok.injEq, Prod.mk.injEq] at h
          rw [← h.1, ← h.2]
          refine ⟨hI, plainText_segment inner d hi ?_, fun he => he, hhit⟩
          rw [hl]
          simp
      | some v =>
        rw [hget] at h
        have hget2 : Tree.get pr.data name = some v := hget
        obtain ⟨cur, hv, hcur⟩ := hI.1 name v hget2
        subst hv
        simp only at h
        by_cases hsub : hasSub openMark cur = true
        · rw [if_pos hsub] at h
          by_cases hhas : Stack.has stack name = true
          · rw [if_pos hhas] at h
            simp only [Except.ok.injEq, Prod.mk.injEq] at h
            rw [← h.1, ← h.2]
            refine ⟨⟨hI.1, hI.2.1, Or.inr ⟨name, cur, rfl, ?_, hsub⟩, Or.inl (by simp)⟩, rfl,
              fun _ => by simp, fun _ => by simp⟩
            rcases hI.2.1 name with h1 | ⟨r2, h1, hr2⟩
            · rw [← h1]; exact hget2
            · rw [hget2] at h1
              simp only [Option.some.injEq, Value.str.injEq] at h1
              rw [h1, hasSub_openMark_of_plain r2 hr2] at hsub
              simp at hsub
          · rw [if_neg hhas] at h
            cases stack with
            | none => simp at h
            | some S =>
              simp only at h
              cases hr : self name cur (some (name :: S), pr) with
              | error e => rw [hr] at h; simp at h
              | ok q =>
                obtain ⟨r1, stack1, pr1⟩ := q
                rw [hr] at h
                simp only at h
                obtain ⟨hI1, hp1, hst1, hhit1⟩ :=
                  hself name cur (some (name :: S), pr) r1 (stack1, pr1) hI hcur hr
                have hg : Tree.get (pr1.assign [] name (.str r1)).data name = some (.str r1) :=
                  Tree.get_set_same pr1.data name _
                simp only [recheck, PropertiesResolver.resolvePropertyName, hg, Except.ok.injEq,
                  Prod.mk.injEq] at h
                rw [← h.1, ← h.2]
                refine ⟨CycleInv_set hcyc hI hI1 hst1 name cur r1 hget2 hp1 hhit1, hp1, hst1, ?_⟩
                intro hp
                by_cases he : pr.error = none
                · obtain ⟨h1, _, q, hq, hgq⟩ := hlive hp he
                  rw [hl] at h1
                  simp only [List.cons.injEq] at h1
                  rw [← h1.1, hget2] at hgq
                  simp only [Option.some.injEq, Value.str.injEq] at hgq
                  exact hhit1 ⟨q, hq, hgq⟩
                · exact hst1 he
        · rw [if_neg hsub] at h
          simp only [Except.ok.injEq, Prod.mk.injEq] at h
          rw [← h.1, ← h.2]
          refine ⟨hI, plain_of_clean _ _ cur hcur (by simpa using hsub), fun he => he, ?_⟩
          intro hp he
          obtain ⟨h1, _, q, _, hgq⟩ := hlive hp he
          rw [hl] at h1
          simp only [List.cons.injEq] at h1
          rw [← h1.1, hget2] at hgq
          simp only [Option.some.injEq, Value.str.injEq] at hgq
          rw [hgq, hasSub_openMark_matchText] at hsub
          exact hsub rfl

theorem resolveString_cycleInv (env : Env) (t : Tree) (ps : List Str)
    (hwf : ∀ p ∈ ps, wellFormedName p = true)
    (hcyc : ∀ p ∈ ps, ∃ q, q ∈ ps ∧ Tree.get t p = some (.str (matchText q))) :
    ∀ (f : Nat) (pn value : Str) (st : Machine) (r : Str) (st1 : Machine),
      CycleInv t ps st.2 → Clean value → resolveString env f [] pn value st = .ok (r, st1) →
      CycleInv t ps st1.2 ∧ plainText r = true ∧ (st.2.error ≠ none → st1.2.error ≠ none) ∧
        ((∃ q ∈ ps, value = matchText q) → st1.2.error ≠ none) := by
  intro f
  induction f with
  | zero =>
    intro pn value st r st1 _ _ h
    simp [resolveString] at h
  | succ f ih =>
    intro pn value st r st1 hI hv h
    have ht := usesTemplate_clean _ _ value hv
    by_cases he : st.2.error = none
    · rw [resolveString_plain env f [] pn value st ht he] at h
      have hstep : ∀ inner st r st1, CycleInv t ps st.2 → plainText inner = true →
          closure env f [] pn (matchText inner) st = .ok (r, st1) →
          CycleInv t ps st1.2 ∧ plainText r = true ∧ (st.2.error ≠ none → st1.2.error ≠ none) ∧
            (inner ∈ ps → st1.2.error ≠ none) :=
        fun inner st r st1 hI hi h =>
          onMatch_cycleInv env t ps hwf hcyc pn _
            (fun name value st r st1 h1 h2 h3 => ih name value st r st1 h1 h2 h3)
            inner st r st1 hI hi h
      have hall := ReplaceAllStringFunc_clean (fun _ => 0) 1 _ (fun st => CycleInv t ps st.2)
        (fun a b => a.2.error ≠ none → b.2.error ≠ none) (fun _ h => h)
        (fun _ _ _ h1 h2 h3 => h2 (h1 h3))
        (fun inner st r st1 hI hi _ _ h =>
          ⟨(hstep inner st r st1 hI hi h).1, (hstep inner st r st1 hI hi h).2.2.1,
            (hstep inner st r st1 hI hi h).2.1⟩)
        value hv st r st1 hI h
      refine ⟨hall.1, hall.2.2, hall.2.1, ?_⟩
      rintro ⟨q, hq, rfl⟩
      rw [ReplaceAllStringFunc_only _ q st (rbrace_not_mem_of_wellFormed q (hwf q hq))] at h
      cases hc : closure env f [] pn (matchText q) st with
      | error e => rw [hc] at h; simp at h
      | ok res =>
        obtain ⟨r2, st2⟩ := res
        rw [hc] at h
        simp only [Except.ok.injEq, Prod.mk.injEq] at h
        rw [← h.2]
        have hq2 : plainText q = true := (CleanBelow_matchText _ _ q
          (rbrace_not_mem_of_wellFormed q (hwf q hq)) hv).1
        exact (hstep q st r2 st2 hI hq2 hc).2.2.2 hq
    · rw [resolveString_shortCircuit env f [] pn value st ht he] at h
      simp only [Except.ok.injEq, Prod.mk.injEq] at h
      rw [← h.1, ← h.2]
      exact ⟨hI, rfl, fun h => h, fun _ => he⟩

theorem visit_cycleInv (env : Env) (t : Tree) (ps : List Str)
    (hwf : ∀ p ∈ ps, wellFormedName p = true)
    (hcyc : ∀ p ∈ ps, ∃ q, q ∈ ps ∧ Tree.get t p = some (.str (matchText q))) (sf : Nat)
    (walk : Path → PropertiesResolver → Except Fault PropertiesResolver) (k : Str)
    (pr pr1 : PropertiesResolver) (hI : CycleInv t ps pr)
    (h : visit env sf walk [] k pr = .ok pr1) :
    CycleInv t ps pr1 ∧ (pr.error ≠ none → pr1.error ≠ none) ∧
      (k ∈ ps → pr1.error ≠ none) := by
  cases hg : Tree.get pr.data k with
  | none =>
    simp only [visit, Tree.at, Option.some_bind, hg, Except.ok.injEq] at h
    rw [← h]
    refine ⟨hI, fun h => h, fun hp he => ?_⟩
    obtain ⟨q, _, hgq⟩ := hcyc k hp
    have hint := hI.2.2.2.resolve_left (fun h => h he)
    rw [hint k hp, hgq] at hg
    exact Option.noConfusion hg
  | some v =>
    obtain ⟨s, hv, hs⟩ := hI.1 k v hg
    subst hv
    rw [visit_str_top env sf walk k s pr hg] at h
    cases hr : resolveString env sf [] k s (newStack, pr) with
    | error e => rw [hr] at h; simp at h
    | ok q =>
      obtain ⟨r, stack1, pr2⟩ := q
      rw [hr] at h
      simp only [Except.ok.injEq] at h
      obtain ⟨hI2, hp, hst, hhit⟩ :=
        resolveString_cycleInv env t ps hwf hcyc sf k s (newStack, pr) r (stack1, pr2) hI hs hr
      rw [← h]
      refine ⟨CycleInv_set hcyc hI hI2 hst k s r hg hp hhit, hst, ?_⟩
      intro hk
      by_cases he : pr.error = none
      · obtain ⟨q, hq, hgq⟩ := hcyc k hk
        have hint := hI.2.2.2.resolve_left (fun h => h he)
        rw [hint k hk, hgq] at hg
        simp only [Option.some.injEq, Value.str.injEq] at hg
        exact hhit ⟨q, hq, hg.symm⟩
      · exact hst he

theorem visitAll_cycleInv (env : Env) (t : Tree) (ps : List Str)
    (hwf : ∀ p ∈ ps, wellFormedName p = true)
    (hcyc : ∀ p ∈ ps, ∃ q, q ∈ ps ∧ Tree.get t p = some (.str (matchText q))) (sf : Nat)
    (walk : Path → PropertiesResolver → Except Fault PropertiesResolver) :
    ∀ (ks : List Str) (pr pr1 : PropertiesResolver), CycleInv t ps pr →
      visitAll (visit env sf walk []) ks pr = .ok pr1 →
      CycleInv t ps pr1 ∧ (pr.error ≠ none → pr1.error ≠ none) ∧
        ((∃ k ∈ ks, k ∈ ps) → pr1.error ≠ none) := by
  intro ks
  induction ks with
  | nil =>
    intro pr pr1 hI h
    simp only [visitAll, Except.ok.injEq] at h
    rw [← h]
    exact ⟨hI, fun h => h, fun ⟨k, hk, _⟩ => by simp at hk⟩
  | cons k rest ih =>
    intro pr pr1 hI h
    simp only [visitAll] at h
    cases hr : visit env sf walk [] k pr with
    | error e => rw [hr] at h; simp at h
    | ok pr2 =>
      rw [hr] at h
      simp only at h
      obtain ⟨hI2, hst2, hk2⟩ := visit_cycleInv env t ps hwf hcyc sf walk k pr pr2 hI hr
      obtain ⟨hI3, hst3, hk3⟩ := ih pr2 pr1 hI2 h
      refine ⟨hI3, fun he => hst3 (hst2 he), ?_⟩
      rintro ⟨j, hj, hjp⟩
      rcases List.mem_cons.1 hj with e | e
      · subst e
        exact hst3 (hk2 hjp)
      · exact hk3 ⟨j, e, hjp⟩

/-- C2, counterexample: a tree that holds the one-name cycle of `x`.  With one
more key `t` that holds the empty template action, `x` visited first, the run
returns the parse error of `t`, not a cycle error.  With one more key `y` that
holds its own placeholder, `y` visited first, the run returns the cycle error
for `y`, which is not a name of the cycle of `x`. -/
theorem cycle_beside_other_errors :
    resolvePlaceholdersFromTop rejectingEnv
        (fresh (tree [("x", .str (ph "x")), ("t", .str (tmplOpen ++ tmplClose))])) =
      .ok { data := tree [("x", sv ""), ("t", sv "")],
            error := some "template: parse error".toList, messages := [],
            parsed := [tmplOpen ++ tmplClose] } ∧
    resolvePlaceholdersFromTop rejectingEnv
        (fresh (tree [("y", .str (ph "y")), ("x", .str (ph "x"))])) =
      .ok { data := tree [("y", sv ""), ("x", sv "")],
            error := some "stack overflow found when resolving $\x7by\x7d".toList,
            messages := [] } ∧
    "stack overflow found when resolving $\x7by\x7d".toList ≠
      "stack overflow found when resolving $\x7bx\x7d".toList ∧
    cycleEntries ["x".toList] = [("x".toList, .str (ph "x"))] :=
  ⟨rfl, rfl, by decide, rfl⟩

/-- C2 (amended): for a cycle of well-formed names `ps` (at least one), each
holding the placeholder of the next and the last the placeholder of the first.
(1) For the flat tree made of the entries of the cycle alone, the names being
distinct, in any order: `resolvePlaceholdersFromTop` on a new resolver returns
with the error `stack overflow found when resolving` followed by the
placeholder of one of the names.  (2) For every flat tree of clean strings
with distinct keys that holds the entries of the cycle, in any order: the run
returns with the error `stack overflow found when resolving` followed by the
placeholder of a key of the tree whose value holds the two characters that
open a placeholder. -/
theorem cycle_detection (env : Env) (ps : List Str) (hne : ps ≠ [])
    (hwf : ∀ p ∈ ps, wellFormedName p = true) :
    (∀ t : Tree, ps.Nodup → t.Perm (cycleEntries ps) →
      ∃ pr p, resolvePlaceholdersFromTop env (fresh t) = .ok pr ∧ p ∈ ps ∧
        pr.error =
          some ("stack overflow found when resolving $\x7b".toList ++ p ++ "\x7d".toList)) ∧
    (∀ t : Tree, t.keys.Nodup → cleanTree t = true → (∀ e ∈ cycleEntries ps, e ∈ t) →
      ∃ pr q s, resolvePlaceholdersFromTop env (fresh t) = .ok pr ∧
        pr.error =
          some ("stack overflow found when resolving $\x7b".toList ++ q ++ "\x7d".toList) ∧
        Tree.get t q = some (.str s) ∧ hasSub openMark s = true) := by
  constructor
  · intro t hnd ht
    obtain ⟨pr, p, hrun, hp, he⟩ := cycle_alone env ps t hne hnd hwf ht
    refine ⟨pr, p, ?_, hp, he⟩
    unfold resolvePlaceholdersFromTop
    rw [resolvePlaceholders_top]
    exact hrun
  · intro t hnd hclean hin
    have hcyc := cycle_links_of_mem ps t hnd hin
    have hC := CleanData_of_cleanTree t hclean
    obtain ⟨pr, hrun⟩ := resolvePlaceholdersFromTop_ok env (fresh t) (Good_of_CleanData t hC)
    have hrun2 := hrun
    unfold resolvePlaceholdersFromTop at hrun2
    rw [resolvePlaceholders_top] at hrun2
    obtain ⟨hI, _, hset⟩ := visitAll_cycleInv env t ps hwf hcyc _ _ _ (fresh t) pr
      ⟨hC, StepFree_refl t, Or.inl rfl, Or.inr (fun _ _ => rfl)⟩ hrun2
    obtain ⟨p, rest, rfl⟩ : ∃ p rest, ps = p :: rest := by
      cases ps with
      | nil => exact absurd rfl hne
      | cons p rest => exact ⟨p, rest, rfl⟩
    obtain ⟨q0, _, hg0⟩ := hcyc p (by simp)
    have herr := hset ⟨p, mem_keys_of_get t p _ hg0, by simp⟩
    rcases hI.2.2.1 with h1 | ⟨q, s, h1, h2, h3⟩
    · exact absurd h1 herr
    · exact ⟨pr, q, s, hrun, h1, h2, h3⟩

/-- C2 (amended), witness: the tree of the spec, `x` holding the placeholder of
`y` and `y` the one of `x`; and the same cycle in a tree that also holds `a`
with the placeholder of `x`, and a literal `b`. -/
theorem cycle_detection_witness :
    (∃ pr p, resolvePlaceholdersFromTop rejectingEnv
        (fresh (tree [("x", .str (ph "y")), ("y", .str (ph "x"))])) = .ok pr ∧
      p ∈ ["x".toList, "y".toList] ∧
      pr.error =
        some ("stack overflow found when resolving $\x7b".toList ++ p ++ "\x7d".toList)) ∧
    (∃ pr q s, resolvePlaceholdersFromTop rejectingEnv
        (fresh (tree [("a", .str (ph "x")), ("x", .str (ph "y")), ("b", sv "lit"),
          ("y", .str (ph "x"))])) = .ok pr ∧
      pr.error =
        some ("stack overflow found when resolving $\x7b".toList ++ q ++ "\x7d".toList) ∧
      Tree.get (tree [("a", .str (ph "x")), ("x", .str (ph "y")), ("b", sv "lit"),
          ("y", .str (ph "x"))]) q = some (.str s) ∧ hasSub openMark s = true) :=
  ⟨(cycle_detection rejectingEnv ["x".toList, "y".toList] (by decide) (by decide)).1
      (tree [("x", .str (ph "y")), ("y", .str (ph "x"))]) (by decide) (List.Perm.refl _),
   (cycle_detection rejectingEnv ["x".toList, "y".toList] (by decide) (by decide)).2
      (tree [("a", .str (ph "x")), ("x", .str (ph "y")), ("b", sv "lit"), ("y", .str (ph "x"))])
      (by decide) rfl (by
        intro e he
        simp only [cycleEntries, List.zipWith, List.cons_append, List.nil_append, List.mem_cons,
          List.not_mem_nil, or_false] at he
        rcases he with rfl | rfl <;> simp [tree, ph, sv])⟩

/-! ## Sequences in acyclic clean trees -/

theorem acyclicBelow_sound (rank : Str → Nat) (N : Nat) (t : Tree)
    (h : acyclicBelow rank N t = true) :
    (∀ k s, Tree.get t k = some (.str s) → rank k < N → CleanBelow rank (rank k) s) ∧
      (∀ k v, Tree.get t k = some v → rank k < N → ∃ s, v = .str s) := by
  unfold acyclicBelow at h
  rw [List.all_eq_true] at h
  constructor
  · intro k s hs hr
    have h1 := h (k, .str s) (Tree.mem_of_get t k _ hs)
    simp only [Bool.or_eq_true, decide_eq_true_eq] at h1
    rcases h1 with h1 | h1
    · omega
    · exact cleanBelow_sound _ _ _ s h1
  · intro k v hv hr
    have h1 := h (k, v) (Tree.mem_of_get t k _ hv)
    simp only [Bool.or_eq_true, decide_eq_true_eq] at h1
    rcases h1 with h1 | h1
    · omega
    · cases v with
      | str s => exact ⟨s, rfl⟩
      | seq _ => simp at h1
      | strs _ => simp at h1
      | map _ => simp at h1
      | other _ => simp at h1

theorem resolveElements_acyclic (env : Env) (look : Str → Option Value) (rank : Str → Nat)
    (N : Nat)
    (hclean : ∀ k s, look k = some (.str s) → rank k < N → CleanBelow rank (rank k) s)
    (hflat : ∀ k v, look k = some v → rank k < N → ∃ s, v = .str s) (sf : Nat) (pn : Str) :
    ∀ (es : List Str) (resolved : List Str) (S R : List Str) (pr : PropertiesResolver)
      (out : List Str) (st1 : Machine), (∀ e ∈ es, CleanBelow rank N e) →
      Resolved look (denote look N) R pr.data → R.Nodup → pr.error = none →
      (∀ n ∈ S, n ∈ R ∨ N ≤ rank n) →
      resolveElements env sf [] pn (es.map Value.str) resolved (some S, pr) = .ok (out, st1) →
      out = resolved ++ es.map (denote look N) ∧ st1.2.error = none := by
  intro es
  induction es with
  | nil =>
    intro resolved S R pr out st1 _ _ _ he _ h
    simp only [List.map_nil, resolveElements, Except.ok.injEq, Prod.mk.injEq] at h
    rw [← h.1, ← h.2]
    exact ⟨by simp, he⟩
  | cons e rest ih =>
    intro resolved S R pr out st1 hes hres hnd he hstack h
    simp only [List.map_cons, resolveElements] at h
    cases hr : resolveString env sf [] pn e (some S, pr) with
    | error err => rw [hr] at h; simp at h
    | ok q =>
      obtain ⟨r, st2⟩ := q
      rw [hr] at h
      simp only at h
      obtain ⟨hr1, _, S1, R1, pr1, hst2, hres1, hnd1, he1, newR, hR1, _, _, hg1, _⟩ :=
        resolveString_acyclic env look rank N hclean hflat sf pn e N S R pr r st2
          (hes e (List.mem_cons_self _ _)) (le_refl _) hres hnd he hstack hr
      subst hst2
      have hstack1 : ∀ n ∈ S1, n ∈ R1 ∨ N ≤ rank n := by
        intro n hn
        rcases hg1 n hn with h3 | h3
        · rcases hstack n h3 with h4 | h4
          · left; rw [hR1]; exact List.mem_append_right _ h4
          · exact Or.inr h4
        · exact Or.inl h3
      obtain ⟨ho, he2⟩ := ih (resolved ++ [r]) S1 R1 pr1 out st1
        (fun x hx => hes x (List.mem_cons_of_mem _ hx)) hres1 hnd1 he1 hstack1 h
      refine ⟨?_, he2⟩
      rw [ho, hr1]
      simp

theorem resolveElements_append (env : Env) (sf : Nat) (cm : Path) (pn : Str) :
    ∀ (xs ys : List Value) (resolved : List Str) (st : Machine),
      resolveElements env sf cm pn (xs ++ ys) resolved st =
        match resolveElements env sf cm pn xs resolved st with
        | .error e => .error e
        | .ok (out, st1) => resolveElements env sf cm pn ys out st1 := by
  intro xs
  induction xs with
  | nil => intro ys resolved st; rfl
  | cons x rest ih =>
    intro ys resolved st
    cases x with
    | str s =>
      simp only [List.cons_append, resolveElements]
      cases resolveString env sf cm pn s st with
      | error e => rfl
      | ok q =>
        obtain ⟨r, st1⟩ := q
        exact ih ys _ st1
    | seq _ => rfl
    | strs _ => rfl
    | map _ => rfl
    | other _ => rfl

theorem resolveElements_pending (env : Env) (f : Nat) (cm : Path) (pn : Str) (st : Machine)
    (he : st.2.error ≠ none) :
    ∀ (post : List Str) (resolved : List Str), (∀ e ∈ post, usesTemplate e = false) →
      resolveElements env (f + 1) cm pn (post.map Value.str) resolved st =
        .ok (resolved ++ post.map (fun _ => []), st) := by
  intro post
  induction post with
  | nil => intro resolved _; simp [resolveElements]
  | cons e rest ih =>
    intro resolved ht
    simp only [List.map_cons, resolveElements,
      resolveString_shortCircuit env f cm pn e st (ht e (List.mem_cons_self _ _)) he]
    rw [ih (resolved ++ [[]]) (fun x hx => ht x (List.mem_cons_of_mem _ hx))]
    simp

/-- C8, counterexample.  With `x` holding its own placeholder, element 0 of `a`
meets the cycle and element 1, the placeholder of `y`, resolves to the empty
text although `y` is `2` and the element alone, as a scalar string value of
the same tree, resolves to `2`.  With `x` holding the two characters `$`, `{`,
the second of two placeholders of `x` is reported as a cycle because the one
guard of the sequence still holds `x` from element 0, although the element
alone resolves without error.  In a sequence of the nested mapping `n`, where
the resolved value of `x` is assigned into `n` while lookups read the
top-level tree, the second of two placeholders of `x` is reported as a cycle
as well, although the element alone resolves without error.  And an element
that renders the template `T` gives `x` after an element that defines `T`,
while alone it fails at execution and gives the empty text. -/
theorem array_elements_not_independent :
    (resolvePlaceholdersFromTop rejectingEnv
        (fresh (tree [("a", .seq [.str (ph "x"), .str (ph "y")]), ("x", .str (ph "x")),
          ("y", sv "2")])) =
      .ok { data := tree [("a", .strs [[], []]), ("x", sv ""), ("y", sv "")],
            error := some "stack overflow found when resolving $\x7bx\x7d".toList,
            messages := [] } ∧
      resolvePlaceholdersFromTop rejectingEnv
        (fresh (tree [("a", .str (ph "y")), ("x", .str (ph "x")), ("y", sv "2")])) =
      .ok { data := tree [("a", sv "2"), ("x", sv ""), ("y", sv "")],
            error := some "stack overflow found when resolving $\x7bx\x7d".toList,
            messages := [] }) ∧
    (resolvePlaceholdersFromTop rejectingEnv
        (fresh (tree [("a", .seq [.str (ph "x"), .str (ph "x")]), ("x", .str openMark)])) =
      .ok { data := tree [("a", .strs [openMark, []]), ("x", sv "")],
            error := some "stack overflow found when resolving $\x7bx\x7d".toList,
            messages := [] } ∧
      resolvePlaceholdersFromTop rejectingEnv
        (fresh (tree [("a", .str (ph "x")), ("x", .str openMark)])) =
      .ok (fresh (tree [("a", .str openMark), ("x", .str openMark)]))) ∧
    (visit rejectingEnv 4 (resolvePlaceholders rejectingEnv 4 0) ["n".toList] "a".toList
        (fresh (tree [("n", .map (tree [("a", .seq [.str (ph "x"), .str (ph "x")])])),
          ("x", .str (ph "y")), ("y", sv "1")])) =
      .ok { data := tree [("n", .map (tree [("a", .strs [ph "y", []]), ("x", sv "1")])),
              ("x", .str (ph "y")), ("y", sv "1")],
            error := some "stack overflow found when resolving $\x7bx\x7d".toList,
            messages := [] } ∧
      visit rejectingEnv 4 (resolvePlaceholders rejectingEnv 4 0) ["n".toList] "a".toList
        (fresh (tree [("n", .map (tree [("a", .str (ph "x"))])),
          ("x", .str (ph "y")), ("y", sv "1")])) =
      .ok (fresh (tree [("n", .map (tree [("a", .str (ph "y")), ("x", sv "1")])),
          ("x", .str (ph "y")), ("y", sv "1")]))) ∧
    (resolvePlaceholdersFromTop definingEnv
        (fresh (tree [("a", .seq [.str defineT, .str useT])])) =
      .ok { data := tree [("a", .strs ["y".toList, "x".toList])],
            error := none, messages := [], parsed := [defineT, useT] } ∧
      resolvePlaceholdersFromTop definingEnv (fresh (tree [("a", .str useT)])) =
      .ok { data := tree [("a", sv "")], error := none, messages := [],
            parsed := [useT] }) :=
  ⟨⟨rfl, rfl⟩, ⟨rfl, rfl⟩, ⟨rfl, rfl⟩, ⟨rfl, rfl⟩⟩

/-- C8 (amended): the elements of a sequence of strings are resolved in index
order through the one resolver state and the one guard of the sequence.
(1) For a sequence under a top-level key, reached with a nil error, whose
elements are clean texts (no template markers, every `$` and brace part of a
well-formed span) and refer, directly and through the values they reach, only
to properties that are absent or hold clean strings, along references that end
(a rank decreases along every reference; the properties the elements do not
reach are arbitrary): the visit returns with a nil error, the key holds the
sequence of the resolved elements, and the resolved element at every index is
what resolving that element alone, as the walker resolves a scalar string
value (new guard, the same state), gives.  (2) For a sequence under any key:
once the elements up to some index have been resolved and a terminal error is
set, every later element that does not hold both template markers resolves to
the empty text. -/
theorem array_elements (env : Env) (sf : Nat)
    (walk : Path → PropertiesResolver → Except Fault PropertiesResolver) (cm : Path) (k : Str)
    (pr0 : PropertiesResolver) (es : List Str)
    (hseq : (Tree.at pr0.data cm).bind (fun m => Tree.get m k) =
      some (.seq (es.map Value.str))) :
    (∀ (rank : Str → Nat) (N : Nat), cm = [] → pr0.error = none → pr0.data.keys.length < sf →
      acyclicBelow rank N pr0.data = true →
      es.all (fun e => cleanBelow rank N e.length e) = true →
      ∃ rs pr1, visit env sf walk cm k pr0 = .ok pr1 ∧
        (Tree.at pr1.data cm).bind (fun m => Tree.get m k) = some (.strs rs) ∧
        pr1.error = none ∧
        List.Forall₂ (fun e r => ∃ st, resolveString env sf cm k e (newStack, pr0) = .ok (r, st))
          es rs) ∧
    (∀ (pre post rsPre : List Str) (S1 : Stack) (pr1 : PropertiesResolver), 0 < sf →
      es = pre ++ post →
      resolveElements env sf cm k (pre.map Value.str) [] (newStack, pr0) = .ok (rsPre, S1, pr1) →
      pr1.error ≠ none → (∀ e ∈ post, usesTemplate e = false) →
      visit env sf walk cm k pr0 =
        .ok (pr1.assign cm k (.strs (rsPre ++ post.map (fun _ => []))))) := by
  constructor
  · intro rank N hcm he hsf hready hes
    subst hcm
    obtain ⟨hclean, hflat⟩ := acyclicBelow_sound rank N pr0.data hready
    have hes2 : ∀ e ∈ es, CleanBelow rank N e := by
      intro e hmem
      rw [List.all_eq_true] at hes
      exact cleanBelow_sound _ _ _ e (hes e hmem)
    have hres0 : Resolved (Tree.get pr0.data) (denote (Tree.get pr0.data) N) [] pr0.data :=
      fun j => ⟨fun hj => by simp at hj, fun _ => rfl⟩
    -- the loop over the elements returns
    have h1 := resolveElements_outcome env sf [] k (es.map Value.str) [] (newStack, pr0) hsf
    have h2 := resolveElements_noPanic env sf [] k (es.map Value.str) [] (newStack, pr0)
      (by simp [newStack]) (by
        intro x hx
        obtain ⟨e, _, rfl⟩ := List.mem_map.mp hx
        exact ⟨e, rfl⟩)
    cases hr : resolveElements env sf [] k (es.map Value.str) [] (newStack, pr0) with
    | error e =>
      rw [hr] at h1 h2
      exact absurd h2 h1
    | ok q =>
      obtain ⟨out, S1, pr1⟩ := q
      obtain ⟨ho, he1⟩ := resolveElements_acyclic env (Tree.get pr0.data) rank N hclean hflat sf
        k es [] [] [] pr0 out (S1, pr1) hes2 hres0 List.nodup_nil he (fun _ hn => by simp at hn)
        hr
      simp only [List.nil_append] at ho
      refine ⟨out, pr1.assign [] k (.strs out), ?_, ?_, he1, ?_⟩
      · unfold visit
        rw [hseq]
        simp only [hr]
      · simp only [Tree.at, Option.some_bind, assign_top]
        exact Tree.get_set_same _ _ _
      · rw [ho, List.forall₂_map_right_iff, List.forall₂_same]
        intro e hmem
        have h3 := resolveString_total env pr0.data.keys sf [] k e (newStack, pr0)
          (fun _ h => h) (lt_of_le_of_lt (stackPending_le _ _) hsf)
        have h4 := resolveString_noPanic env sf [] k e (newStack, pr0) (by simp [newStack])
        cases hre : resolveString env sf [] k e (newStack, pr0) with
        | error err =>
          rw [hre] at h3 h4
          exact absurd h4 h3
        | ok q2 =>
          obtain ⟨r, st2⟩ := q2
          have := resolveString_acyclic env (Tree.get pr0.data) rank N hclean hflat sf k e N []
            [] pr0 r st2 (hes2 e hmem) (le_refl _) hres0 List.nodup_nil he
            (fun _ hn => by simp at hn) hre
          exact ⟨st2, by rw [this.1]⟩
  · intro pre post rsPre S1 pr1 hsf hes hpre herr ht
    obtain ⟨f, rfl⟩ : ∃ f, sf = f + 1 := ⟨sf - 1, by omega⟩
    unfold visit
    rw [hseq, hes]
    simp only [List.map_append]
    rw [resolveElements_append, hpre]
    simp only
    rw [resolveElements_pending env f cm k (S1, pr1) herr post rsPre ht]

/-- C8 (amended), witness.  The tree of the spec, `a` holding the placeholders
of `x` and of `y`, `x` being `1` and `y` being `2`: the sequence becomes `1`,
`2`, and each element alone resolves to the same text.  A tree in which the
elements recurse, `x` holding the placeholder of `y`: the second element names
`x` again and `y`.  And the tree in which `x` holds its own placeholder:
element 0 sets the cycle error and element 1 becomes the empty text. -/
theorem array_elements_witness :
    visit rejectingEnv 4 (resolvePlaceholders rejectingEnv 4 0) [] "a".toList
        (fresh (tree [("a", .seq [.str (ph "x"), .str (ph "y")]), ("x", sv "1"), ("y", sv "2")])) =
      .ok (fresh (tree [("a", .strs ["1".toList, "2".toList]), ("x", sv "1"), ("y", sv "2")])) ∧
    (∃ rs pr1, visit rejectingEnv 4 (resolvePlaceholders rejectingEnv 4 0) [] "a".toList
        (fresh (tree [("a", .seq [.str (ph "x"), .str (ph "y")]), ("x", sv "1"), ("y", sv "2")])) =
      .ok pr1 ∧
      (Tree.at pr1.data []).bind (fun m => Tree.get m "a".toList) = some (.strs rs) ∧
      pr1.error = none ∧
      List.Forall₂ (fun e r => ∃ st, resolveString rejectingEnv 4 [] "a".toList e
        (newStack, fresh (tree [("a", .seq [.str (ph "x"), .str (ph "y")]), ("x", sv "1"),
          ("y", sv "2")])) = .ok (r, st)) [ph "x", ph "y"] rs) ∧
    (∃ rs pr1, visit rejectingEnv 4 (resolvePlaceholders rejectingEnv 4 0) [] "a".toList
        (fresh (tree [("a", .seq [.str (ph "x"), .str (ph "x" ++ ph "y")]), ("x", .str (ph "y")),
          ("y", sv "2")])) =
      .ok pr1 ∧
      (Tree.at pr1.data []).bind (fun m => Tree.get m "a".toList) = some (.strs rs) ∧
      pr1.error = none ∧
      List.Forall₂ (fun e r => ∃ st, resolveString rejectingEnv 4 [] "a".toList e
        (newStack, fresh (tree [("a", .seq [.str (ph "x"), .str (ph "x" ++ ph "y")]),
          ("x", .str (ph "y")), ("y", sv "2")])) = .ok (r, st)) [ph "x", ph "x" ++ ph "y"] rs) ∧
    visit rejectingEnv 4 (resolvePlaceholders rejectingEnv 4 0) [] "a".toList
        (fresh (tree [("a", .seq [.str (ph "x"), .str (ph "y")]), ("x", .str (ph "x")),
          ("y", sv "2")])) =
      .ok { data := tree [("a", .strs [[], []]), ("x", sv ""), ("y", sv "2")],
            error := some "stack overflow found when resolving $\x7bx\x7d".toList,
            messages := [] } :=
  ⟨rfl,
   (array_elements rejectingEnv 4 (resolvePlaceholders rejectingEnv 4 0) [] "a".toList
      (fresh (tree [("a", .seq [.str (ph "x"), .str (ph "y")]), ("x", sv "1"), ("y", sv "2")]))
      [ph "x", ph "y"] rfl).1 (rankTable [("a", 1)]) 1 rfl rfl (by decide) rfl rfl,
   (array_elements rejectingEnv 4 (resolvePlaceholders rejectingEnv 4 0) [] "a".toList
      (fresh (tree [("a", .seq [.str (ph "x"), .str (ph "x" ++ ph "y")]), ("x", .str (ph "y")),
        ("y", sv "2")]))
      [ph "x", ph "x" ++ ph "y"] rfl).1 (rankTable [("a", 2), ("x", 1)]) 2 rfl rfl (by decide)
      rfl rfl,
   ((array_elements rejectingEnv 4 (resolvePlaceholders rejectingEnv 4 0) [] "a".toList
      (fresh (tree [("a", .seq [.str (ph "x"), .str (ph "y")]), ("x", .str (ph "x")),
        ("y", sv "2")]))
      [ph "x", ph "y"] rfl).2 [ph "x"] [ph "y"] [[]] (some ["x".toList])
      { data := tree [("a", .seq [.str (ph "x"), .str (ph "y")]), ("x", sv ""), ("y", sv "2")],
        error := some "stack overflow found when resolving $\x7bx\x7d".toList,
        messages := [] }
      (by decide) rfl rfl (by simp) (by decide)).trans rfl⟩

end Glint
